import Mathlib

/-!
Verification of the DS-AL repository (single-file C++ data-structure demos).

Each namespace below is a shallow embedding of one source file:

* `DSAL.SparseMatrix` — `数组/矩阵/矩阵.cpp` (`TriSparseMatrix`: `SetElem`,
  `GetElem`, `SimpleTranspose`, `FastTranspose`)
* `DSAL.ArrayND`      — `数组/数组.cpp` (`Array<ElemType>::Locate`)
* `DSAL.StringPkg`    — `串/串.cpp` (`CharString`, `SimpleIndex`, `KMP_GetNext`,
  `Index_KMP`, the `Editor` command loop over `DblLinkList`)
* `DSAL.Sorting`      — `排序/交换排序.cpp` and `排序/基数排序.cpp`
* `DSAL.AVL`          — `查找/动态表查找.cpp` (`AVLInsert` and the rotations)
* `DSAL.Hash`         — `查找/哈希表.cpp` (`OpenAddressHashTable`)
* `DSAL.Huffman`      — `树/哈夫曼树与哈夫曼编码.cpp`

C `int` values are modelled as `Int` (no arithmetic here approaches 2^31),
array cells as total functions `Nat → _` or as `List _`, exceptions as
`Except`/`Option` results, and in-place loops as structural recursions or
folds that perform the same sequence of reads and writes as the source.
-/

namespace DSAL

namespace SparseMatrix

/-- `Triple<int>` from 矩阵.cpp: one non-zero entry `(row, col, value)`,
1-based indices.  Default construction zero-initialises all fields. -/
structure Triple where
  row : Int
  col : Int
  value : Int
deriving Repr, DecidableEq

instance : Inhabited Triple := ⟨⟨0, 0, 0⟩⟩

/-- `TriSparseMatrix<int>`: header fields plus the first `num` cells of the
triple table (`num = triples.length`); `maxSize` is the table capacity. -/
structure TriMat where
  rows : Int
  cols : Int
  maxSize : Nat
  triples : List Triple
deriving Repr, DecidableEq

/-- The comparison in `SetElem`'s scanning loop:
`r < triElems[pos].row || (r == triElems[pos].row && c < triElems[pos].col)`. -/
def ltKey (r c : Int) (t : Triple) : Bool :=
  r < t.row || (r == t.row && c < t.col)

/-- The backward scan of `SetElem`:
`for (pos = num-1; pos >= 0 && ltKey; --pos) {}` — processed here over the
reversed list, `pos` counting down; returns the final value of `pos`. -/
def findPosAux (r c : Int) : List Triple → Int → Int
  | [], pos => pos
  | t :: rest, pos =>
      if ltKey r c t then findPosAux r c rest (pos - 1) else pos

/-- Position at which `SetElem` stops its backward scan (`-1` when it runs
past the front of the table). -/
def findPos (l : List Triple) (r c : Int) : Int :=
  findPosAux r c l.reverse ((l.length : Int) - 1)

/-- `TriSparseMatrix::SetElem(r, c, v)`: returns the `bool` result and the
state of the matrix afterwards. -/
def setElem (m : TriMat) (r c v : Int) : Bool × TriMat :=
  if r < 1 || r > m.rows || c < 1 || c > m.cols then (false, m)
  else
    let pos := findPos m.triples r c
    match m.triples.get? pos.toNat with
    | some t =>
      if pos ≥ 0 && t.row == r && t.col == c then
        if v == 0 then
          (true, { m with triples := m.triples.eraseIdx pos.toNat })
        else
          (true, { m with triples := m.triples.set pos.toNat { t with value := v } })
      else
        if v == 0 then (true, m)
        else if m.triples.length ≥ m.maxSize then (false, m)
        else (true, { m with triples := m.triples.insertIdx (pos + 1).toNat ⟨r, c, v⟩ })
    | none =>
        -- `pos = -1` (scan ran past the front) or `pos = num` (impossible):
        -- the `pos >= 0 && ...` test is false, so the "not present" branch runs.
        if v == 0 then (true, m)
        else if m.triples.length ≥ m.maxSize then (false, m)
        else (true, { m with triples := m.triples.insertIdx (pos + 1).toNat ⟨r, c, v⟩ })

/-- The scanning loop of `TriSparseMatrix::GetElem`: first triple equal to
`(r, c)` delivers its value; a lexicographically larger triple breaks the
scan; otherwise the default value `0` is delivered. -/
def entryScan (r c : Int) : List Triple → Int
  | [] => 0
  | t :: rest =>
      if t.row == r && t.col == c then t.value
      else if t.row > r || (t.row == r && t.col > c) then 0
      else entryScan r c rest

/-- `TriSparseMatrix::GetElem(r, c, v)`: `none` models the `false` return on
an out-of-range index (with `v` untouched), `some v` the `true` return. -/
def getElem? (m : TriMat) (r c : Int) : Option Int :=
  if r < 1 || r > m.rows || c < 1 || c > m.cols then none
  else some (entryScan r c m.triples)

/-- Strict lexicographic (row, col) order between adjacent triples — the
order `SetElem` maintains. -/
def tripleLt (a b : Triple) : Prop :=
  a.row < b.row ∨ (a.row = b.row ∧ a.col < b.col)

/-- Invariant of a `TriSparseMatrix` as maintained by `SetElem`: the triple
table is strictly (row, col)-sorted, every triple is in the 1-based range
with a non-zero value, and the table fits in the capacity. -/
def Wf (m : TriMat) : Prop :=
  m.triples.Pairwise tripleLt ∧
  (∀ t ∈ m.triples, 1 ≤ t.row ∧ t.row ≤ m.rows ∧ 1 ≤ t.col ∧ t.col ≤ m.cols ∧ t.value ≠ 0) ∧
  m.triples.length ≤ m.maxSize

/-- Some triple of the table already carries key `(r, c)`. -/
def keyOccurs (l : List Triple) (r c : Int) : Prop :=
  ∃ t ∈ l, t.row = r ∧ t.col = c

lemma ltKey_iff {r c : Int} {t : Triple} :
    ltKey r c t = true ↔ tripleLt ⟨r, c, 0⟩ t := by
  simp [ltKey, tripleLt]

lemma tripleLt_trans {a b c : Triple} (h₁ : tripleLt a b) (h₂ : tripleLt b c) :
    tripleLt a c := by
  rcases h₁ with h | ⟨he, h⟩ <;> rcases h₂ with h' | ⟨he', h'⟩
  · exact Or.inl (h.trans h')
  · exact Or.inl (he' ▸ h)
  · exact Or.inl (he ▸ h')
  · exact Or.inr ⟨he.trans he', h.trans h'⟩

lemma tripleLt_key_trichotomy (r c : Int) (t : Triple) :
    tripleLt ⟨r, c, 0⟩ t ∨ (t.row = r ∧ t.col = c) ∨ tripleLt t ⟨r, c, 0⟩ := by
  rcases lt_trichotomy r t.row with h | h | h
  · exact Or.inl (Or.inl h)
  · rcases lt_trichotomy c t.col with h' | h' | h'
    · exact Or.inl (Or.inr ⟨h.symm ▸ rfl, h'⟩)
    · exact Or.inr (Or.inl ⟨h.symm, h'.symm⟩)
    · exact Or.inr (Or.inr (Or.inr ⟨h ▸ rfl, h'⟩))
  · exact Or.inr (Or.inr (Or.inl h))

lemma findPosAux_eq (r c : Int) (xs : List Triple) (pos : Int) :
    findPosAux r c xs pos = pos - ((xs.takeWhile (ltKey r c)).length : Int) := by
  induction xs generalizing pos with
  | nil => simp [findPosAux]
  | cons t rest ih =>
      by_cases h : ltKey r c t
      · simp [findPosAux, h, ih]; ring
      · simp [findPosAux, h]

/-- In a sorted table every triple beyond the stopped prefix has a key
strictly above `(r, c)`. -/
lemma dropWhile_all_ltKey {l : List Triple} (hs : l.Pairwise tripleLt) (r c : Int) :
    ∀ t ∈ l.dropWhile (fun t => !(ltKey r c t)), ltKey r c t = true := by
  induction l with
  | nil => simp
  | cons x xs ih =>
      intro t ht
      by_cases hx : ltKey r c x
      · rw [List.dropWhile_cons] at ht
        simp only [hx] at ht
        simp only [Bool.not_true, Bool.false_eq_true, if_false] at ht
        rcases List.mem_cons.mp ht with rfl | hmem
        · exact hx
        · have hxt : tripleLt x t := (List.pairwise_cons.mp hs).1 t hmem
          exact ltKey_iff.mpr (tripleLt_trans (ltKey_iff.mp hx) hxt)
      · rw [List.dropWhile_cons] at ht
        simp only [hx] at ht
        simp only [Bool.not_false, if_true] at ht
        exact ih (List.pairwise_cons.mp hs).2 t ht

/-- `takeWhile` of a list all of whose members satisfy the predicate extended
by anything: the prefix passes through. -/
lemma takeWhile_append_of_all {p : Triple → Bool} {xs ys : List Triple}
    (hxs : ∀ t ∈ xs, p t = true) :
    (xs ++ ys).takeWhile p = xs ++ ys.takeWhile p := by
  induction xs with
  | nil => simp
  | cons x xt ih =>
      have hx := hxs x (by simp)
      simp only [List.cons_append, List.takeWhile_cons, hx, if_true]
      rw [ih (fun t ht => hxs t (by simp [ht]))]

/-- In a sorted table the scan of `SetElem` stops exactly at the end of the
prefix of triples whose key is `≤ (r, c)` lexicographically. -/
lemma findPos_sorted {l : List Triple} (hs : l.Pairwise tripleLt) (r c : Int) :
    findPos l r c = ((l.takeWhile (fun t => !(ltKey r c t))).length : Int) - 1 := by
  classical
  have hsplit : l.takeWhile (fun t => !(ltKey r c t)) ++
      l.dropWhile (fun t => !(ltKey r c t)) = l :=
    List.takeWhile_append_dropWhile _ _
  have hrev : l.reverse.takeWhile (ltKey r c) =
      (l.dropWhile (fun t => !(ltKey r c t))).reverse := by
    have h1 : l.reverse = (l.dropWhile (fun t => !(ltKey r c t))).reverse ++
        (l.takeWhile (fun t => !(ltKey r c t))).reverse := by
      conv_lhs => rw [← hsplit]
      simp
    rw [h1, takeWhile_append_of_all
      (fun t ht => dropWhile_all_ltKey hs r c t (List.mem_reverse.mp ht))]
    have h3 : (l.takeWhile (fun t => !(ltKey r c t))).reverse.takeWhile (ltKey r c) = [] := by
      match hAv : (l.takeWhile (fun t => !(ltKey r c t))).reverse with
      | [] => simp
      | a :: as =>
          have ha : a ∈ l.takeWhile (fun t => !(ltKey r c t)) := by
            have : a ∈ (l.takeWhile (fun t => !(ltKey r c t))).reverse := by
              rw [hAv]; simp
            exact List.mem_reverse.mp this
          have haP := List.mem_takeWhile_imp ha
          have haF : ltKey r c a = false := by simpa using haP
          simp [List.takeWhile_cons, haF]
    rw [h3]
    simp
  have hlen : l.length = (l.takeWhile (fun t => !(ltKey r c t))).length +
      (l.dropWhile (fun t => !(ltKey r c t))).length := by
    conv_lhs => rw [← hsplit]
    rw [List.length_append]
  rw [findPos, findPosAux_eq, hrev]
  simp [hlen]
  ring

lemma mem_takeWhile_not_lt {l : List Triple} {r c : Int} {t : Triple}
    (ht : t ∈ l.takeWhile (fun t => !(ltKey r c t))) : ¬ tripleLt ⟨r, c, 0⟩ t := by
  have := List.mem_takeWhile_imp ht
  intro hcon
  rw [ltKey_iff.mpr hcon] at this
  simp at this

/-- The key-equality test used by `GetElem` (and by our characterisations). -/
def keyEq (i j : Int) (t : Triple) : Bool :=
  t.row == i && t.col == j

lemma keyEq_iff {i j : Int} {t : Triple} :
    keyEq i j t = true ↔ t.row = i ∧ t.col = j := by
  simp [keyEq]

lemma keyOccurs_iff_find {l : List Triple} {i j : Int} :
    keyOccurs l i j ↔ (l.find? (keyEq i j)).isSome := by
  constructor
  · rintro ⟨t, ht, hr, hc⟩
    rcases List.find?_isSome.mpr ⟨t, ht, keyEq_iff.mpr ⟨hr, hc⟩⟩ with h
    exact h
  · intro h
    rcases Option.isSome_iff_exists.mp h with ⟨t, ht⟩
    exact ⟨t, List.mem_of_find?_eq_some ht, keyEq_iff.mp (List.find?_some ht)⟩

lemma tripleLt_iff {a b : Triple} :
    tripleLt a b ↔ (a.row < b.row ∨ (a.row = b.row ∧ a.col < b.col)) := Iff.rfl

/-- On a sorted table the early-break scan of `GetElem` computes the same
value as a plain first-match search with default `0`. -/
lemma entryScan_eq_find {l : List Triple} (hs : l.Pairwise tripleLt) (i j : Int) :
    entryScan i j l = ((l.find? (keyEq i j)).map Triple.value).getD 0 := by
  induction l with
  | nil => simp [entryScan]
  | cons t rest ih =>
      by_cases heq : t.row = i ∧ t.col = j
      · have hk : keyEq i j t = true := keyEq_iff.mpr heq
        simp [entryScan, List.find?_cons, hk, heq.1, heq.2]
      · have hne : keyEq i j t = false := by
          rw [Bool.eq_false_iff]; intro h; exact heq (keyEq_iff.mp h)
      -- does the head lie strictly above (i, j)?
        by_cases hup : i < t.row ∨ (t.row = i ∧ j < t.col)
        · -- break: result 0; and no later element matches either
          have hnone : rest.find? (keyEq i j) = none := by
            rw [List.find?_eq_none]
            intro u hu hku
            rcases keyEq_iff.mp hku with ⟨hr, hc⟩
            have htu := tripleLt_iff.mp ((List.pairwise_cons.mp hs).1 u hu)
            omega
          have hscan : entryScan i j (t :: rest) = 0 := by
            rw [entryScan]
            simp only [show (t.row == i && t.col == j) = false from hne,
              Bool.false_eq_true, if_false]
            simp only [show (t.row > i || (t.row == i && t.col > j)) = true from by
              simp only [Bool.or_eq_true, Bool.and_eq_true, decide_eq_true_eq, beq_iff_eq]
              omega, if_true]
          rw [hscan, List.find?_cons]
          simp [hne, hnone]
        · -- the head lies strictly below (i, j): skip it
          have hscan : entryScan i j (t :: rest) = entryScan i j rest := by
            rw [entryScan]
            simp only [show (t.row == i && t.col == j) = false from hne,
              Bool.false_eq_true, if_false]
            simp only [show (t.row > i || (t.row == i && t.col > j)) = false from by
              rw [Bool.eq_false_iff]
              intro hcon
              simp only [Bool.or_eq_true, Bool.and_eq_true, decide_eq_true_eq,
                beq_iff_eq] at hcon
              exact hup (by omega), Bool.false_eq_true, if_false]
          rw [hscan, ih (List.pairwise_cons.mp hs).2, List.find?_cons]
          simp [hne]

lemma set_append_cons {α : Type} (C B : List α) (y x : α) :
    (C ++ y :: B).set C.length x = C ++ x :: B := by
  induction C with
  | nil => rfl
  | cons a as ih => simpa using ih

lemma eraseIdx_append_cons {α : Type} (C B : List α) (y : α) :
    (C ++ y :: B).eraseIdx C.length = C ++ B := by
  induction C with
  | nil => rfl
  | cons a as ih => simpa using ih

lemma insertIdx_append {α : Type} (C B : List α) (x : α) :
    (C ++ B).insertIdx C.length x = C ++ x :: B := by
  induction C with
  | nil => rfl
  | cons a as ih => simpa using ih

lemma get?_append_cons {α : Type} (C B : List α) (u : α) :
    (C ++ u :: B).get? C.length = some u := by
  induction C with
  | nil => rfl
  | cons a as ih => simpa using ih

/-- When key `(r, c)` occurs in a sorted table, the table splits as
`C ++ u :: B` around the matching triple `u`, with `C` strictly below and `B`
strictly above the key, and `SetElem`'s scan stops exactly on `u`. -/
lemma decomp_occurs {l : List Triple} {r c : Int} (hs : l.Pairwise tripleLt)
    (hocc : keyOccurs l r c) :
    ∃ C u B, l = C ++ u :: B ∧ u.row = r ∧ u.col = c ∧
      (∀ x ∈ C, tripleLt x ⟨r, c, 0⟩) ∧ (∀ x ∈ B, tripleLt ⟨r, c, 0⟩ x) ∧
      findPos l r c = (C.length : Int) := by
  classical
  have hsplit : l.takeWhile (fun t => !(ltKey r c t)) ++
      l.dropWhile (fun t => !(ltKey r c t)) = l := List.takeWhile_append_dropWhile _ _
  have hApw : (l.takeWhile (fun t => !(ltKey r c t))).Pairwise tripleLt :=
    List.Pairwise.sublist (List.takeWhile_prefix _).sublist hs
  rcases hocc with ⟨t, htl, htr, htc⟩
  have htA : t ∈ l.takeWhile (fun t => !(ltKey r c t)) := by
    have : t ∈ l.takeWhile (fun t => !(ltKey r c t)) ∨
        t ∈ l.dropWhile (fun t => !(ltKey r c t)) := by
      rw [← List.mem_append, hsplit]; exact htl
    rcases this with h | h
    · exact h
    · have := ltKey_iff.mp (dropWhile_all_ltKey hs r c t h)
      rw [tripleLt_iff] at this
      simp only at this
      omega
  rcases List.eq_nil_or_concat (l.takeWhile (fun t => !(ltKey r c t))) with hA | ⟨C, u, hAeq'⟩
  · rw [hA] at htA; exact absurd htA (List.not_mem_nil t)
  have hAeq : l.takeWhile (fun t => !(ltKey r c t)) = C ++ [u] := by
    rw [hAeq']; simp [List.concat_eq_append]
  have hApw' : (C ++ [u]).Pairwise tripleLt := hAeq ▸ hApw
  have huA : u ∈ l.takeWhile (fun t => !(ltKey r c t)) := by rw [hAeq]; simp
  have hunot := mem_takeWhile_not_lt huA
  -- the matching triple is the last element of the prefix
  have hu : u.row = r ∧ u.col = c := by
    rw [hAeq] at htA
    rcases List.mem_append.mp htA with h | h
    · exfalso
      have hrel : tripleLt t u := (List.pairwise_append.mp hApw').2.2 t h u (by simp)
      rw [tripleLt_iff] at hrel hunot
      simp only at hrel hunot
      omega
    · have : t = u := by simpa using h
      exact ⟨this ▸ htr, this ▸ htc⟩
  refine ⟨C, u, l.dropWhile (fun t => !(ltKey r c t)), ?_, hu.1, hu.2, ?_, ?_, ?_⟩
  · conv_lhs => rw [← hsplit]
    rw [hAeq]
    simp
  · intro x hx
    have hrel : tripleLt x u := (List.pairwise_append.mp hApw').2.2 x hx u (by simp)
    rw [tripleLt_iff] at hrel ⊢
    simp only at hrel ⊢
    omega
  · intro x hx
    exact ltKey_iff.mp (dropWhile_all_ltKey hs r c x hx)
  · rw [findPos_sorted hs]
    have : (l.takeWhile (fun t => !(ltKey r c t))).length = C.length + 1 := by
      rw [hAeq]; simp
    rw [this]
    push_cast
    ring

/-- When key `(r, c)` does not occur in a sorted table, the table splits as
`C ++ B` with `C` strictly below and `B` strictly above the key, and
`SetElem`'s scan stops just before `B`. -/
lemma decomp_not_occurs {l : List Triple} {r c : Int} (hs : l.Pairwise tripleLt)
    (hnocc : ¬ keyOccurs l r c) :
    ∃ C B, l = C ++ B ∧
      (∀ x ∈ C, tripleLt x ⟨r, c, 0⟩) ∧ (∀ x ∈ B, tripleLt ⟨r, c, 0⟩ x) ∧
      findPos l r c = (C.length : Int) - 1 := by
  classical
  refine ⟨l.takeWhile (fun t => !(ltKey r c t)), l.dropWhile (fun t => !(ltKey r c t)),
    (List.takeWhile_append_dropWhile _ _).symm, ?_, ?_, findPos_sorted hs r c⟩
  · intro x hx
    have hnotx := mem_takeWhile_not_lt hx
    have hne : ¬ (x.row = r ∧ x.col = c) := fun h => hnocc ⟨x,
      (List.takeWhile_prefix _).subset hx, h.1, h.2⟩
    rw [tripleLt_iff] at hnotx ⊢
    simp only at hnotx ⊢
    omega
  · intro x hx
    exact ltKey_iff.mp (dropWhile_all_ltKey hs r c x hx)

lemma range_cond_false {m : TriMat} {r c : Int}
    (h : 1 ≤ r ∧ r ≤ m.rows ∧ 1 ≤ c ∧ c ≤ m.cols) :
    (r < 1 || r > m.rows || c < 1 || c > m.cols) = false := by
  simp only [Bool.or_eq_false_iff, decide_eq_false_iff_not, not_lt]
  refine ⟨⟨⟨?_, ?_⟩, ?_⟩, ?_⟩ <;> omega

lemma keyEq_bool_false {u : Triple} {r c : Int} (h : ¬(u.row = r ∧ u.col = c)) :
    (u.row == r && u.col == c) = false := by
  simp only [Bool.and_eq_false_iff, beq_eq_false_iff_ne, ne_eq]
  by_cases h' : u.row = r
  · exact Or.inr (fun hc => h ⟨h', hc⟩)
  · exact Or.inl h'

/-- Evaluation of `SetElem` when the key is present: branch ②③ of the source. -/
lemma setElem_eval_occurs (m : TriMat) {r c : Int} {C B : List Triple} {u : Triple}
    (hrange : 1 ≤ r ∧ r ≤ m.rows ∧ 1 ≤ c ∧ c ≤ m.cols)
    (hl : m.triples = C ++ u :: B) (hur : u.row = r) (huc : u.col = c)
    (hfp : findPos m.triples r c = (C.length : Int)) (v : Int) :
    setElem m r c v =
      if v = 0 then (true, { m with triples := C ++ B })
      else (true, { m with triples := C ++ { u with value := v } :: B }) := by
  rw [setElem]
  simp only [range_cond_false hrange, Bool.false_eq_true, if_false, hfp]
  have htn : ((C.length : Int)).toNat = C.length := Int.toNat_natCast _
  rw [htn, hl, get?_append_cons]
  dsimp only
  have hhit : (decide ((C.length : Int) ≥ 0) && u.row == r && u.col == c) = true := by
    simp [hur, huc]
  rw [hhit]
  simp only [if_true]
  by_cases hv : v = 0
  · simp only [hv, beq_self_eq_true, if_true, eraseIdx_append_cons]
  · simp only [show (v == 0) = false from by simpa using hv, Bool.false_eq_true, if_false,
      set_append_cons, hv]

/-- Evaluation of `SetElem` when the key is absent: branches ④⑤ of the source. -/
lemma setElem_eval_not_occurs (m : TriMat) {r c : Int} {C B : List Triple}
    (hrange : 1 ≤ r ∧ r ≤ m.rows ∧ 1 ≤ c ∧ c ≤ m.cols)
    (hl : m.triples = C ++ B)
    (hC : ∀ x ∈ C, tripleLt x ⟨r, c, 0⟩)
    (hfp : findPos m.triples r c = (C.length : Int) - 1) (v : Int) :
    setElem m r c v =
      if v = 0 then (true, m)
      else if m.triples.length ≥ m.maxSize then (false, m)
      else (true, { m with triples := C ++ ⟨r, c, v⟩ :: B }) := by
  rw [setElem]
  simp only [range_cond_false hrange, Bool.false_eq_true, if_false, hfp]
  have hins : (((C.length : Int) - 1) + 1).toNat = C.length := by omega
  have hv0 : ∀ w : TriMat × TriMat, True := fun _ => trivial
  rcases List.eq_nil_or_concat C with hCnil | ⟨D, x, hCeq⟩
  · -- scan stopped at position -1: the branch taken depends on `B`
    subst hCnil
    simp only [List.nil_append] at hl
    rcases B with _ | ⟨b, B'⟩
    · rw [hl]
      simp only [List.length_nil, List.get?_nil, hins, hl]
      by_cases hv : v = 0
      · simp [hv]
      · simp [show (v == 0) = false from by simpa using hv, hv, List.insertIdx]
    · rw [hl]
      have : (((0 : Int) - 1)).toNat = 0 := rfl
      simp only [List.length_nil, Nat.cast_zero, this, List.get?_cons_zero]
      have hneg : (decide ((0 : Int) - 1 ≥ 0) && b.row == r && b.col == c) = false := by
        simp
      rw [hneg]
      simp only [Bool.false_eq_true, if_false, hins]
      by_cases hv : v = 0
      · simp [hv]
      · simp only [show (v == 0) = false from by simpa using hv, Bool.false_eq_true,
          if_false, hv, List.insertIdx]
        rfl
  · -- scan stopped on the last element of C, which is strictly below (r, c)
    have hCeq' : C = D ++ [x] := by rw [hCeq]; simp [List.concat_eq_append]
    have hxC : x ∈ C := by rw [hCeq']; simp
    have hxlt := hC x hxC
    have hxne : ¬(x.row = r ∧ x.col = c) := by
      rw [tripleLt_iff] at hxlt
      simp only at hxlt
      omega
    have hlen : C.length = D.length + 1 := by rw [hCeq']; simp
    have htoNat : (((C.length : Int) - 1)).toNat = D.length := by omega
    have hget : m.triples.get? D.length = some x := by
      rw [hl, hCeq']
      have : D ++ [x] ++ B = D ++ x :: B := by simp
      rw [this, get?_append_cons]
    rw [htoNat, hget]
    dsimp only
    have hneg : (decide ((C.length : Int) - 1 ≥ 0) && x.row == r && x.col == c) = false := by
      rcases not_and_or.mp hxne with h | h <;> simp [h]
    rw [hneg]
    simp only [Bool.false_eq_true, if_false, hins]
    by_cases hv : v = 0
    · simp [hv]
    · simp only [show (v == 0) = false from by simpa using hv, Bool.false_eq_true,
        if_false, hv]
      by_cases hfull : m.triples.length ≥ m.maxSize
      · simp [hfull]
      · simp only [hfull, if_false, decide_eq_true_eq]
        rw [hl]
        rw [insertIdx_append]

lemma find?_keyEq_none_below {C : List Triple} {r c : Int}
    (hC : ∀ x ∈ C, tripleLt x ⟨r, c, 0⟩) : C.find? (keyEq r c) = none := by
  rw [List.find?_eq_none]
  intro x hx hk
  have h := hC x hx
  rcases keyEq_iff.mp hk with ⟨h1, h2⟩
  rw [tripleLt_iff] at h
  simp only at h
  omega

lemma find?_keyEq_none_above {B : List Triple} {r c : Int}
    (hB : ∀ x ∈ B, tripleLt ⟨r, c, 0⟩ x) : B.find? (keyEq r c) = none := by
  rw [List.find?_eq_none]
  intro x hx hk
  have h := hB x hx
  rcases keyEq_iff.mp hk with ⟨h1, h2⟩
  rw [tripleLt_iff] at h
  simp only at h
  omega

lemma pairwise_shape_insert {C B : List Triple} {x : Triple}
    (hpw : (C ++ B).Pairwise tripleLt)
    (hC : ∀ a ∈ C, tripleLt a x) (hB : ∀ b ∈ B, tripleLt x b) :
    (C ++ x :: B).Pairwise tripleLt := by
  rw [List.pairwise_append] at hpw ⊢
  obtain ⟨h1, h2, h3⟩ := hpw
  refine ⟨h1, List.pairwise_cons.mpr ⟨hB, h2⟩, ?_⟩
  intro a ha b hb
  rcases List.mem_cons.mp hb with rfl | hb
  · exact hC a ha
  · exact h3 a ha b hb

lemma pairwise_shape_drop {C B : List Triple} {x : Triple}
    (hpw : (C ++ x :: B).Pairwise tripleLt) : (C ++ B).Pairwise tripleLt := by
  rw [List.pairwise_append] at hpw ⊢
  obtain ⟨h1, h2, h3⟩ := hpw
  exact ⟨h1, (List.pairwise_cons.mp h2).2, fun a ha b hb => h3 a ha b (by simp [hb])⟩

/-- Core entry computation: a sorted table `C ++ u :: B` split around the key
`(r, c)` agrees with `C ++ B` at every position except `(r, c)`, where it
holds `u.value`. -/
lemma entryScan_shape {C B : List Triple} {u : Triple} {r c : Int}
    (hur : u.row = r) (huc : u.col = c)
    (hC : ∀ x ∈ C, tripleLt x ⟨r, c, 0⟩) (hB : ∀ x ∈ B, tripleLt ⟨r, c, 0⟩ x)
    (hpw : (C ++ u :: B).Pairwise tripleLt) (i k : Int) :
    entryScan i k (C ++ u :: B) =
      if i = r ∧ k = c then u.value else entryScan i k (C ++ B) := by
  have hpw' : (C ++ B).Pairwise tripleLt := pairwise_shape_drop hpw
  rw [entryScan_eq_find hpw, entryScan_eq_find hpw']
  by_cases hik : i = r ∧ k = c
  · obtain ⟨rfl, rfl⟩ := hik
    rw [List.find?_append, find?_keyEq_none_below hC, List.find?_cons]
    have : keyEq i k u = true := keyEq_iff.mpr ⟨hur, huc⟩
    simp [this]
  · have hu : keyEq i k u = false := by
      rw [Bool.eq_false_iff]
      intro h
      rcases keyEq_iff.mp h with ⟨h1, h2⟩
      exact hik ⟨h1 ▸ hur.symm ▸ rfl, h2 ▸ huc.symm ▸ rfl⟩
    rw [List.find?_append, List.find?_append, List.find?_cons]
    simp only [hu, if_neg hik]

/-- In a sorted table split as `C ++ B` around an absent key `(r, c)`, the
entry at `(r, c)` is `0`. -/
lemma entryScan_absent {C B : List Triple} {r c : Int}
    (hC : ∀ x ∈ C, tripleLt x ⟨r, c, 0⟩) (hB : ∀ x ∈ B, tripleLt ⟨r, c, 0⟩ x)
    (hpw : (C ++ B).Pairwise tripleLt) :
    entryScan r c (C ++ B) = 0 := by
  rw [entryScan_eq_find hpw, List.find?_append, find?_keyEq_none_below hC,
    find?_keyEq_none_above hB]
  rfl

/-- **C5.** In the `TriSparseMatrix` the error branches are atomic: `SetElem`
returns `false` exactly on an out-of-range 1-based index or on insertion of a
non-zero value into a full table, and then the whole state is unchanged; when
it returns `true` the table afterwards is still well-formed (strictly
(row, col)-sorted, in-range, no zero values stored) and denotes exactly the
old matrix with entry `(r, c)` set to `v`. -/
theorem setElem_atomic_exact (m : TriMat) (hwf : Wf m) (r c v : Int) :
    ((setElem m r c v).1 = false ↔
        (r < 1 ∨ r > m.rows ∨ c < 1 ∨ c > m.cols ∨
          (¬ keyOccurs m.triples r c ∧ v ≠ 0 ∧ m.triples.length = m.maxSize))) ∧
    ((setElem m r c v).1 = false → (setElem m r c v).2 = m) ∧
    ((setElem m r c v).1 = true →
        Wf (setElem m r c v).2 ∧
        (setElem m r c v).2.rows = m.rows ∧ (setElem m r c v).2.cols = m.cols ∧
        (setElem m r c v).2.maxSize = m.maxSize ∧
        ∀ i k : Int, getElem? (setElem m r c v).2 i k =
          if i = r ∧ k = c then some v else getElem? m i k) := by
  classical
  obtain ⟨hpw, hbd, hcap⟩ := hwf
  by_cases hrange : 1 ≤ r ∧ r ≤ m.rows ∧ 1 ≤ c ∧ c ≤ m.cols
  case neg =>
    -- out-of-range: `SetElem` fails leaving the state unchanged
    have hcond : (r < 1 || r > m.rows || c < 1 || c > m.cols) = true := by
      simp only [Bool.or_eq_true, decide_eq_true_eq]
      omega
    have heval : setElem m r c v = (false, m) := by
      rw [setElem, hcond]
      simp
    rw [heval]
    refine ⟨?_, fun _ => rfl, fun h => absurd h (by simp)⟩
    simp only [true_iff]
    omega
  case pos =>
    have hout : ¬ (r < 1 ∨ r > m.rows ∨ c < 1 ∨ c > m.cols) := by omega
    by_cases hocc : keyOccurs m.triples r c
    · obtain ⟨C, u, B, hl, hur, huc, hC, hB, hfp⟩ := decomp_occurs hpw hocc
      have hpwCB : (C ++ u :: B).Pairwise tripleLt := hl ▸ hpw
      rw [setElem_eval_occurs m hrange hl hur huc hfp v]
      by_cases hv : v = 0
      · -- delete the triple
        subst hv
        simp only [eq_self_iff_true, if_true]
        refine ⟨by simp [hocc, hout], by simp, fun _ => ?_⟩
        refine ⟨⟨pairwise_shape_drop hpwCB, ?_, ?_⟩, by trivial, by trivial, by trivial, ?_⟩
        · intro t ht
          exact hbd t (by rw [hl]; rcases List.mem_append.mp ht with h | h <;> simp [h])
        · simp only
          have : m.triples.length = (C ++ u :: B).length := by rw [hl]
          simp only [List.length_append, List.length_cons] at this
          simp only [List.length_append]
          omega
        · intro i k
          rw [getElem?, getElem?]
          by_cases hik : 1 ≤ i ∧ i ≤ m.rows ∧ 1 ≤ k ∧ k ≤ m.cols
          · have hcond' : (i < 1 || i > m.rows || k < 1 || k > m.cols) = false := by
              simp only [Bool.or_eq_false_iff, decide_eq_false_iff_not, not_lt]
              refine ⟨⟨⟨?_, ?_⟩, ?_⟩, ?_⟩ <;> omega
            rw [hcond']
            simp only [Bool.false_eq_true, if_false, hl]
            rw [entryScan_shape hur huc hC hB hpwCB i k]
            by_cases h : i = r ∧ k = c
            · have : u.value = 0 ∨ u.value ≠ 0 := em _
              -- the deleted entry reads as 0 afterwards
              simp [h, entryScan_absent hC hB (pairwise_shape_drop hpwCB)]
            · simp [h]
          · have hcond' : (i < 1 || i > m.rows || k < 1 || k > m.cols) = true := by
              simp only [Bool.or_eq_true, decide_eq_true_eq]
              omega
            rw [hcond']
            have hik' : ¬ (i = r ∧ k = c) := by
              rintro ⟨rfl, rfl⟩; exact hik hrange
            simp [hik']
      · -- overwrite the value
        simp only [if_neg hv]
        refine ⟨by simp [hocc, hout], by simp, fun _ => ?_⟩
        have hpw' : (C ++ { u with value := v } :: B).Pairwise tripleLt :=
          pairwise_shape_insert (pairwise_shape_drop hpwCB)
            (fun a ha => by
              have : tripleLt a ⟨r, c, 0⟩ := hC a ha
              rw [tripleLt_iff] at this ⊢
              simpa [hur, huc] using this)
            (fun b hb => by
              have : tripleLt ⟨r, c, 0⟩ b := hB b hb
              rw [tripleLt_iff] at this ⊢
              simpa [hur, huc] using this)
        refine ⟨⟨hpw', ?_, ?_⟩, by trivial, by trivial, by trivial, ?_⟩
        · intro t ht
          simp only at ht
          rcases List.mem_append.mp ht with h | h
          · exact hbd t (by rw [hl]; simp [h])
          · rcases List.mem_cons.mp h with rfl | h
            · have hu := hbd u (by rw [hl]; simp)
              refine ⟨hu.1, hu.2.1, hu.2.2.1, hu.2.2.2.1, hv⟩
            · exact hbd t (by rw [hl]; simp [h])
        · simp only [List.length_append, List.length_cons]
          have : m.triples.length = (C ++ u :: B).length := by rw [hl]
          simp only [List.length_append, List.length_cons] at this
          omega
        · intro i k
          rw [getElem?, getElem?]
          by_cases hik : 1 ≤ i ∧ i ≤ m.rows ∧ 1 ≤ k ∧ k ≤ m.cols
          · have hcond' : (i < 1 || i > m.rows || k < 1 || k > m.cols) = false := by
              simp only [Bool.or_eq_false_iff, decide_eq_false_iff_not, not_lt]
              refine ⟨⟨⟨?_, ?_⟩, ?_⟩, ?_⟩ <;> omega
            rw [hcond']
            simp only [Bool.false_eq_true, if_false, hl]
            rw [entryScan_shape (u := { u with value := v }) hur huc hC hB hpw' i k,
              entryScan_shape hur huc hC hB hpwCB i k]
            by_cases h : i = r ∧ k = c
            · simp [h]
            · simp [h]
          · have hcond' : (i < 1 || i > m.rows || k < 1 || k > m.cols) = true := by
              simp only [Bool.or_eq_true, decide_eq_true_eq]
              omega
            rw [hcond']
            have hik' : ¬ (i = r ∧ k = c) := by
              rintro ⟨rfl, rfl⟩; exact hik hrange
            simp [hik']
    · obtain ⟨C, B, hl, hC, hB, hfp⟩ := decomp_not_occurs hpw hocc
      have hpwCB : (C ++ B).Pairwise tripleLt := hl ▸ hpw
      rw [setElem_eval_not_occurs m hrange hl hC hfp v]
      by_cases hv : v = 0
      · -- setting an absent entry to zero: success, no change at all
        subst hv
        simp only [eq_self_iff_true, if_true]
        refine ⟨by simp [hout, hocc], by simp, fun _ => ?_⟩
        refine ⟨⟨hpw, hbd, hcap⟩, by trivial, by trivial, by trivial, ?_⟩
        intro i k
        by_cases h : i = r ∧ k = c
        · obtain ⟨rfl, rfl⟩ := h
          rw [getElem?]
          have hcond' : (i < 1 || i > m.rows || k < 1 || k > m.cols) = false := by
            simp only [Bool.or_eq_false_iff, decide_eq_false_iff_not, not_lt]
            refine ⟨⟨⟨?_, ?_⟩, ?_⟩, ?_⟩ <;> omega
          rw [hcond']
          simp only [Bool.false_eq_true, if_false, hl]
          rw [entryScan_absent hC hB hpwCB]
          simp
        · simp [h]
      · by_cases hfull : m.triples.length ≥ m.maxSize
        · -- full table: failure, no change
          simp only [if_neg hv, if_pos hfull]
          refine ⟨?_, by simp, fun h => absurd h (by simp)⟩
          simp only [true_iff]
          have : m.triples.length = m.maxSize := le_antisymm hcap hfull
          right; right; right; right
          exact ⟨hocc, hv, this⟩
        · -- insert the new triple
          simp only [if_neg hv, if_neg hfull]
          refine ⟨?_, by simp, fun _ => ?_⟩
          · simp only [Bool.true_eq_false, false_iff]
            intro hcon
            rcases hcon with h | h | h | h | ⟨h1, h2, h3⟩
            · omega
            · omega
            · omega
            · omega
            · exact hfull (ge_of_eq h3)
          have hpw' : (C ++ (⟨r, c, v⟩ : Triple) :: B).Pairwise tripleLt :=
            pairwise_shape_insert hpwCB
              (fun a ha => by
                have := hC a ha
                rw [tripleLt_iff] at this ⊢
                simpa using this)
              (fun b hb => by
                have := hB b hb
                rw [tripleLt_iff] at this ⊢
                simpa using this)
          refine ⟨⟨hpw', ?_, ?_⟩, by trivial, by trivial, by trivial, ?_⟩
          · intro t ht
            simp only at ht
            rcases List.mem_append.mp ht with h | h
            · exact hbd t (by rw [hl]; simp [h])
            · rcases List.mem_cons.mp h with rfl | h
              · exact ⟨hrange.1, hrange.2.1, hrange.2.2.1, hrange.2.2.2, hv⟩
              · exact hbd t (by rw [hl]; simp [h])
          · simp only [List.length_append, List.length_cons]
            have : m.triples.length = (C ++ B).length := by rw [hl]
            simp only [List.length_append] at this
            omega
          · intro i k
            rw [getElem?, getElem?]
            by_cases hik : 1 ≤ i ∧ i ≤ m.rows ∧ 1 ≤ k ∧ k ≤ m.cols
            · have hcond' : (i < 1 || i > m.rows || k < 1 || k > m.cols) = false := by
                simp only [Bool.or_eq_false_iff, decide_eq_false_iff_not, not_lt]
                refine ⟨⟨⟨?_, ?_⟩, ?_⟩, ?_⟩ <;> omega
              rw [hcond']
              simp only [Bool.false_eq_true, if_false, hl]
              rw [entryScan_shape (u := (⟨r, c, v⟩ : Triple)) rfl rfl hC hB hpw' i k]
              by_cases h : i = r ∧ k = c
              · simp [h]
              · simp [h]
            · have hcond' : (i < 1 || i > m.rows || k < 1 || k > m.cols) = true := by
                simp only [Bool.or_eq_true, decide_eq_true_eq]
                omega
              rw [hcond']
              have hik' : ¬ (i = r ∧ k = c) := by
                rintro ⟨rfl, rfl⟩; exact hik hrange
              simp [hik']

instance (a b : Triple) : Decidable (tripleLt a b) :=
  inferInstanceAs (Decidable (_ ∨ _))

instance (m : TriMat) : Decidable (Wf m) :=
  inferInstanceAs (Decidable (_ ∧ _))

/-- Witness for C5: a concrete well-formed 2×2 table with two entries,
updated at (1, 2). -/
theorem setElem_atomic_exact_witness :
    Wf ⟨2, 2, 3, [⟨1, 1, 5⟩, ⟨2, 2, 7⟩]⟩ ∧
    (((setElem ⟨2, 2, 3, [⟨1, 1, 5⟩, ⟨2, 2, 7⟩]⟩ 1 2 9).1 = false ↔
        ((1 : Int) < 1 ∨ (1 : Int) > (2 : Int) ∨ (2 : Int) < 1 ∨ (2 : Int) > (2 : Int) ∨
          (¬ keyOccurs [⟨1, 1, 5⟩, ⟨2, 2, 7⟩] 1 2 ∧ (9 : Int) ≠ 0 ∧
            ([(⟨1, 1, 5⟩ : Triple), ⟨2, 2, 7⟩] : List Triple).length = 3))) ∧
      ((setElem ⟨2, 2, 3, [⟨1, 1, 5⟩, ⟨2, 2, 7⟩]⟩ 1 2 9).1 = false →
        (setElem ⟨2, 2, 3, [⟨1, 1, 5⟩, ⟨2, 2, 7⟩]⟩ 1 2 9).2 = ⟨2, 2, 3, [⟨1, 1, 5⟩, ⟨2, 2, 7⟩]⟩) ∧
      ((setElem ⟨2, 2, 3, [⟨1, 1, 5⟩, ⟨2, 2, 7⟩]⟩ 1 2 9).1 = true →
        Wf (setElem ⟨2, 2, 3, [⟨1, 1, 5⟩, ⟨2, 2, 7⟩]⟩ 1 2 9).2 ∧
        (setElem ⟨2, 2, 3, [⟨1, 1, 5⟩, ⟨2, 2, 7⟩]⟩ 1 2 9).2.rows = 2 ∧
        (setElem ⟨2, 2, 3, [⟨1, 1, 5⟩, ⟨2, 2, 7⟩]⟩ 1 2 9).2.cols = 2 ∧
        (setElem ⟨2, 2, 3, [⟨1, 1, 5⟩, ⟨2, 2, 7⟩]⟩ 1 2 9).2.maxSize = 3 ∧
        ∀ i k : Int, getElem? (setElem ⟨2, 2, 3, [⟨1, 1, 5⟩, ⟨2, 2, 7⟩]⟩ 1 2 9).2 i k =
          if i = 1 ∧ k = 2 then some 9
          else getElem? ⟨2, 2, 3, [⟨1, 1, 5⟩, ⟨2, 2, 7⟩]⟩ i k)) :=
  ⟨by decide, setElem_atomic_exact ⟨2, 2, 3, [⟨1, 1, 5⟩, ⟨2, 2, 7⟩]⟩ (by decide) 1 2 9⟩

/-! ### The two transposition algorithms (C9) -/

/-- One write of the transposition loops: `dest.triElems[dp] = (col, row, value)`. -/
def swapT (t : Triple) : Triple := ⟨t.col, t.row, t.value⟩

/-- Inner loop of `SimpleTranspose` for a fixed column: scan the source
triples in order, copying the swapped triple of each match to `destPos++`. -/
def simpleInner (col : Int) : List Triple → ((Nat → Triple) × Nat) → ((Nat → Triple) × Nat)
  | [], st => st
  | t :: rest, (d, dp) =>
      if t.col == col then simpleInner col rest (Function.update d dp (swapT t), dp + 1)
      else simpleInner col rest (d, dp)

/-- `TriSparseMatrix::SimpleTranspose`: column-order scan over a fresh
default-initialised destination table; the destination holds `num` triples. -/
def simpleTranspose (m : TriMat) : TriMat :=
  let st := (List.range' 1 m.cols.toNat).foldl
    (fun st (col : Nat) => simpleInner (col : Int) m.triples st) (fun _ => (default : Triple), 0)
  ⟨m.cols, m.rows, m.maxSize, (List.range m.triples.length).map st.1⟩

/-- `cNum` of `FastTranspose`: per-column counts accumulated by `++cNum[col]`. -/
def buildCNum (l : List Triple) : Int → Nat :=
  l.foldl (fun f t => Function.update f t.col (f t.col + 1)) (fun _ => 0)

/-- `cPos` of `FastTranspose`: `cPos[1] = 0`, then
`cPos[col] = cPos[col-1] + cNum[col-1]` for `col = 2..cols`. -/
def buildCPos (cnum : Int → Nat) (cols : Nat) : Int → Nat :=
  (List.range' 2 (cols - 1)).foldl
    (fun f (col : Nat) => Function.update f (col : Int) (f ((col : Int) - 1) + cnum ((col : Int) - 1)))
    (fun _ => 0)

/-- Main loop of `FastTranspose`: place each swapped triple at the running
write position `cPos[col]++` of its column. -/
def fastWrites : List Triple → ((Nat → Triple) × (Int → Nat)) → ((Nat → Triple) × (Int → Nat))
  | [], st => st
  | t :: rest, (d, cpos) =>
      fastWrites rest
        (Function.update d (cpos t.col) (swapT t), Function.update cpos t.col (cpos t.col + 1))

/-- `TriSparseMatrix::FastTranspose`. -/
def fastTranspose (m : TriMat) : TriMat :=
  let cnum := buildCNum m.triples
  let st := fastWrites m.triples ((fun _ => (default : Triple)), buildCPos cnum m.cols.toNat)
  ⟨m.cols, m.rows, m.maxSize, (List.range m.triples.length).map st.1⟩

/-- Sequential writes of a list of triples starting at position `dp`. -/
def writeSeq (d : Nat → Triple) (dp : Nat) : List Triple → (Nat → Triple)
  | [] => d
  | x :: xs => writeSeq (Function.update d dp x) (dp + 1) xs

lemma writeSeq_untouched (xs : List Triple) (d : Nat → Triple) (dp : Nat) (i : Nat)
    (h : i < dp) : writeSeq d dp xs i = d i := by
  induction xs generalizing d dp with
  | nil => rfl
  | cons x xs ih =>
      rw [writeSeq, ih _ _ (Nat.lt_succ_of_lt h), Function.update_noteq (by omega)]

lemma writeSeq_get (xs : List Triple) (d : Nat → Triple) (dp : Nat) (i : Nat)
    (h : i < xs.length) : writeSeq d dp xs (dp + i) = xs.getD i default := by
  induction xs generalizing d dp i with
  | nil => simp at h
  | cons x xs ih =>
      rw [writeSeq]
      match i with
      | 0 =>
          have h1 : dp + 0 = dp := rfl
          rw [h1, writeSeq_untouched xs (Function.update d dp x) (dp + 1) dp (by omega),
            Function.update_same]
          rfl
      | i + 1 =>
          have : dp + (i + 1) = (dp + 1) + i := by omega
          rw [this, ih _ _ _ (by simpa using h)]
          rfl

lemma writeSeq_append (xs ys : List Triple) (d : Nat → Triple) (dp : Nat) :
    writeSeq d dp (xs ++ ys) = writeSeq (writeSeq d dp xs) (dp + xs.length) ys := by
  induction xs generalizing d dp with
  | nil => simp [writeSeq]
  | cons x xs ih =>
      rw [List.cons_append, writeSeq, writeSeq, ih]
      simp only [List.length_cons]
      have harith : dp + 1 + xs.length = dp + (xs.length + 1) := by omega
      rw [harith]

/-- The inner loop of `SimpleTranspose` is the sequential write of the
swapped column-filtered triples. -/
lemma simpleInner_eq (col : Int) (l : List Triple) (d : Nat → Triple) (dp : Nat) :
    simpleInner col l (d, dp) =
      (writeSeq d dp ((l.filter (fun t => t.col == col)).map swapT),
       dp + (l.countP (fun t => t.col == col))) := by
  induction l generalizing d dp with
  | nil => simp [simpleInner, writeSeq, List.countP_nil]
  | cons t rest ih =>
      by_cases h : t.col = col
      · rw [simpleInner]
        simp only [show (t.col == col) = true from by simpa using h, if_true]
        rw [ih]
        rw [List.filter_cons, List.countP_cons]
        simp only [show (t.col == col) = true from by simpa using h, if_true]
        rw [List.map_cons, writeSeq]
        have harith : dp + 1 + List.countP (fun t => t.col == col) rest
            = dp + (List.countP (fun t => t.col == col) rest + 1) := by omega
        rw [harith]
      · rw [simpleInner]
        simp only [show (t.col == col) = false from by simpa using h, Bool.false_eq_true,
          if_false]
        rw [ih, List.filter_cons, List.countP_cons]
        simp only [show (t.col == col) = false from by simpa using h, Bool.false_eq_true,
          if_false]
        simp

/-- The swapped triples of one source column, in source order. -/
def colGroup (l : List Triple) (col : Int) : List Triple :=
  (l.filter (fun t => t.col == col)).map swapT

/-- The whole transposed table: columns `1..cols` grouped in order. -/
def groupFlat (l : List Triple) (cols : Nat) : List Triple :=
  (List.range' 1 cols).flatMap (fun (col : Nat) => colGroup l (col : Int))

lemma simpleFold_eq (l : List Triple) (colsList : List Nat) (d : Nat → Triple) (dp : Nat) :
    colsList.foldl (fun st (col : Nat) => simpleInner (col : Int) l st) (d, dp) =
      (writeSeq d dp (colsList.flatMap (fun col => colGroup l (col : Int))),
       dp + (colsList.map (fun (col : Nat) => l.countP (fun t => t.col == (col : Int)))).sum) := by
  induction colsList generalizing d dp with
  | nil => simp [writeSeq]
  | cons a as ih =>
      rw [List.foldl_cons, simpleInner_eq, ih, List.flatMap_cons, writeSeq_append]
      have hlen : (colGroup l (a : Int)).length = l.countP (fun t => t.col == (a : Int)) := by
        rw [colGroup, List.length_map, List.countP_eq_length_filter]
      rw [colGroup] at hlen ⊢
      rw [hlen]
      simp only [List.map_cons, List.sum_cons]
      have harith : dp + l.countP (fun t => t.col == (a : Int)) +
          (as.map (fun (col : Nat) => l.countP (fun t => t.col == (col : Int)))).sum =
          dp + (l.countP (fun t => t.col == (a : Int)) +
            (as.map (fun (col : Nat) => l.countP (fun t => t.col == (col : Int)))).sum) := by
        omega
      rw [harith]

lemma indicator_sum_one {cols : Nat} {x : Int} (h1 : 1 ≤ x) (h2 : x ≤ (cols : Int)) :
    ((List.range' 1 cols).map (fun (col : Nat) => if x == (col : Int) then 1 else 0)).sum = 1 := by
  induction cols with
  | zero => omega
  | succ n ih =>
      rw [List.range'_1_concat, List.map_append, List.sum_append]
      by_cases h : x ≤ (n : Int)
      · rw [ih h]
        have hne : ¬ x = 1 + (n : Int) := by omega
        simp [hne]
      · have hx : x = ((1 + n : Nat) : Int) := by push_cast; push_cast at h2; omega
        have hzero : ((List.range' 1 n).map (fun (col : Nat) => if x == (col : Int) then 1 else 0)).sum
            = 0 := by
          apply List.sum_eq_zero
          intro y hy
          rcases List.mem_map.mp hy with ⟨col, hcol, rfl⟩
          have hb := List.mem_range'_1.mp hcol
          have hne : ¬ x = (col : Int) := by
            rw [hx]
            push_cast
            omega
          simp [hne]
        rw [hzero, hx]
        simp

lemma countP_partition (l : List Triple) (cols : Nat)
    (h : ∀ t ∈ l, 1 ≤ t.col ∧ t.col ≤ (cols : Int)) :
    ((List.range' 1 cols).map (fun (col : Nat) => l.countP (fun t => t.col == (col : Int)))).sum
      = l.length := by
  induction l with
  | nil => simp
  | cons t rest ih =>
      have hsum : ∀ col : Nat, rest.countP (fun u => u.col == (col : Int)) +
          (if t.col == (col : Int) then 1 else 0) =
          (t :: rest).countP (fun u => u.col == (col : Int)) := by
        intro col
        rw [List.countP_cons]
      have hmap : (List.range' 1 cols).map
            (fun (col : Nat) => (t :: rest).countP (fun u => u.col == (col : Int))) =
          (List.range' 1 cols).map
            (fun (col : Nat) => rest.countP (fun u => u.col == (col : Int)) +
              (if t.col == (col : Int) then 1 else 0)) := by
        apply List.map_congr_left
        intro col _
        rw [hsum col]
      rw [hmap]
      have hsplit : ∀ (L : List Nat),
          (L.map (fun (col : Nat) => rest.countP (fun u => u.col == (col : Int)) +
            (if t.col == (col : Int) then 1 else 0))).sum =
          (L.map (fun (col : Nat) => rest.countP (fun u => u.col == (col : Int)))).sum +
          (L.map (fun (col : Nat) => if t.col == (col : Int) then 1 else 0)).sum := by
        intro L
        induction L with
        | nil => simp
        | cons a as ihL => simp only [List.map_cons, List.sum_cons, ihL]; omega
      rw [hsplit, ih (fun u hu => h u (by simp [hu])),
        indicator_sum_one (h t (by simp)).1 (h t (by simp)).2]
      simp

lemma range_map_writeSeq (G : List Triple) (n : Nat) (hlen : G.length = n) :
    (List.range n).map (writeSeq (fun _ => (default : Triple)) 0 G) = G := by
  apply List.ext_getElem
  · simp [hlen]
  · intro i h1 h2
    rw [List.getElem_map, List.getElem_range]
    have hw := writeSeq_get G (fun _ => (default : Triple)) 0 i (by omega)
    rw [Nat.zero_add] at hw
    rw [hw]
    exact List.getD_eq_getElem G default h2

lemma groupFlat_length (l : List Triple) (cols : Nat)
    (h : ∀ t ∈ l, 1 ≤ t.col ∧ t.col ≤ (cols : Int)) :
    (groupFlat l cols).length = l.length := by
  rw [groupFlat, List.length_flatMap]
  have hmap : (List.map (List.length ∘ fun (col : Nat) => colGroup l (col : Int))
      (List.range' 1 cols)) = (List.range' 1 cols).map
      (fun (col : Nat) => l.countP (fun t => t.col == (col : Int))) := by
    apply List.map_congr_left
    intro col _
    simp [colGroup, List.countP_eq_length_filter]
  rw [hmap, countP_partition _ _ h]

/-- `SimpleTranspose` produces the column-grouped table. -/
lemma simpleTranspose_eq (m : TriMat)
    (h : ∀ t ∈ m.triples, 1 ≤ t.col ∧ t.col ≤ (m.cols.toNat : Int)) :
    simpleTranspose m = ⟨m.cols, m.rows, m.maxSize, groupFlat m.triples m.cols.toNat⟩ := by
  rw [simpleTranspose]
  simp only [simpleFold_eq]
  have hlen := groupFlat_length m.triples m.cols.toNat h
  rw [groupFlat] at hlen
  rw [range_map_writeSeq _ _ hlen]
  rfl

/-- `cNum[col]` ends up as the number of source triples in column `col`. -/
lemma buildCNum_eq (l : List Triple) (col : Int) :
    buildCNum l col = l.countP (fun t => t.col == col) := by
  have key : ∀ (f : Int → Nat),
      (l.foldl (fun f t => Function.update f t.col (f t.col + 1)) f) col =
        f col + l.countP (fun t => t.col == col) := by
    induction l with
    | nil => intro f; simp
    | cons t rest ih =>
        intro f
        rw [List.foldl_cons, ih, List.countP_cons]
        by_cases hc : t.col = col
        · subst hc
          simp [Function.update_same]
          omega
        · rw [Function.update_noteq (fun hh => hc hh.symm)]
          simp [show (t.col == col) = false from by simpa using hc]
  rw [buildCNum, key]
  simp

/-- Start position of column `col` in the transposed table: total count of
the columns before it. -/
def startPos (cnum : Int → Nat) (col : Int) : Nat :=
  ((List.range' 1 ((col - 1).toNat)).map (fun (j : Nat) => cnum (j : Int))).sum

lemma startPos_one (cnum : Int → Nat) : startPos cnum 1 = 0 := by
  simp [startPos]

lemma startPos_succ (cnum : Int → Nat) {col : Int} (h : 1 ≤ col) :
    startPos cnum (col + 1) = startPos cnum col + cnum col := by
  rw [startPos, startPos]
  have h1 : (col + 1 - 1).toNat = (col - 1).toNat + 1 := by omega
  rw [h1, List.range'_1_concat, List.map_append, List.sum_append]
  simp only [List.map_cons, List.map_nil, List.sum_cons, List.sum_nil]
  have h2 : ((1 + (col - 1).toNat : Nat) : Int) = col := by push_cast; omega
  rw [h2]
  omega

lemma startPos_mono (cnum : Int → Nat) {a b : Int} (hab : a ≤ b) :
    startPos cnum a ≤ startPos cnum b := by
  rw [startPos, startPos]
  have h1 : (a - 1).toNat ≤ (b - 1).toNat := by omega
  obtain ⟨d, hd⟩ := Nat.exists_eq_add_of_le h1
  rw [hd, Nat.add_comm ((a - 1).toNat) d, ← List.range'_append 1 ((a - 1).toNat) d 1,
    List.map_append, List.sum_append]
  omega

lemma startPos_add_le (cnum : Int → Nat) {a b : Int} (h1 : 1 ≤ a) (hab : a < b) :
    startPos cnum a + cnum a ≤ startPos cnum b := by
  rw [← startPos_succ cnum h1]
  exact startPos_mono cnum (by omega)

/-- `cPos[col]` as built by the recurrence is exactly the start position. -/
lemma buildCPos_eq (cnum : Int → Nat) (cols : Nat) :
    ∀ col : Int, 1 ≤ col → col ≤ (cols : Int) → buildCPos cnum cols col = startPos cnum col := by
  rw [buildCPos]
  -- generalized over the number of processed steps
  suffices key : ∀ k : Nat, ∀ col : Int,
      ((List.range' 2 k).foldl
        (fun f (col : Nat) => Function.update f (col : Int)
          (f ((col : Int) - 1) + cnum ((col : Int) - 1))) (fun _ => 0)) col =
      if 2 ≤ col ∧ col ≤ (k : Int) + 1 then startPos cnum col else 0 by
    intro col h1 h2
    rw [key (cols - 1) col]
    by_cases hc : 2 ≤ col
    · rw [if_pos ⟨hc, by omega⟩]
    · have : col = 1 := by omega
      rw [this, startPos_one]
      simp
  intro k
  induction k with
  | zero =>
      intro col
      rw [if_neg (by omega)]
      rfl
  | succ n ih =>
      intro col
      rw [List.range'_1_concat, List.foldl_append, List.foldl_cons, List.foldl_nil]
      have hcast : (((2 + n : Nat) : Int)) = (n : Int) + 2 := by push_cast; ring
      by_cases hc : col = (n : Int) + 2
      · rw [hcast, show col = (n : Int) + 2 from hc, Function.update_same]
        have hn1 : (n : Int) + 2 - 1 = (n : Int) + 1 := by ring
        rw [hn1, ih ((n : Int) + 1)]
        have hfold : (if 2 ≤ (n : Int) + 1 ∧ (n : Int) + 1 ≤ (n : Int) + 1
            then startPos cnum ((n : Int) + 1) else 0) = startPos cnum ((n : Int) + 1) := by
          by_cases hn : 1 ≤ (n : Int)
          · rw [if_pos ⟨by omega, le_refl _⟩]
          · have hn0 : (n : Int) = 0 := by omega
            rw [if_neg (by omega), hn0]
            have h01 : (0 : Int) + 1 = 1 := by ring
            rw [h01, startPos_one]
        rw [hfold, if_pos (show 2 ≤ (n : Int) + 2 ∧ (n : Int) + 2 ≤ ((n + 1 : Nat) : Int) + 1
          from by constructor <;> push_cast <;> omega)]
        rw [← startPos_succ cnum (by omega)]
        have harg : (n : Int) + 1 + 1 = (n : Int) + 2 := by ring
        rw [harg]
      · rw [hcast, Function.update_noteq (by exact fun hh => hc hh), ih col]
        by_cases hin : 2 ≤ col ∧ col ≤ (n : Int) + 1
        · rw [if_pos hin, if_pos ⟨hin.1, by omega⟩]
        · rw [if_neg hin, if_neg (by push_cast; omega)]

lemma getD_append_cons_mid (C B : List Triple) (u : Triple) :
    (C ++ u :: B).getD C.length default = u := by
  induction C with
  | nil => simp
  | cons a as ih => simpa using ih

/-- Main invariant of `FastTranspose`'s copying loop: once the whole source
is processed, position `startPos col + j` of the destination holds the `j`-th
swapped triple of column `col`. -/
lemma fastWrites_invariant (l : List Triple) (cols : Nat) (cnum : Int → Nat)
    (hcnum : ∀ col, cnum col = l.countP (fun t => t.col == col))
    (hbnd : ∀ t ∈ l, 1 ≤ t.col ∧ t.col ≤ (cols : Int)) :
    ∀ (todo done : List Triple) (d : Nat → Triple) (cpos : Int → Nat),
      l = done ++ todo →
      (∀ col : Int, 1 ≤ col → col ≤ (cols : Int) →
        cpos col = startPos cnum col + done.countP (fun t => t.col == col)) →
      (∀ col : Int, 1 ≤ col → col ≤ (cols : Int) →
        ∀ j < done.countP (fun t => t.col == col),
          d (startPos cnum col + j) = (colGroup l col).getD j default) →
      (∀ col : Int, 1 ≤ col → col ≤ (cols : Int) →
        ∀ j < l.countP (fun t => t.col == col),
          (fastWrites todo (d, cpos)).1 (startPos cnum col + j) =
            (colGroup l col).getD j default) := by
  intro todo
  induction todo with
  | nil =>
      intro done d cpos hl hcpos hd col h1 h2 j hj
      rw [fastWrites]
      have hdone : done = l := by rw [hl]; simp
      exact hd col h1 h2 j (by rw [← hdone] at hj; exact hj)
  | cons t todo' ih =>
      intro done d cpos hl hcpos hd col h1 h2 j hj
      have htl : t ∈ l := by rw [hl]; simp
      have htb := hbnd t htl
      have hcntlt : done.countP (fun u => u.col == t.col) <
          l.countP (fun u => u.col == t.col) := by
        rw [hl, List.countP_append, List.countP_cons]
        simp only [beq_self_eq_true, if_true]
        omega
      rw [fastWrites]
      have hp : cpos t.col = startPos cnum t.col + done.countP (fun u => u.col == t.col) :=
        hcpos t.col htb.1 htb.2
      apply ih (done ++ [t])
      · rw [hl]; simp
      · -- counter update
        intro col' hc1 hc2
        rw [List.countP_append]
        by_cases hcc : col' = t.col
        · subst hcc
          rw [Function.update_same, hp]
          simp only [List.countP_cons, List.countP_nil, beq_self_eq_true, if_true]
          omega
        · rw [Function.update_noteq (fun hh => hcc hh), hcpos col' hc1 hc2]
          have : ([t].countP (fun u => u.col == col')) = 0 := by
            simp only [List.countP_cons, List.countP_nil]
            simp [show (t.col == col') = false from by
              rw [beq_eq_false_iff_ne]; exact fun hh => hcc hh.symm]
          omega
      · -- written cells
        intro col' hc1 hc2 j' hj'
        rw [List.countP_append] at hj'
        by_cases hcc : col' = t.col
        · subst hcc
          simp only [List.countP_cons, List.countP_nil, beq_self_eq_true, if_true,
            Nat.zero_add] at hj'
          by_cases hj'' : j' < done.countP (fun u => u.col == t.col)
          · rw [hp, Function.update_noteq (by omega)]
            exact hd t.col hc1 hc2 j' hj''
          · have hj'eq : j' = done.countP (fun u => u.col == t.col) := by omega
            rw [hj'eq, hp, Function.update_same]
            -- the value written is the next element of the column group
            have hfilter : l.filter (fun u => u.col == t.col) =
                done.filter (fun u => u.col == t.col) ++ t ::
                  todo'.filter (fun u => u.col == t.col) := by
              rw [hl, List.filter_append, List.filter_cons]
              simp only [beq_self_eq_true, if_true]
            rw [colGroup, hfilter, List.map_append, List.map_cons]
            have hlen : (done.filter (fun u => u.col == t.col)).length =
                done.countP (fun u => u.col == t.col) := by
              rw [List.countP_eq_length_filter]
            rw [← hlen]
            have := getD_append_cons_mid ((done.filter (fun u => u.col == t.col)).map swapT)
              ((todo'.filter (fun u => u.col == t.col)).map swapT) (swapT t)
            rw [List.length_map] at this
            exact this.symm
        · have hzero : ([t].countP (fun u => u.col == col')) = 0 := by
            simp only [List.countP_cons, List.countP_nil]
            simp [show (t.col == col') = false from by
              rw [beq_eq_false_iff_ne]; exact fun hh => hcc hh.symm]
          rw [hzero] at hj'
          have hnotouch : startPos cnum t.col + done.countP (fun u => u.col == t.col) ≠
              startPos cnum col' + j' := by
            have hc1t := htb.1
            have hc2t := htb.2
            have hjbound : j' < l.countP (fun u => u.col == col') := by
              have : done.countP (fun u => u.col == col') ≤
                  l.countP (fun u => u.col == col') := by
                rw [hl, List.countP_append]; omega
              omega
            rcases lt_trichotomy col' t.col with hlt | heq | hgt
            · -- col' segment ends before t.col's
              have hb1 : startPos cnum col' + j' < startPos cnum col' + cnum col' := by
                rw [hcnum]; omega
              have hb2 : startPos cnum col' + cnum col' ≤ startPos cnum t.col :=
                startPos_add_le cnum hc1 hlt
              omega
            · exact absurd heq hcc
            · have hb1 : startPos cnum t.col + done.countP (fun u => u.col == t.col) <
                  startPos cnum t.col + cnum t.col := by
                rw [hcnum]; omega
              have hb2 : startPos cnum t.col + cnum t.col ≤ startPos cnum col' :=
                startPos_add_le cnum htb.1 hgt
              omega
          rw [hp, Function.update_noteq (fun hh => hnotouch hh.symm)]
          exact hd col' hc1 hc2 j' (by omega)
      · exact h1
      · exact h2
      · exact hj

/-- Every position below the total count decomposes as a column start plus
an offset within the column. -/
lemma exists_decomp (cnum : Int → Nat) (k : Nat) :
    ∀ i, i < startPos cnum ((k : Int) + 1) → ∃ (col j : Nat), 1 ≤ col ∧ col ≤ k ∧
      j < cnum (col : Int) ∧ i = startPos cnum (col : Int) + j := by
  induction k with
  | zero =>
      intro i hi
      rw [show ((0 : Nat) : Int) + 1 = 1 from by norm_num, startPos_one] at hi
      omega
  | succ n ih =>
      intro i hi
      have hsucc : startPos cnum ((n + 1 : Nat) : Int) + cnum ((n + 1 : Nat) : Int) =
          startPos cnum (((n + 1 : Nat) : Int) + 1) :=
        (startPos_succ cnum (by push_cast; omega)).symm
      by_cases hlow : i < startPos cnum ((n : Int) + 1)
      · obtain ⟨col, j, hc1, hc2, hj, hi⟩ := ih i hlow
        exact ⟨col, j, hc1, by omega, hj, hi⟩
      · refine ⟨n + 1, i - startPos cnum ((n + 1 : Nat) : Int), by omega, le_refl _, ?_, ?_⟩
        · have hcast : ((n + 1 : Nat) : Int) = (n : Int) + 1 := by push_cast; ring
          rw [hcast] at hsucc hi ⊢
          rw [← hsucc] at hi
          omega
        · have hcast : ((n + 1 : Nat) : Int) = (n : Int) + 1 := by push_cast; ring
          rw [hcast] at hi ⊢
          omega

/-- Indexing the grouped table at a column start plus offset yields the
column group's element. -/
lemma groupFlat_getD (l : List Triple) (cnum : Int → Nat)
    (hcnum : ∀ col, cnum col = l.countP (fun t => t.col == col)) (cols : Nat) :
    ∀ (col : Nat), 1 ≤ col → col ≤ cols → ∀ j, j < cnum (col : Int) →
      (groupFlat l cols).getD (startPos cnum (col : Int) + j) default =
        (colGroup l (col : Int)).getD j default := by
  induction cols with
  | zero => intro col hc1 hc2; omega
  | succ n ih =>
      intro col hc1 hc2 j hj
      rw [groupFlat, List.range'_1_concat, List.flatMap_append]
      have hprevlen : ((List.range' 1 n).flatMap
          (fun (c : Nat) => colGroup l (c : Int))).length = startPos cnum ((n : Int) + 1) := by
        rw [List.length_flatMap, startPos]
        have h1 : ((n : Int) + 1 - 1).toNat = n := by omega
        rw [h1]
        apply congrArg
        apply List.map_congr_left
        intro c hc
        have := List.mem_range'_1.mp hc
        simp [colGroup, Function.comp, hcnum, List.countP_eq_length_filter]
      by_cases hcn : col ≤ n
      · have hidx : startPos cnum (col : Int) + j < startPos cnum ((n : Int) + 1) := by
          have hb1 : startPos cnum (col : Int) + cnum (col : Int) ≤
              startPos cnum ((n : Int) + 1) :=
            startPos_add_le cnum (by push_cast; omega) (by push_cast; omega)
          omega
        rw [List.getD_append _ _ _ _ (by rw [hprevlen]; exact hidx)]
        rw [← groupFlat]
        exact ih col hc1 hcn j hj
      · have hceq : col = n + 1 := by omega
        subst hceq
        have hcast : ((1 + n : Nat) : Int) = ((n + 1 : Nat) : Int) := by push_cast; ring
        have hstart : startPos cnum (((n + 1) : Nat) : Int) = startPos cnum ((n : Int) + 1) := by
          apply congrArg
          push_cast
          ring
        -- index falls in the appended group
        have hlen2 := hprevlen
        rw [List.flatMap_cons, List.flatMap_nil, List.append_nil]
        have hoff : startPos cnum (((n + 1) : Nat) : Int) + j =
            ((List.range' 1 n).flatMap (fun (c : Nat) => colGroup l (c : Int))).length + j := by
          rw [hlen2, hstart]
        rw [hoff]
        have hgetD : ∀ (A B : List Triple) (jj : Nat),
            (A ++ B).getD (A.length + jj) default = B.getD jj default := by
          intro A B jj
          induction A with
          | nil => simp
          | cons a as ihA =>
              rw [List.cons_append, List.length_cons]
              have harith : as.length + 1 + jj = (as.length + jj) + 1 := by omega
              rw [harith, List.getD_cons_succ]
              exact ihA
        rw [hgetD]
        have : colGroup l ((1 + n : Nat) : Int) = colGroup l (((n + 1) : Nat) : Int) := by
          rw [hcast]
        rw [this]

/-- `FastTranspose` produces the column-grouped table as well. -/
lemma fastTranspose_eq (m : TriMat)
    (h : ∀ t ∈ m.triples, 1 ≤ t.col ∧ t.col ≤ (m.cols.toNat : Int)) :
    fastTranspose m = ⟨m.cols, m.rows, m.maxSize, groupFlat m.triples m.cols.toNat⟩ := by
  rw [fastTranspose]
  have hcnum : ∀ col, buildCNum m.triples col = m.triples.countP (fun t => t.col == col) :=
    buildCNum_eq m.triples
  have hflatlen := groupFlat_length m.triples m.cols.toNat h
  have hn : m.triples.length = startPos (buildCNum m.triples) ((m.cols.toNat : Int) + 1) := by
    rw [startPos]
    have h1 : ((m.cols.toNat : Int) + 1 - 1).toNat = m.cols.toNat := by omega
    rw [h1]
    rw [← countP_partition m.triples m.cols.toNat h]
    apply congrArg
    apply List.map_congr_left
    intro c hc
    rw [hcnum]
  have hinv := fastWrites_invariant m.triples m.cols.toNat (buildCNum m.triples) hcnum h
    m.triples [] (fun _ => (default : Triple)) (buildCPos (buildCNum m.triples) m.cols.toNat)
    (by simp)
    (by
      intro col h1 h2
      rw [buildCPos_eq _ _ col h1 h2]
      simp)
    (by
      intro col h1 h2 j hj
      simp at hj)
  congr 1
  apply List.ext_getElem
  · simp [hflatlen]
  · intro i hi1 hi2
    rw [List.getElem_map, List.getElem_range]
    have hibound : i < m.triples.length := by simpa using hi1
    obtain ⟨col, j, hc1, hc2, hj, hieq⟩ :=
      exists_decomp (buildCNum m.triples) m.cols.toNat i (by rw [← hn]; exact hibound)
    rw [← List.getD_eq_getElem (groupFlat m.triples m.cols.toNat) default hi2]
    conv_lhs => rw [hieq]
    rw [hinv (col : Int) (by push_cast; omega) (by push_cast; omega) j (by rw [← hcnum]; exact hj)]
    conv_rhs => rw [hieq]
    exact (groupFlat_getD m.triples (buildCNum m.triples) hcnum m.cols.toNat
      col hc1 hc2 j hj).symm

/-- **C9.** On any well-formed sparse matrix (as maintained by `SetElem`:
strictly (row, col)-sorted triples with in-range indices), `SimpleTranspose`
and `FastTranspose` produce identical destinations: same `rows`, `cols`,
`num` and the same sequence of triples in the same order. -/
theorem simple_fast_transpose_equiv (m : TriMat) (hwf : Wf m) :
    fastTranspose m = simpleTranspose m := by
  have hbnd : ∀ t ∈ m.triples, 1 ≤ t.col ∧ t.col ≤ (m.cols.toNat : Int) := fun t ht =>
    ⟨(hwf.2.1 t ht).2.2.1, le_trans (hwf.2.1 t ht).2.2.2.1 (Int.self_le_toNat _)⟩
  rw [fastTranspose_eq m hbnd, simpleTranspose_eq m hbnd]

/-- Witness for C9: a concrete sorted 3×2 table with three entries. -/
theorem simple_fast_transpose_equiv_witness :
    Wf ⟨3, 2, 4, [⟨1, 2, 5⟩, ⟨2, 1, 6⟩, ⟨3, 2, 7⟩]⟩ ∧
    fastTranspose ⟨3, 2, 4, [⟨1, 2, 5⟩, ⟨2, 1, 6⟩, ⟨3, 2, 7⟩]⟩ =
      simpleTranspose ⟨3, 2, 4, [⟨1, 2, 5⟩, ⟨2, 1, 6⟩, ⟨3, 2, 7⟩]⟩ :=
  ⟨by decide, simple_fast_transpose_equiv ⟨3, 2, 4, [⟨1, 2, 5⟩, ⟨2, 1, 6⟩, ⟨3, 2, 7⟩]⟩
    (by decide)⟩

end SparseMatrix

namespace ArrayND

/-- The mapping constants of 数组.cpp: `constants[i] = ∏_{k=i+1..dim-1} bounds[k]`
(row-major), as precomputed by the `Array` constructor. -/
def constantsOf : List Int → List Int
  | [] => []
  | _ :: rest => rest.prod :: constantsOf rest

/-- The loop body of `Array<ElemType>::Locate`: check each subscript against
its bound, accumulating `sub * constants[i]`; the first out-of-range
subscript throws `std::out_of_range`. -/
def locateGo : List Int → List Int → List Int → Except String Int
  | b :: bs, c :: cs, s :: ss =>
      if s < 0 || s ≥ b then Except.error "Subscript out of range."
      else (locateGo bs cs ss).map (fun r => s * c + r)
  | [], [], [] => Except.ok 0
  | _, _, _ => Except.error "subscript count mismatch"

/-- `Array<ElemType>::Locate`: `dim <= 0` throws, otherwise the subscripts
are checked dimension by dimension and folded into the row-major index. -/
def locate (bounds subs : List Int) : Except String Int :=
  if bounds.length ≤ 0 then Except.error "Array dimension must be positive."
  else locateGo bounds (constantsOf bounds) subs

lemma locateGo_ok {bs ss : List Int} (hpos : ∀ b ∈ bs, 0 < b)
    (hlen : ss.length = bs.length)
    (hin : ∀ p ∈ ss.zip bs, 0 ≤ p.1 ∧ p.1 < p.2) :
    ∃ r, locateGo bs (constantsOf bs) ss = Except.ok r ∧ 0 ≤ r ∧ r < bs.prod := by
  induction bs generalizing ss with
  | nil =>
      match ss, hlen with
      | [], _ => exact ⟨0, rfl, le_refl 0, by simp⟩
  | cons b bs ih =>
      match ss, hlen with
      | s :: ss, hlen =>
          have hs := hin (s, b) (by simp)
          obtain ⟨hs0, hsb⟩ := hs
          obtain ⟨r, hr, hr0, hrb⟩ := ih (fun x hx => hpos x (by simp [hx]))
            (by simpa using hlen) (fun p hp => hin p (by simp [hp]))
          refine ⟨s * bs.prod + r, ?_, ?_, ?_⟩
          · rw [show constantsOf (b :: bs) = bs.prod :: constantsOf bs from rfl, locateGo]
            simp only [show (decide (s < 0) || decide (s ≥ b)) = false from by
              simp only [Bool.or_eq_false_iff, decide_eq_false_iff_not, not_lt, ge_iff_le,
                not_le]
              exact ⟨hs0, hsb⟩, Bool.false_eq_true, if_false, hr]
            rfl
          · have hprod : 0 < bs.prod := List.prod_pos (fun x hx => hpos x (by simp [hx]))
            nlinarith
          · have hprod : 0 < bs.prod := List.prod_pos (fun x hx => hpos x (by simp [hx]))
            have h1 : s * bs.prod ≤ (b - 1) * bs.prod := by nlinarith
            rw [List.prod_cons]
            nlinarith

lemma locateGo_err {bs ss : List Int} (hlen : ss.length = bs.length)
    (hbad : ¬ ∀ p ∈ ss.zip bs, 0 ≤ p.1 ∧ p.1 < p.2) :
    ∃ e, locateGo bs (constantsOf bs) ss = Except.error e := by
  induction bs generalizing ss with
  | nil =>
      match ss, hlen with
      | [], _ => exact absurd (by simp) hbad
  | cons b bs ih =>
      match ss, hlen with
      | s :: ss, hlen =>
          by_cases hs : 0 ≤ s ∧ s < b
          · obtain ⟨e, he⟩ := ih (by simpa using hlen)
              (fun hall => hbad (by
                intro p hp
                rcases List.mem_cons.mp (by simpa using hp) with rfl | hmem
                · exact hs
                · exact hall p hmem))
            refine ⟨e, ?_⟩
            rw [show constantsOf (b :: bs) = bs.prod :: constantsOf bs from rfl, locateGo]
            simp only [show (decide (s < 0) || decide (s ≥ b)) = false from by
              simp only [Bool.or_eq_false_iff, decide_eq_false_iff_not, not_lt, ge_iff_le,
                not_le]
              exact hs, Bool.false_eq_true, if_false, he]
            rfl
          · refine ⟨"Subscript out of range.", ?_⟩
            rw [show constantsOf (b :: bs) = bs.prod :: constantsOf bs from rfl, locateGo]
            simp only [show (decide (s < 0) || decide (s ≥ b)) = true from by
              simp only [Bool.or_eq_true, decide_eq_true_eq, ge_iff_le]
              omega, if_true]

end ArrayND

namespace StringPkg

/-- `CharString` of 串.cpp: `length` characters followed by the terminating
`'\0'` in a heap buffer of `length + 1` cells. -/
structure CharString where
  chars : List Char
deriving Repr, DecidableEq

/-- Result of an indexed access in our memory model: `rejected` would be a
bounds-check refusal (exception or failure flag); `read c` is a performed
memory access, with `none` meaning the address lies outside the allocated
buffer (undefined behaviour in the C++). -/
inductive SubResult where
  | rejected : SubResult
  | read : Option Char → SubResult
deriving Repr, DecidableEq

/-- `CharString::operator[]`: `return strVal[pos]` — no check of any kind;
the buffer holds the characters plus the final `'\0'`. -/
def charStringSub (s : CharString) (pos : Int) : SubResult :=
  SubResult.read (if pos < 0 then none else (s.chars ++ [Char.ofNat 0]).get? pos.toNat)

/-! ### Pattern matching: `SimpleIndex`, `KMP_GetNext`, `Index_KMP` -/

/-- The loop of `SimpleIndex`: `i` scans `T`, `j` scans `P`; on a mismatch
both restart from `startPos + 1`.  `fuel` dominates the loop's iteration
count (the loop always stops earlier, see `simpleLoop_fuel_irrelevant`). -/
def simpleLoop (T P : List Char) : Nat → Nat → Nat → Nat → Int
  | 0, startPos, _, j => if j ≥ P.length then (startPos : Int) else -1
  | fuel + 1, startPos, i, j =>
      if i < T.length ∧ j < P.length then
        if T.getD i default = P.getD j default then
          simpleLoop T P fuel startPos (i + 1) (j + 1)
        else
          simpleLoop T P fuel (startPos + 1) (startPos + 1) 0
      else if j ≥ P.length then (startPos : Int) else -1

/-- `SimpleIndex(T, P, pos)` (0-based start position, `-1` when absent). -/
def simpleIndex (T P : List Char) (pos : Nat) : Int :=
  simpleLoop T P ((T.length + 1) * (P.length + 1) + P.length + 1) pos pos 0

/-- The loop of `KMP_GetNext`: the course-of-values construction of
`next[0..|P|]` with `next[0] = -1`. -/
def getNextLoop (P : List Char) : Nat → List Int → Nat → Int → List Int
  | 0, next, _, _ => next
  | fuel + 1, next, i, j =>
      if i < P.length then
        if j = -1 ∨ P.getD i default = P.getD j.toNat default then
          getNextLoop P fuel (next.set (i + 1) (j + 1)) (i + 1) (j + 1)
        else
          getNextLoop P fuel next i (next.getD j.toNat 0)
      else next

/-- `KMP_GetNext(P)`: `vector<int> next(|P|+1, 0); next[0] = -1; ...`. -/
def kmpGetNext (P : List Char) : List Int :=
  getNextLoop P (2 * P.length + 2) ((List.replicate (P.length + 1) (0 : Int)).set 0 (-1)) 0 (-1)

/-- The matching loop of `Index_KMP`: on a mismatch `j` falls back through
the `next` table. -/
def kmpLoop (T P : List Char) (next : List Int) : Nat → Nat → Int → Nat × Int
  | 0, i, j => (i, j)
  | fuel + 1, i, j =>
      if i < T.length ∧ j < (P.length : Int) then
        if j = -1 ∨ T.getD i default = P.getD j.toNat default then
          kmpLoop T P next fuel (i + 1) (j + 1)
        else
          kmpLoop T P next fuel i (next.getD j.toNat 0)
      else (i, j)

/-- `Index_KMP(T, P, pos)`: empty pattern returns `pos`; otherwise run the
matching loop and report `i - |P|` on success, `-1` on failure. -/
def indexKMP (T P : List Char) (pos : Nat) : Int :=
  if P.length = 0 then (pos : Int)
  else
    let next := kmpGetNext P
    let r := kmpLoop T P next (2 * T.length + 2) pos 0
    if r.2 ≥ (P.length : Int) then (r.1 : Int) - P.length else -1

/-! ### The toy text editor (C10) -/

/-- `DblLinkList<T>::Insert` (1-based; `pos ∈ 1..sz+1`): `none` models the
`false` return. -/
def dllInsert (l : List CharString) (pos : Int) (v : CharString) :
    Option (List CharString) :=
  if pos < 1 || pos > (l.length : Int) + 1 then none
  else some (l.insertIdx (pos - 1).toNat v)

/-- `DblLinkList<T>::Delete` (1-based; `pos ∈ 1..sz`). -/
def dllDelete (l : List CharString) (pos : Int) : Option (List CharString) :=
  if pos < 1 || pos > (l.length : Int) then none
  else some (l.eraseIdx (pos - 1).toNat)

/-- `DblLinkList<T>::Replace` (1-based; `pos ∈ 1..sz`). -/
def dllReplace (l : List CharString) (pos : Int) (v : CharString) :
    Option (List CharString) :=
  if pos < 1 || pos > (l.length : Int) then none
  else some (l.set (pos - 1).toNat v)

/-- `DblLinkList<T>::GetElem` (1-based; `pos ∈ 1..sz`). -/
def dllGetElem (l : List CharString) (pos : Int) : Option CharString :=
  if pos < 1 || pos > (l.length : Int) then none
  else some (l.getD (pos - 1).toNat ⟨[]⟩)

/-- `Editor`'s mutable state: the line buffer and the 1-based current line
number (`0` = no current line). -/
structure Editor where
  textBuffer : List CharString
  curLineNo : Int
deriving Repr, DecidableEq

/-- One interactive command together with the console/file input it
consumes.  `read confirm file` models the `r` command: `confirm` is the
`UserSaysYes()` answer and `file` is `none` when the input stream is not
readable, otherwise the `getline` lines. -/
inductive Command where
  | toBegin : Command
  | change (target repl : CharString) : Command
  | delete : Command
  | toEnd : Command
  | find (pat : CharString) : Command
  | goto (ln : Int) : Command
  | help : Command
  | insert (ln : Int) (text : CharString) : Command
  | next : Command
  | prior : Command
  | read (confirm : Bool) (file : Option (List CharString)) : Command
  | view : Command
  | write : Command
  | other : Command
deriving Repr, DecidableEq

/-- The find/replace loop of `ChangeLine` (leftmost, non-overlapping,
resuming after the replacement): returns the replacement count and the new
character list. -/
def replaceCnt (t r : List Char) : Nat → List Char → Nat × List Char
  | 0, s => (0, s)
  | fuel + 1, s =>
      match s with
      | [] => (0, [])
      | c :: rest =>
          if t.isPrefixOf s then
            let res := replaceCnt t r fuel (s.drop t.length)
            (res.1 + 1, r ++ res.2)
          else
            let res := replaceCnt t r fuel rest
            (res.1, c :: res.2)

/-- `Editor::ChangeLine`. -/
def changeLine (ed : Editor) (target repl : CharString) : Bool × Editor :=
  if ed.curLineNo = 0 then (false, ed)
  else
    match dllGetElem ed.textBuffer ed.curLineNo with
    | none => (false, ed)
    | some line =>
        if target.chars.isEmpty then (false, ed)
        else
          let res := replaceCnt target.chars repl.chars line.chars.length line.chars
          if res.1 = 0 then (false, ed)
          else
            match dllReplace ed.textBuffer ed.curLineNo ⟨res.2⟩ with
            | some buf => (true, { ed with textBuffer := buf })
            | none => (true, ed)

/-- `Editor::FindString`: from the current line on, move to the first line
containing the pattern (`Index_KMP(line, pat, 0) != -1`). -/
def findString (ed : Editor) (pat : CharString) : Editor :=
  if ed.curLineNo = 0 then ed
  else if pat.chars.isEmpty then ed
  else
    let n := ed.textBuffer.length
    match (List.range' ed.curLineNo.toNat (n + 1 - ed.curLineNo.toNat)).find?
        (fun i => indexKMP (ed.textBuffer.getD (i - 1) ⟨[]⟩).chars pat.chars 0 ≠ -1) with
    | some i => { ed with curLineNo := (i : Int) }
    | none => ed

/-- `Editor::RunCommand`, one executed command. -/
def runCommand (ed : Editor) (cmd : Command) : Editor :=
  match cmd with
  | .toBegin => if ed.textBuffer.isEmpty then ed else { ed with curLineNo := 1 }
  | .change target repl =>
      if ed.textBuffer.isEmpty then ed else (changeLine ed target repl).2
  | .delete =>
      match dllDelete ed.textBuffer ed.curLineNo with
      | none => ed
      | some buf =>
          if buf.length = 0 then { textBuffer := buf, curLineNo := 0 }
          else if ed.curLineNo > (buf.length : Int) then
            { textBuffer := buf, curLineNo := (buf.length : Int) }
          else { ed with textBuffer := buf }
  | .toEnd =>
      if ed.textBuffer.isEmpty then ed
      else { ed with curLineNo := (ed.textBuffer.length : Int) }
  | .find pat => if ed.textBuffer.isEmpty then ed else findString ed pat
  | .goto ln =>
      if ln < 1 || ln > (ed.textBuffer.length : Int) then ed
      else { ed with curLineNo := ln }
  | .help => ed
  | .insert ln text =>
      match dllInsert ed.textBuffer ln text with
      | some buf => { textBuffer := buf, curLineNo := ln }
      | none => ed
  | .next =>
      if ed.curLineNo = 0 then ed
      else if ed.curLineNo ≥ (ed.textBuffer.length : Int) then ed
      else { ed with curLineNo := ed.curLineNo + 1 }
  | .prior => if ed.curLineNo ≤ 1 then ed else { ed with curLineNo := ed.curLineNo - 1 }
  | .read confirm file =>
      if !confirm then ed
      else
        match file with
        | none => { ed with textBuffer := [] }  -- stream not readable: cleared, cursor kept
        | some lines =>
            { textBuffer := lines,
              curLineNo := if lines.length > 0 then 1 else 0 }
  | .view => ed
  | .write => ed
  | .other => ed

/-- The cursor invariant of C10. -/
def CursorInv (ed : Editor) : Prop :=
  (ed.curLineNo = 0 ↔ ed.textBuffer = []) ∧
  (ed.textBuffer ≠ [] → 1 ≤ ed.curLineNo ∧ ed.curLineNo ≤ (ed.textBuffer.length : Int))

instance (ed : Editor) : Decidable (CursorInv ed) :=
  inferInstanceAs (Decidable (_ ∧ _))

lemma cursorInv_of (buf : List CharString) (cur : Int)
    (h : (cur = 0 ∧ buf = []) ∨ (1 ≤ cur ∧ cur ≤ (buf.length : Int))) :
    CursorInv ⟨buf, cur⟩ := by
  constructor
  · constructor
    · intro h0
      rcases h with ⟨_, hb⟩ | ⟨h1, _⟩
      · exact hb
      · simp only at h0; omega
    · intro hb
      rcases h with ⟨hc, _⟩ | ⟨h1, h2⟩
      · exact hc
      · simp only at hb
        subst hb
        simp at h2
        omega
  · intro hb
    rcases h with ⟨_, hc⟩ | hh
    · exact absurd hc hb
    · exact hh

lemma cursorInv_of' (e : Editor)
    (h : (e.curLineNo = 0 ∧ e.textBuffer = []) ∨
      (1 ≤ e.curLineNo ∧ e.curLineNo ≤ (e.textBuffer.length : Int))) : CursorInv e := by
  obtain ⟨b, c⟩ := e
  exact cursorInv_of b c h

lemma cursorInv_elim {ed : Editor} (h : CursorInv ed) :
    (ed.curLineNo = 0 ∧ ed.textBuffer = []) ∨
    (1 ≤ ed.curLineNo ∧ ed.curLineNo ≤ (ed.textBuffer.length : Int) ∧
      ed.textBuffer ≠ []) := by
  by_cases hb : ed.textBuffer = []
  · left
    exact ⟨h.1.mpr hb, hb⟩
  · right
    exact ⟨(h.2 hb).1, (h.2 hb).2, hb⟩

lemma dllReplace_some {l : List CharString} {pos : Int} {v : CharString}
    {buf : List CharString} (h : dllReplace l pos v = some buf) :
    buf.length = l.length := by
  rw [dllReplace] at h
  split at h
  · exact absurd h (by simp)
  · cases h
    exact List.length_set _ _ _

lemma dllInsert_some {l : List CharString} {pos : Int} {v : CharString}
    {buf : List CharString} (h : dllInsert l pos v = some buf) :
    1 ≤ pos ∧ pos ≤ (l.length : Int) + 1 ∧ buf.length = l.length + 1 := by
  rw [dllInsert] at h
  split at h
  · exact absurd h (by simp)
  · cases h
    rename_i hcond
    simp only [Bool.or_eq_true, decide_eq_true_eq, not_or, not_lt] at hcond
    refine ⟨by omega, by omega, ?_⟩
    apply List.length_insertIdx
    omega

lemma dllDelete_some {l : List CharString} {pos : Int}
    {buf : List CharString} (h : dllDelete l pos = some buf) :
    1 ≤ pos ∧ pos ≤ (l.length : Int) ∧ buf.length = l.length - 1 ∧ 1 ≤ l.length := by
  rw [dllDelete] at h
  split at h
  · exact absurd h (by simp)
  · cases h
    rename_i hcond
    simp only [Bool.or_eq_true, decide_eq_true_eq, not_or, not_lt] at hcond
    refine ⟨by omega, by omega, ?_, by omega⟩
    rw [List.length_eraseIdx]
    rw [if_pos (by omega)]

lemma changeLine_preserves (ed : Editor) (t r : CharString) :
    ((changeLine ed t r).2).curLineNo = ed.curLineNo ∧
    ((changeLine ed t r).2).textBuffer.length = ed.textBuffer.length := by
  rw [changeLine]
  by_cases h0 : ed.curLineNo = 0
  · rw [if_pos h0]
    exact ⟨rfl, rfl⟩
  · rw [if_neg h0]
    cases hg : dllGetElem ed.textBuffer ed.curLineNo with
    | none => exact ⟨rfl, rfl⟩
    | some line =>
        simp only
        by_cases he : t.chars.isEmpty
        · simp only [he, if_true]
          exact ⟨by trivial, by trivial⟩
        · simp only [he, Bool.false_eq_true, if_false]
          by_cases hc : (replaceCnt t.chars r.chars line.chars.length line.chars).1 = 0
          · rw [if_pos hc]
            exact ⟨rfl, rfl⟩
          · rw [if_neg hc]
            cases hr : dllReplace ed.textBuffer ed.curLineNo
                ⟨(replaceCnt t.chars r.chars line.chars.length line.chars).2⟩ with
            | none => exact ⟨rfl, rfl⟩
            | some buf =>
                simp only
                exact ⟨by trivial, dllReplace_some hr⟩

/-- **C10 (counterexample).** Starting from a two-line buffer with the
cursor on line 2 (which satisfies the invariant), the `r` command confirmed
against an unreadable input stream clears the buffer but leaves
`curLineNo = 2`, violating the invariant. -/
theorem editor_cursor_invariant_cex :
    CursorInv ⟨[⟨['x']⟩, ⟨['y']⟩], 2⟩ ∧
    runCommand ⟨[⟨['x']⟩, ⟨['y']⟩], 2⟩ (Command.read true none) =
      ⟨[], 2⟩ ∧
    ¬ CursorInv ⟨[], 2⟩ := by
  refine ⟨by decide, rfl, by decide⟩

/-- **C10 (amended).** The cursor invariant — `curLineNo = 0` exactly when
the buffer is empty, and otherwise `1 ≤ curLineNo ≤ Length` — is preserved
by every executed command except the failing path of `r` (a confirmed read
from an unreadable stream), which clears the buffer without resetting the
cursor. -/
theorem editor_cursor_invariant_amended (ed : Editor) (h : CursorInv ed)
    (cmd : Command)
    (hread : ∀ conf : Bool, cmd = Command.read conf none → conf = false) :
    CursorInv (runCommand ed cmd) := by
  have hel := cursorInv_elim h
  cases cmd with
  | toBegin =>
      rw [runCommand]
      by_cases hb : ed.textBuffer.isEmpty
      · rw [if_pos hb]; exact h
      · rw [if_neg hb]
        have hne : ed.textBuffer ≠ [] := by simpa [List.isEmpty_iff] using hb
        have hpos : 0 < ed.textBuffer.length := List.length_pos.mpr hne
        apply cursorInv_of'
        right
        simp only
        constructor
        · omega
        · push_cast; omega
  | change target repl =>
      rw [runCommand]
      by_cases hb : ed.textBuffer.isEmpty
      · rw [if_pos hb]; exact h
      · rw [if_neg hb]
        have hne : ed.textBuffer ≠ [] := by simpa [List.isEmpty_iff] using hb
        obtain ⟨hcur, hlen⟩ := changeLine_preserves ed target repl
        apply cursorInv_of'
        right
        rw [hcur, hlen]
        rcases hel with ⟨_, hc⟩ | ⟨h1, h2, _⟩
        · exact absurd hc hne
        · exact ⟨h1, h2⟩
  | delete =>
      rw [runCommand]
      cases hd : dllDelete ed.textBuffer ed.curLineNo with
      | none => exact h
      | some buf' =>
          obtain ⟨h1, h2, h3, h4⟩ := dllDelete_some hd
          simp only
          by_cases hz : buf'.length = 0
          · rw [if_pos hz]
            apply cursorInv_of'
            left
            exact ⟨rfl, List.length_eq_zero.mp hz⟩
          · rw [if_neg hz]
            by_cases hgt : ed.curLineNo > (buf'.length : Int)
            · rw [if_pos hgt]
              apply cursorInv_of'
              right
              simp only
              omega
            · rw [if_neg hgt]
              apply cursorInv_of'
              right
              simp only
              omega
  | toEnd =>
      rw [runCommand]
      by_cases hb : ed.textBuffer.isEmpty
      · rw [if_pos hb]; exact h
      · rw [if_neg hb]
        have hne : ed.textBuffer ≠ [] := by simpa [List.isEmpty_iff] using hb
        have hpos : 0 < ed.textBuffer.length := List.length_pos.mpr hne
        apply cursorInv_of'
        right
        simp only
        constructor
        · push_cast; omega
        · omega
  | find pat =>
      rw [runCommand]
      by_cases hb : ed.textBuffer.isEmpty
      · rw [if_pos hb]; exact h
      · rw [if_neg hb]
        have hne : ed.textBuffer ≠ [] := by simpa [List.isEmpty_iff] using hb
        rw [findString]
        by_cases h0 : ed.curLineNo = 0
        · rw [if_pos h0]; exact h
        · rw [if_neg h0]
          by_cases hp : pat.chars.isEmpty
          · rw [if_pos hp]; exact h
          · rw [if_neg hp]
            dsimp only
            cases hf : (List.range' ed.curLineNo.toNat
                (ed.textBuffer.length + 1 - ed.curLineNo.toNat)).find?
                (fun i => indexKMP ((ed.textBuffer.getD (i - 1) ⟨[]⟩)).chars
                  pat.chars 0 ≠ -1) with
            | none => exact h
            | some i =>
                have hmem := List.mem_of_find?_eq_some hf
                have hrange := List.mem_range'_1.mp hmem
                apply cursorInv_of'
                right
                simp only
                rcases hel with ⟨_, hc⟩ | ⟨h1, h2, _⟩
                · exact absurd hc hne
                · constructor
                  · push_cast; omega
                  · push_cast; omega
  | goto ln =>
      rw [runCommand]
      by_cases hg : ln < 1 || ln > (ed.textBuffer.length : Int)
      · rw [if_pos hg]; exact h
      · rw [if_neg hg]
        simp only [Bool.or_eq_true, decide_eq_true_eq, not_or, not_lt] at hg
        apply cursorInv_of'
        right
        simp only
        omega
  | help => exact h
  | insert ln text =>
      rw [runCommand]
      cases hi : dllInsert ed.textBuffer ln text with
      | none => exact h
      | some buf' =>
          obtain ⟨h1, h2, h3⟩ := dllInsert_some hi
          apply cursorInv_of'
          right
          simp only
          omega
  | next =>
      rw [runCommand]
      by_cases h0 : ed.curLineNo = 0
      · rw [if_pos h0]; exact h
      · rw [if_neg h0]
        by_cases hge : ed.curLineNo ≥ (ed.textBuffer.length : Int)
        · rw [if_pos hge]; exact h
        · rw [if_neg hge]
          apply cursorInv_of'
          right
          simp only
          rcases hel with ⟨hc, _⟩ | ⟨h1, h2, _⟩
          · exact absurd hc h0
          · omega
  | prior =>
      rw [runCommand]
      by_cases h0 : ed.curLineNo ≤ 1
      · rw [if_pos h0]; exact h
      · rw [if_neg h0]
        apply cursorInv_of'
        right
        simp only
        rcases hel with ⟨hc, _⟩ | ⟨h1, h2, _⟩
        · omega
        · omega
  | read confirm file =>
      rw [runCommand.eq_def]
      dsimp only
      by_cases hc : confirm
      · have hcf : (!confirm) = false := by simp [hc]
        rw [hcf]
        simp only [Bool.false_eq_true, if_false]
        cases file with
        | none => exact absurd (hread confirm rfl) (by simpa using hc)
        | some lines =>
            apply cursorInv_of'
            simp only
            by_cases hl : lines.length > 0
            · right
              rw [if_pos hl]
              constructor
              · omega
              · push_cast; omega
            · left
              rw [if_neg hl]
              exact ⟨rfl, by
                have hz : lines.length = 0 := by omega
                exact List.length_eq_zero.mp hz⟩
      · have hcf : (!confirm) = true := by simp [hc]
        rw [hcf]
        simp only [if_true]
        exact h
  | view => exact h
  | write => exact h
  | other => exact h

/-- Witness for the amended C10 theorem: a two-line buffer with the cursor
on line 2, running a `next` command. -/
theorem editor_cursor_invariant_amended_witness :
    CursorInv ⟨[⟨['x']⟩, ⟨['y']⟩], 1⟩ ∧
    CursorInv (runCommand ⟨[⟨['x']⟩, ⟨['y']⟩], 1⟩ Command.next) :=
  ⟨by decide, editor_cursor_invariant_amended ⟨[⟨['x']⟩, ⟨['y']⟩], 1⟩ (by decide)
    Command.next (fun conf hcon => by cases hcon)⟩

end StringPkg

/-- **C3 (counterexample).** The claim quantifies over all public indexed
accessors, including `CharString::operator[]`; but at the concrete string
"ab" and index 5 that operator neither throws nor returns a failure flag —
it performs the raw access, which falls outside the allocated 3-byte buffer. -/
theorem charString_opIndex_unchecked :
    ((5 : Int) < 0 ∨ ((StringPkg.CharString.mk ['a', 'b']).chars.length : Int) < 5) ∧
    StringPkg.charStringSub ⟨['a', 'b']⟩ 5 ≠ StringPkg.SubResult.rejected ∧
    StringPkg.charStringSub ⟨['a', 'b']⟩ 5 = StringPkg.SubResult.read none := by
  refine ⟨Or.inr (by norm_num), ?_, ?_⟩ <;> decide

/-- **C3 (amended).** `Array::Locate` checks its bounds: with positive
dimension lengths and one subscript per dimension it returns the row-major
index, which lies inside the allocated `total`-element buffer, exactly when
every subscript is in range, and throws `std::out_of_range` otherwise;
`TriSparseMatrix::SetElem` returns the failure flag `false` leaving the
matrix unchanged on any out-of-range index; but `CharString::operator[]`
never rejects an index — it performs the unchecked access. -/
theorem indexed_access_bounds_amended :
    (∀ bounds subs : List Int, bounds ≠ [] → (∀ b ∈ bounds, 0 < b) →
      subs.length = bounds.length →
      ((∀ p ∈ subs.zip bounds, 0 ≤ p.1 ∧ p.1 < p.2) →
        ∃ r, ArrayND.locate bounds subs = Except.ok r ∧ 0 ≤ r ∧ r < bounds.prod) ∧
      (¬ (∀ p ∈ subs.zip bounds, 0 ≤ p.1 ∧ p.1 < p.2) →
        ∃ e, ArrayND.locate bounds subs = Except.error e)) ∧
    (∀ (m : SparseMatrix.TriMat) (r c v : Int),
      r < 1 ∨ r > m.rows ∨ c < 1 ∨ c > m.cols →
      SparseMatrix.setElem m r c v = (false, m)) ∧
    (∀ (s : StringPkg.CharString) (pos : Int),
      StringPkg.charStringSub s pos ≠ StringPkg.SubResult.rejected) := by
  refine ⟨?_, ?_, ?_⟩
  · intro bounds subs hne hpos hlen
    have hd : ¬ bounds.length ≤ 0 := by
      simp only [not_le]
      exact List.length_pos.mpr hne
    constructor
    · intro hin
      obtain ⟨r, hr, h0, hb⟩ := ArrayND.locateGo_ok hpos hlen hin
      exact ⟨r, by rw [ArrayND.locate, if_neg hd]; exact hr, h0, hb⟩
    · intro hbad
      obtain ⟨e, he⟩ := ArrayND.locateGo_err hlen hbad
      exact ⟨e, by rw [ArrayND.locate, if_neg hd]; exact he⟩
  · intro m r c v h
    rw [SparseMatrix.setElem]
    have : (r < 1 || r > m.rows || c < 1 || c > m.cols) = true := by
      simp only [Bool.or_eq_true, decide_eq_true_eq]
      omega
    rw [this]
    simp
  · intro s pos
    rw [StringPkg.charStringSub]
    intro h
    exact absurd h (by simp)

/-- Witness for the amended C3 theorem at concrete inputs: a 2×3 array with
subscripts (1, 2) in range and (1, 7) out of range, and an out-of-range
`SetElem`. -/
theorem indexed_access_bounds_amended_witness :
    ([(2 : Int), 3] ≠ [] ∧ (∀ b ∈ [(2 : Int), 3], 0 < b) ∧
      ([(1 : Int), 2].length = [(2 : Int), 3].length) ∧
      (∀ p ∈ [(1 : Int), 2].zip [(2 : Int), 3], 0 ≤ p.1 ∧ p.1 < p.2)) ∧
    (∃ r, ArrayND.locate [2, 3] [1, 2] = Except.ok r ∧ 0 ≤ r ∧
      r < ([(2 : Int), 3]).prod) ∧
    (∃ e, ArrayND.locate [2, 3] [1, 7] = Except.error e) ∧
    SparseMatrix.setElem ⟨2, 2, 3, []⟩ 0 1 5 = (false, ⟨2, 2, 3, []⟩) ∧
    StringPkg.charStringSub ⟨['a', 'b']⟩ 5 ≠ StringPkg.SubResult.rejected := by
  refine ⟨⟨by decide, by decide, by decide, by decide⟩, ?_, ?_, ?_, ?_⟩
  · exact (indexed_access_bounds_amended.1 [2, 3] [1, 2] (by decide) (by decide)
      (by decide)).1 (by decide)
  · exact (indexed_access_bounds_amended.1 [2, 3] [1, 7] (by decide) (by decide)
      (by decide)).2 (by decide)
  · exact indexed_access_bounds_amended.2.1 ⟨2, 2, 3, []⟩ 0 1 5 (by norm_num)
  · exact indexed_access_bounds_amended.2.2 ⟨['a', 'b']⟩ 5

namespace AVL

/-- `AVLNode` of 动态表查找.cpp: key, stored height (`height(nullptr) = 0`,
fresh node height `1`), children. -/
inductive AVLNode where
  | nil : AVLNode
  | node (left : AVLNode) (key : Int) (h : Int) (right : AVLNode) : AVLNode
deriving Repr, DecidableEq

open AVLNode

/-- `height(node)`: the stored height, `0` for the empty tree. -/
def heightS : AVLNode → Int
  | nil => 0
  | node _ _ h _ => h

/-- The actual height of the tree. -/
def realHeight : AVLNode → Int
  | nil => 0
  | node l _ _ r => 1 + max (realHeight l) (realHeight r)

/-- `node->key` (the code only reads it on non-null nodes). -/
def rootKey : AVLNode → Int
  | nil => 0
  | node _ k _ _ => k

/-- Rebuild a node with `updateHeight` applied:
`node->height = 1 + max(height(left), height(right))`. -/
def mkNode (l : AVLNode) (k : Int) (r : AVLNode) : AVLNode :=
  node l k (1 + max (heightS l) (heightS r)) r

/-- `rotateRight(y)` — the code dereferences `y->left`, so the embedding
keeps `y` unchanged when that is impossible (never reached by `AVLInsert`). -/
def rotateRight : AVLNode → AVLNode
  | node (node BL xk _ BR) yk _ AR => mkNode BL xk (mkNode BR yk AR)
  | t => t

/-- `rotateLeft(x)`. -/
def rotateLeft : AVLNode → AVLNode
  | node AL xk _ (node BL yk _ BR) => mkNode (mkNode AL xk BL) yk BR
  | t => t

/-- Steps 2–3 of `AVLInsert`: `updateHeight` has been applied, now check the
balance factor and rotate according to the LL/RR/LR/RL cases. -/
def rebalance (t : AVLNode) (key : Int) : AVLNode :=
  match t with
  | nil => nil
  | node l k h r =>
      let bf := heightS l - heightS r
      if bf > 1 ∧ key < rootKey l then rotateRight (node l k h r)
      else if bf < -1 ∧ key > rootKey r then rotateLeft (node l k h r)
      else if bf > 1 ∧ key > rootKey l then rotateRight (node (rotateLeft l) k h r)
      else if bf < -1 ∧ key < rootKey r then rotateLeft (node l k h (rotateRight r))
      else node l k h r

/-- `AVLInsert(node, key)`. -/
def avlInsert : AVLNode → Int → AVLNode
  | nil, key => node nil key 1 nil
  | node l k h r, key =>
      if key < k then rebalance (mkNode (avlInsert l key) k r) key
      else if key > k then rebalance (mkNode l k (avlInsert r key)) key
      else node l k h r

/-- All keys of the tree satisfy `p`. -/
def ForallKeys (p : Int → Prop) : AVLNode → Prop
  | nil => True
  | node l k _ r => ForallKeys p l ∧ p k ∧ ForallKeys p r

/-- Binary-search-tree property: strictly smaller keys left, larger right. -/
def IsBST : AVLNode → Prop
  | nil => True
  | node l k _ r =>
      IsBST l ∧ IsBST r ∧ ForallKeys (fun x => x < k) l ∧ ForallKeys (fun x => k < x) r

/-- Height balance: every balance factor lies in {-1, 0, 1}. -/
def Balanced : AVLNode → Prop
  | nil => True
  | node l _ _ r =>
      Balanced l ∧ Balanced r ∧
      realHeight l - realHeight r ≤ 1 ∧ realHeight r - realHeight l ≤ 1

/-- The stored heights agree with the actual heights. -/
def HeightsOk : AVLNode → Prop
  | nil => True
  | node l _ h r => HeightsOk l ∧ HeightsOk r ∧ h = 1 + max (realHeight l) (realHeight r)

/-- Full well-formedness of an AVL tree as maintained by `AVLInsert`. -/
def AVLWf (t : AVLNode) : Prop := IsBST t ∧ Balanced t ∧ HeightsOk t

/-- Key membership. -/
def containsKey : AVLNode → Int → Prop
  | nil, _ => False
  | node l k _ r, key => containsKey l key ∨ key = k ∨ containsKey r key

instance instDecidableForallKeys (p : Int → Prop) [DecidablePred p] :
    (t : AVLNode) → Decidable (ForallKeys p t)
  | nil => inferInstanceAs (Decidable True)
  | node l _ _ r =>
      letI := instDecidableForallKeys p l
      letI := instDecidableForallKeys p r
      inferInstanceAs (Decidable (_ ∧ _ ∧ _))

instance instDecidableIsBST : (t : AVLNode) → Decidable (IsBST t)
  | nil => inferInstanceAs (Decidable True)
  | node l _ _ r =>
      letI := instDecidableIsBST l
      letI := instDecidableIsBST r
      inferInstanceAs (Decidable (_ ∧ _ ∧ _ ∧ _))

instance instDecidableBalanced : (t : AVLNode) → Decidable (Balanced t)
  | nil => inferInstanceAs (Decidable True)
  | node l _ _ r =>
      letI := instDecidableBalanced l
      letI := instDecidableBalanced r
      inferInstanceAs (Decidable (_ ∧ _ ∧ _ ∧ _))

instance instDecidableHeightsOk : (t : AVLNode) → Decidable (HeightsOk t)
  | nil => inferInstanceAs (Decidable True)
  | node l _ _ r =>
      letI := instDecidableHeightsOk l
      letI := instDecidableHeightsOk r
      inferInstanceAs (Decidable (_ ∧ _ ∧ _))

instance instDecidableContainsKey : (t : AVLNode) → (k : Int) → Decidable (containsKey t k)
  | nil, _ => inferInstanceAs (Decidable False)
  | node l _ _ r, key =>
      letI := instDecidableContainsKey l key
      letI := instDecidableContainsKey r key
      inferInstanceAs (Decidable (_ ∨ _ ∨ _))

instance (t : AVLNode) : Decidable (AVLWf t) := inferInstanceAs (Decidable (_ ∧ _ ∧ _))

lemma heightS_eq : ∀ {t : AVLNode}, HeightsOk t → heightS t = realHeight t
  | nil, _ => rfl
  | node l k h r, hh => by
      rcases hh with ⟨_, _, h3⟩
      simp only [heightS, realHeight, h3]

lemma realHeight_nonneg : ∀ (t : AVLNode), 0 ≤ realHeight t
  | nil => le_refl 0
  | node l _ _ r => by
      have h1 := realHeight_nonneg l
      have h2 := realHeight_nonneg r
      simp only [realHeight]
      omega

lemma exists_node_of_height {t : AVLNode} (h : 0 < realHeight t) :
    ∃ l k hh r, t = node l k hh r := by
  cases t with
  | nil => simp [realHeight] at h
  | node l k hh r => exact ⟨l, k, hh, r, rfl⟩

lemma forallKeys_mono {p q : Int → Prop} (hpq : ∀ x, p x → q x) :
    ∀ {t : AVLNode}, ForallKeys p t → ForallKeys q t
  | nil, _ => trivial
  | node l k _ r, ⟨h1, h2, h3⟩ =>
      ⟨forallKeys_mono hpq h1, hpq _ h2, forallKeys_mono hpq h3⟩

lemma mkNode_wf {l r : AVLNode} {k : Int}
    (hbl : IsBST l) (hbr : IsBST r)
    (hfl : ForallKeys (fun x => x < k) l) (hfr : ForallKeys (fun x => k < x) r)
    (hball : Balanced l) (hbalr : Balanced r)
    (hhl : HeightsOk l) (hhr : HeightsOk r)
    (hd1 : realHeight l - realHeight r ≤ 1) (hd2 : realHeight r - realHeight l ≤ 1) :
    AVLWf (mkNode l k r) ∧
    realHeight (mkNode l k r) = 1 + max (realHeight l) (realHeight r) ∧
    rootKey (mkNode l k r) = k := by
  refine ⟨⟨⟨hbl, hbr, hfl, hfr⟩, ⟨hball, hbalr, hd1, hd2⟩, ⟨hhl, hhr, ?_⟩⟩, rfl, rfl⟩
  rw [heightS_eq hhl, heightS_eq hhr]

lemma forallKeys_mkNode {p : Int → Prop} {l r : AVLNode} {k : Int}
    (h1 : ForallKeys p l) (h2 : p k) (h3 : ForallKeys p r) :
    ForallKeys p (mkNode l k r) := ⟨h1, h2, h3⟩

lemma rotateRight_node (BL : AVLNode) (xk lh : Int) (BR : AVLNode) (yk h : Int)
    (AR : AVLNode) :
    rotateRight (node (node BL xk lh BR) yk h AR) = mkNode BL xk (mkNode BR yk AR) := rfl

lemma rotateLeft_node (AL : AVLNode) (xk h : Int) (BL : AVLNode) (yk lh : Int)
    (BR : AVLNode) :
    rotateLeft (node AL xk h (node BL yk lh BR)) = mkNode (mkNode AL xk BL) yk BR := rfl

lemma rebalance_eval_noRot {l r : AVLNode} {k key : Int}
    (h1 : heightS l - heightS r ≤ 1) (h2 : heightS l - heightS r ≥ -1) :
    rebalance (mkNode l k r) key = mkNode l k r := by
  rw [mkNode, rebalance]
  rw [if_neg (by rintro ⟨hc, -⟩; omega), if_neg (by rintro ⟨hc, -⟩; omega),
    if_neg (by rintro ⟨hc, -⟩; omega), if_neg (by rintro ⟨hc, -⟩; omega)]

lemma rebalance_eval_LL {l r : AVLNode} {k key : Int}
    (h1 : heightS l - heightS r > 1) (h2 : key < rootKey l) :
    rebalance (mkNode l k r) key =
      rotateRight (node l k (1 + max (heightS l) (heightS r)) r) := by
  rw [mkNode, rebalance]
  rw [if_pos ⟨h1, h2⟩]

lemma rebalance_eval_LR {l r : AVLNode} {k key : Int}
    (h1 : heightS l - heightS r > 1) (h2 : key > rootKey l) :
    rebalance (mkNode l k r) key =
      rotateRight (node (rotateLeft l) k (1 + max (heightS l) (heightS r)) r) := by
  rw [mkNode, rebalance]
  rw [if_neg (by rintro ⟨-, hc⟩; omega), if_neg (by rintro ⟨hc, -⟩; omega),
    if_pos ⟨h1, h2⟩]

lemma rebalance_eval_RR {l r : AVLNode} {k key : Int}
    (h1 : heightS l - heightS r < -1) (h2 : key > rootKey r) :
    rebalance (mkNode l k r) key =
      rotateLeft (node l k (1 + max (heightS l) (heightS r)) r) := by
  rw [mkNode, rebalance]
  rw [if_neg (by rintro ⟨hc, -⟩; omega), if_pos ⟨h1, h2⟩]

lemma rebalance_eval_RL {l r : AVLNode} {k key : Int}
    (h1 : heightS l - heightS r < -1) (h2 : key < rootKey r) :
    rebalance (mkNode l k r) key =
      rotateLeft (node l k (1 + max (heightS l) (heightS r)) (rotateRight r)) := by
  rw [mkNode, rebalance]
  rw [if_neg (by rintro ⟨hc, -⟩; omega), if_neg (by rintro ⟨-, hc⟩; omega),
    if_neg (by rintro ⟨hc, -⟩; omega), if_pos ⟨h1, h2⟩]

lemma insert_left_step {l r L' : AVLNode} {k0 key : Int}
    (hkey : key < k0)
    (hwfL : AVLWf L') (hwfR : AVLWf r)
    (hfL : ForallKeys (fun x => x < k0) L') (hfR : ForallKeys (fun x => k0 < x) r)
    (hd1 : realHeight l - realHeight r ≤ 1) (hd2 : realHeight r - realHeight l ≤ 1)
    (hlo : realHeight l ≤ realHeight L') (hhi : realHeight L' ≤ realHeight l + 1)
    (hgrow : realHeight L' = realHeight l + 1 → l ≠ nil →
      ∃ ll lk lh lr, L' = node ll lk lh lr ∧
        (key < lk → realHeight ll = realHeight lr + 1) ∧
        (key > lk → realHeight lr = realHeight ll + 1) ∧ key ≠ lk) :
    AVLWf (rebalance (mkNode L' k0 r) key) ∧
    1 + max (realHeight l) (realHeight r) ≤ realHeight (rebalance (mkNode L' k0 r) key) ∧
    realHeight (rebalance (mkNode L' k0 r) key)
      ≤ 1 + max (realHeight l) (realHeight r) + 1 ∧
    (∀ p : Int → Prop, ForallKeys p L' → p k0 → ForallKeys p r →
      ForallKeys p (rebalance (mkNode L' k0 r) key)) ∧
    (realHeight (rebalance (mkNode L' k0 r) key)
        = 1 + max (realHeight l) (realHeight r) + 1 →
      ∃ l' k' h' r', rebalance (mkNode L' k0 r) key = node l' k' h' r' ∧
        (key < k' → realHeight l' = realHeight r' + 1) ∧
        (key > k' → realHeight r' = realHeight l' + 1) ∧ key ≠ k') := by
  obtain ⟨hbL, hbalL, hhL⟩ := hwfL
  obtain ⟨hbR, hbalR, hhR⟩ := hwfR
  have hLn := realHeight_nonneg l
  have hRn := realHeight_nonneg r
  have hsL : heightS L' = realHeight L' := heightS_eq hhL
  have hsR : heightS r = realHeight r := heightS_eq hhR
  by_cases hA : realHeight L' - realHeight r ≤ 1
  · -- balance factor stays in range: no rotation
    rw [rebalance_eval_noRot (by rw [hsL, hsR]; omega) (by rw [hsL, hsR]; omega)]
    obtain ⟨hwfM, hhM, -⟩ :=
      mkNode_wf hbL hbR hfL hfR hbalL hbalR hhL hhR (by omega) (by omega)
    refine ⟨hwfM, ?_, ?_, ?_, ?_⟩
    · rw [hhM]; omega
    · rw [hhM]; omega
    · intro p hpl hpk hpr; exact forallKeys_mkNode hpl hpk hpr
    · intro hg
      rw [hhM] at hg
      refine ⟨L', k0, _, r, rfl, ?_, ?_, ?_⟩
      · intro _; omega
      · intro hc; omega
      · omega
  · -- the left subtree got two levels higher: rotate
    have hlpos : 0 < realHeight l := by omega
    have hlne : l ≠ nil := by
      intro hn
      rw [hn] at hlpos
      simp only [realHeight] at hlpos
      omega
    obtain ⟨ll, lk, lh, lr, hLeq, hgl, hgr, hkne⟩ := hgrow (by omega) hlne
    have hLh : realHeight L' = 1 + max (realHeight ll) (realHeight lr) := by
      rw [hLeq]; rfl
    rw [hLeq] at hbL hbalL hhL hfL
    obtain ⟨hbll, hblr, hfll, hflr⟩ := hbL
    obtain ⟨hball, hbalr, hdl1, hdl2⟩ := hbalL
    obtain ⟨hhll, hhlr, hhlst⟩ := hhL
    obtain ⟨hfl1, hfl2, hfl3⟩ := hfL
    rcases lt_or_gt_of_ne hkne with hklt | hkgt
    · -- LL: single right rotation
      have hll1 : realHeight ll = realHeight lr + 1 := hgl hklt
      rw [rebalance_eval_LL (by rw [hsL, hsR]; omega) (by rw [hLeq]; exact hklt)]
      rw [hLeq, rotateRight_node]
      obtain ⟨hwfI, hhI, -⟩ :=
        mkNode_wf hblr hbR hfl3 hfR hbalr hbalR hhlr hhR (by omega) (by omega)
      have hfO : ForallKeys (fun x => lk < x) (mkNode lr k0 r) :=
        forallKeys_mkNode hflr hfl2 (forallKeys_mono (fun x hx => lt_trans hfl2 hx) hfR)
      obtain ⟨hwfO, hhO, -⟩ :=
        mkNode_wf hbll hwfI.1 hfll hfO hball hwfI.2.1 hhll hwfI.2.2
          (by omega) (by omega)
      refine ⟨hwfO, ?_, ?_, ?_, ?_⟩
      · rw [hhO, hhI]; omega
      · rw [hhO, hhI]; omega
      · intro p hpL hpk hpr
        obtain ⟨hp1, hp2, hp3⟩ := hpL
        exact forallKeys_mkNode hp1 hp2 (forallKeys_mkNode hp3 hpk hpr)
      · intro hg
        rw [hhO, hhI] at hg
        exfalso; omega
    · -- LR: double rotation (left on the child, then right)
      have hlr1 : realHeight lr = realHeight ll + 1 := hgr hkgt
      have hlrpos : 0 < realHeight lr := by omega
      obtain ⟨c, ck, chh, d, hlreq⟩ := exists_node_of_height hlrpos
      subst hlreq
      obtain ⟨hbc, hbd, hfc, hfd⟩ := hblr
      obtain ⟨hbalc, hbald, hdc1, hdc2⟩ := hbalr
      obtain ⟨hhc, hhd, hhcst⟩ := hhlr
      obtain ⟨hflrc, hlkck, hflrd⟩ := hflr
      obtain ⟨hfl3c, hckk0, hfl3d⟩ := hfl3
      have hnlh : realHeight (node c ck chh d)
          = 1 + max (realHeight c) (realHeight d) := rfl
      rw [rebalance_eval_LR (by rw [hsL, hsR]; omega) (by rw [hLeq]; exact hkgt)]
      rw [hLeq, rotateLeft_node]
      rw [show mkNode (mkNode ll lk c) ck d
          = node (mkNode ll lk c) ck
              (1 + max (heightS (mkNode ll lk c)) (heightS d)) d from rfl]
      rw [rotateRight_node]
      obtain ⟨hwfA, hhA, -⟩ :=
        mkNode_wf hbll hbc hfll hflrc hball hbalc hhll hhc (by omega) (by omega)
      obtain ⟨hwfB, hhB, -⟩ :=
        mkNode_wf hbd hbR hfl3d hfR hbald hbalR hhd hhR (by omega) (by omega)
      have hfAu : ForallKeys (fun x => x < ck) (mkNode ll lk c) :=
        forallKeys_mkNode (forallKeys_mono (fun x hx => lt_trans hx hlkck) hfll)
          hlkck hfc
      have hfBu : ForallKeys (fun x => ck < x) (mkNode d k0 r) :=
        forallKeys_mkNode hfd hckk0
          (forallKeys_mono (fun x hx => lt_trans hckk0 hx) hfR)
      obtain ⟨hwfO, hhO, -⟩ :=
        mkNode_wf hwfA.1 hwfB.1 hfAu hfBu hwfA.2.1 hwfB.2.1 hwfA.2.2 hwfB.2.2
          (by omega) (by omega)
      refine ⟨hwfO, ?_, ?_, ?_, ?_⟩
      · rw [hhO, hhA, hhB]; omega
      · rw [hhO, hhA, hhB]; omega
      · intro p hpL hpk hpr
        obtain ⟨hp1, hp2, hp3c, hp3k, hp3d⟩ := hpL
        exact forallKeys_mkNode (forallKeys_mkNode hp1 hp2 hp3c) hp3k
          (forallKeys_mkNode hp3d hpk hpr)
      · intro hg
        rw [hhO, hhA, hhB] at hg
        exfalso; omega

lemma insert_right_step {l r R' : AVLNode} {k0 key : Int}
    (hkey : key > k0)
    (hwfL : AVLWf l) (hwfR : AVLWf R')
    (hfL : ForallKeys (fun x => x < k0) l) (hfR : ForallKeys (fun x => k0 < x) R')
    (hd1 : realHeight l - realHeight r ≤ 1) (hd2 : realHeight r - realHeight l ≤ 1)
    (hlo : realHeight r ≤ realHeight R') (hhi : realHeight R' ≤ realHeight r + 1)
    (hgrow : realHeight R' = realHeight r + 1 → r ≠ nil →
      ∃ rl rk rh rr, R' = node rl rk rh rr ∧
        (key < rk → realHeight rl = realHeight rr + 1) ∧
        (key > rk → realHeight rr = realHeight rl + 1) ∧ key ≠ rk) :
    AVLWf (rebalance (mkNode l k0 R') key) ∧
    1 + max (realHeight l) (realHeight r) ≤ realHeight (rebalance (mkNode l k0 R') key) ∧
    realHeight (rebalance (mkNode l k0 R') key)
      ≤ 1 + max (realHeight l) (realHeight r) + 1 ∧
    (∀ p : Int → Prop, ForallKeys p l → p k0 → ForallKeys p R' →
      ForallKeys p (rebalance (mkNode l k0 R') key)) ∧
    (realHeight (rebalance (mkNode l k0 R') key)
        = 1 + max (realHeight l) (realHeight r) + 1 →
      ∃ l' k' h' r', rebalance (mkNode l k0 R') key = node l' k' h' r' ∧
        (key < k' → realHeight l' = realHeight r' + 1) ∧
        (key > k' → realHeight r' = realHeight l' + 1) ∧ key ≠ k') := by
  obtain ⟨hbL, hbalL, hhL⟩ := hwfL
  obtain ⟨hbR, hbalR, hhR⟩ := hwfR
  have hLn := realHeight_nonneg l
  have hRn := realHeight_nonneg r
  have hsL : heightS l = realHeight l := heightS_eq hhL
  have hsR : heightS R' = realHeight R' := heightS_eq hhR
  by_cases hA : -1 ≤ realHeight l - realHeight R'
  · -- balance factor stays in range: no rotation
    rw [rebalance_eval_noRot (by rw [hsL, hsR]; omega) (by rw [hsL, hsR]; omega)]
    obtain ⟨hwfM, hhM, -⟩ :=
      mkNode_wf hbL hbR hfL hfR hbalL hbalR hhL hhR (by omega) (by omega)
    refine ⟨hwfM, ?_, ?_, ?_, ?_⟩
    · rw [hhM]; omega
    · rw [hhM]; omega
    · intro p hpl hpk hpr; exact forallKeys_mkNode hpl hpk hpr
    · intro hg
      rw [hhM] at hg
      refine ⟨l, k0, _, R', rfl, ?_, ?_, ?_⟩
      · intro hc; omega
      · intro _; omega
      · omega
  · -- the right subtree got two levels higher: rotate
    have hrpos : 0 < realHeight r := by omega
    have hrne : r ≠ nil := by
      intro hn
      rw [hn] at hrpos
      simp only [realHeight] at hrpos
      omega
    obtain ⟨rl, rk, rh, rr, hReq, hgl, hgr, hkne⟩ := hgrow (by omega) hrne
    have hRh : realHeight R' = 1 + max (realHeight rl) (realHeight rr) := by
      rw [hReq]; rfl
    rw [hReq] at hbR hbalR hhR hfR
    obtain ⟨hbrl, hbrr, hfrl, hfrr⟩ := hbR
    obtain ⟨hbal1, hbal2, hdr1, hdr2⟩ := hbalR
    obtain ⟨hh1, hh2, hhst⟩ := hhR
    obtain ⟨hfr1, hfr2, hfr3⟩ := hfR
    rcases lt_or_gt_of_ne hkne with hklt | hkgt
    · -- RL: double rotation (right on the child, then left)
      have h1 : realHeight rl = realHeight rr + 1 := hgl hklt
      have hrlpos : 0 < realHeight rl := by omega
      obtain ⟨c, ck, chh, d, hrleq⟩ := exists_node_of_height hrlpos
      subst hrleq
      obtain ⟨hbc, hbd, hfc, hfd⟩ := hbrl
      obtain ⟨hbalc, hbald, hdc1, hdc2⟩ := hbal1
      obtain ⟨hhc, hhd, hhcst⟩ := hh1
      obtain ⟨hfrlc, hckrk, hfrld⟩ := hfrl
      obtain ⟨hfr1c, hk0ck, hfr1d⟩ := hfr1
      have hnlh : realHeight (node c ck chh d)
          = 1 + max (realHeight c) (realHeight d) := rfl
      rw [rebalance_eval_RL (by rw [hsL, hsR]; omega) (by rw [hReq]; exact hklt)]
      rw [hReq]
      rw [show rotateRight (node (node c ck chh d) rk rh rr)
          = mkNode c ck (mkNode d rk rr) from rfl]
      rw [show mkNode c ck (mkNode d rk rr)
          = node c ck (1 + max (heightS c) (heightS (mkNode d rk rr)))
              (mkNode d rk rr) from rfl]
      rw [rotateLeft_node]
      obtain ⟨hwfA, hhA, -⟩ :=
        mkNode_wf hbL hbc hfL hfr1c hbalL hbalc hhL hhc (by omega) (by omega)
      obtain ⟨hwfB, hhB, -⟩ :=
        mkNode_wf hbd hbrr hfrld hfrr hbald hbal2 hhd hh2 (by omega) (by omega)
      have hfAu : ForallKeys (fun x => x < ck) (mkNode l k0 c) :=
        forallKeys_mkNode (forallKeys_mono (fun x hx => lt_trans hx hk0ck) hfL)
          hk0ck hfc
      have hfBu : ForallKeys (fun x => ck < x) (mkNode d rk rr) :=
        forallKeys_mkNode hfd hckrk
          (forallKeys_mono (fun x hx => lt_trans hckrk hx) hfrr)
      obtain ⟨hwfO, hhO, -⟩ :=
        mkNode_wf hwfA.1 hwfB.1 hfAu hfBu hwfA.2.1 hwfB.2.1 hwfA.2.2 hwfB.2.2
          (by omega) (by omega)
      refine ⟨hwfO, ?_, ?_, ?_, ?_⟩
      · rw [hhO, hhA, hhB]; omega
      · rw [hhO, hhA, hhB]; omega
      · intro p hpl hpk hpR
        obtain ⟨⟨hp1c, hp1k, hp1d⟩, hp2, hp3⟩ := hpR
        exact forallKeys_mkNode (forallKeys_mkNode hpl hpk hp1c) hp1k
          (forallKeys_mkNode hp1d hp2 hp3)
      · intro hg
        rw [hhO, hhA, hhB] at hg
        exfalso; omega
    · -- RR: single left rotation
      have h1 : realHeight rr = realHeight rl + 1 := hgr hkgt
      rw [rebalance_eval_RR (by rw [hsL, hsR]; omega) (by rw [hReq]; exact hkgt)]
      rw [hReq, rotateLeft_node]
      obtain ⟨hwfI, hhI, -⟩ :=
        mkNode_wf hbL hbrl hfL hfr1 hbalL hbal1 hhL hh1 (by omega) (by omega)
      have hfO : ForallKeys (fun x => x < rk) (mkNode l k0 rl) :=
        forallKeys_mkNode (forallKeys_mono (fun x hx => lt_trans hx hfr2) hfL)
          hfr2 hfrl
      obtain ⟨hwfO, hhO, -⟩ :=
        mkNode_wf hwfI.1 hbrr hfO hfrr hwfI.2.1 hbal2 hwfI.2.2 hh2
          (by omega) (by omega)
      refine ⟨hwfO, ?_, ?_, ?_, ?_⟩
      · rw [hhO, hhI]; omega
      · rw [hhO, hhI]; omega
      · intro p hpl hpk hpR
        obtain ⟨hp1, hp2, hp3⟩ := hpR
        exact forallKeys_mkNode (forallKeys_mkNode hpl hpk hp1) hp2 hp3
      · intro hg
        rw [hhO, hhI] at hg
        exfalso; omega

lemma avlInsert_main : ∀ (t : AVLNode) (key : Int), AVLWf t →
    AVLWf (avlInsert t key) ∧
    realHeight t ≤ realHeight (avlInsert t key) ∧
    realHeight (avlInsert t key) ≤ realHeight t + 1 ∧
    (∀ p : Int → Prop, p key → ForallKeys p t → ForallKeys p (avlInsert t key)) ∧
    (realHeight (avlInsert t key) = realHeight t + 1 → t ≠ nil →
      ∃ l' k' h' r', avlInsert t key = node l' k' h' r' ∧
        (key < k' → realHeight l' = realHeight r' + 1) ∧
        (key > k' → realHeight r' = realHeight l' + 1) ∧ key ≠ k')
  | nil, key, _ => by
      refine ⟨⟨⟨trivial, trivial, trivial, trivial⟩,
        ⟨trivial, trivial, ?_, ?_⟩, ⟨trivial, trivial, ?_⟩⟩, ?_, ?_, ?_, ?_⟩
      · simp only [realHeight]; omega
      · simp only [realHeight]; omega
      · simp only [avlInsert, realHeight]; omega
      · simp only [avlInsert, realHeight]; omega
      · simp only [avlInsert, realHeight]; omega
      · intro p hp _
        exact ⟨trivial, hp, trivial⟩
      · intro _ hne
        exact absurd rfl hne
  | node l0 k0 h0 r0, key, hwf => by
      obtain ⟨⟨hbL, hbR, hfL, hfR⟩, ⟨hbalL, hbalR, hd1, hd2⟩, ⟨hhL, hhR, hh0⟩⟩ := hwf
      have hrh : realHeight (node l0 k0 h0 r0)
          = 1 + max (realHeight l0) (realHeight r0) := rfl
      rcases lt_trichotomy key k0 with hlt | heq | hgt
      · obtain ⟨hwfL', hlo, hhi, hkeep, hgrow⟩ :=
          avlInsert_main l0 key ⟨hbL, hbalL, hhL⟩
        have hfL' : ForallKeys (fun x => x < k0) (avlInsert l0 key) :=
          hkeep (fun x => x < k0) hlt hfL
        obtain ⟨s1, s2, s3, s4, s5⟩ :=
          insert_left_step hlt hwfL' ⟨hbR, hbalR, hhR⟩ hfL' hfR hd1 hd2 hlo hhi hgrow
        rw [avlInsert, if_pos hlt, hrh]
        refine ⟨s1, s2, s3, ?_, ?_⟩
        · intro p hp hf
          obtain ⟨hf1, hf2, hf3⟩ := hf
          exact s4 p (hkeep p hp hf1) hf2 hf3
        · intro hg _
          exact s5 hg
      · rw [avlInsert, if_neg (by omega), if_neg (by omega)]
        refine ⟨⟨⟨hbL, hbR, hfL, hfR⟩, ⟨hbalL, hbalR, hd1, hd2⟩, ⟨hhL, hhR, hh0⟩⟩,
          le_refl _, by omega, ?_, ?_⟩
        · intro p _ hf
          exact hf
        · intro hg _
          exfalso; omega
      · obtain ⟨hwfR', hlo, hhi, hkeep, hgrow⟩ :=
          avlInsert_main r0 key ⟨hbR, hbalR, hhR⟩
        have hfR' : ForallKeys (fun x => k0 < x) (avlInsert r0 key) :=
          hkeep (fun x => k0 < x) hgt hfR
        obtain ⟨s1, s2, s3, s4, s5⟩ :=
          insert_right_step hgt ⟨hbL, hbalL, hhL⟩ hwfR' hfL hfR' hd1 hd2 hlo hhi hgrow
        rw [avlInsert, if_neg (by omega), if_pos hgt, hrh]
        refine ⟨s1, s2, s3, ?_, ?_⟩
        · intro p hp hf
          obtain ⟨hf1, hf2, hf3⟩ := hf
          exact s4 p hf1 hf2 (hkeep p hp hf3)
        · intro hg _
          exact s5 hg

lemma containsKey_forallKeys {p : Int → Prop} :
    ∀ {t : AVLNode} {key : Int}, ForallKeys p t → containsKey t key → p key
  | nil, _, _, hc => hc.elim
  | node l k _ r, key, ⟨h1, h2, h3⟩, hc => by
      rcases hc with hc | hc | hc
      · exact containsKey_forallKeys h1 hc
      · rw [hc]; exact h2
      · exact containsKey_forallKeys h3 hc

lemma avlInsert_duplicate : ∀ (t : AVLNode) (key : Int), AVLWf t →
    containsKey t key → avlInsert t key = t
  | nil, _, _, hc => hc.elim
  | node l0 k0 h0 r0, key, hwf, hc => by
      obtain ⟨⟨hbL, hbR, hfL, hfR⟩, ⟨hbalL, hbalR, hd1, hd2⟩, ⟨hhL, hhR, hh0⟩⟩ := hwf
      have hm : mkNode l0 k0 r0 = node l0 k0 h0 r0 := by
        rw [mkNode, heightS_eq hhL, heightS_eq hhR, hh0]
      rcases lt_trichotomy key k0 with hlt | heq | hgt
      · have hcl : containsKey l0 key := by
          rcases hc with h | h | h
          · exact h
          · exact absurd h (by omega)
          · exact absurd (containsKey_forallKeys hfR h) (by omega)
        rw [avlInsert, if_pos hlt, avlInsert_duplicate l0 key ⟨hbL, hbalL, hhL⟩ hcl]
        rw [rebalance_eval_noRot
          (by rw [heightS_eq hhL, heightS_eq hhR]; omega)
          (by rw [heightS_eq hhL, heightS_eq hhR]; omega), hm]
      · rw [avlInsert, if_neg (by omega), if_neg (by omega)]
      · have hcr : containsKey r0 key := by
          rcases hc with h | h | h
          · exact absurd (containsKey_forallKeys hfL h) (by omega)
          · exact absurd h (by omega)
          · exact h
        rw [avlInsert, if_neg (by omega), if_pos hgt,
          avlInsert_duplicate r0 key ⟨hbR, hbalR, hhR⟩ hcr]
        rw [rebalance_eval_noRot
          (by rw [heightS_eq hhL, heightS_eq hhR]; omega)
          (by rw [heightS_eq hhL, heightS_eq hhR]; omega), hm]

lemma foldl_avlInsert_wf : ∀ (ks : List Int) (t : AVLNode),
    AVLWf t → AVLWf (ks.foldl avlInsert t)
  | [], _, h => h
  | k :: ks, t, h => foldl_avlInsert_wf ks (avlInsert t k) (avlInsert_main t k h).1

end AVL

/-- C4: for every finite sequence of integer keys inserted with `AVLInsert`
into an initially empty tree, the resulting tree is a binary search tree and
is height-balanced (every balance factor is in {-1, 0, 1}); inserting a key
that is already present returns the tree unchanged. -/
theorem avlInsert_bst_balanced_dup (ks : List Int) (key : Int) :
    AVL.IsBST (ks.foldl AVL.avlInsert AVL.AVLNode.nil) ∧
    AVL.Balanced (ks.foldl AVL.avlInsert AVL.AVLNode.nil) ∧
    (AVL.containsKey (ks.foldl AVL.avlInsert AVL.AVLNode.nil) key →
      AVL.avlInsert (ks.foldl AVL.avlInsert AVL.AVLNode.nil) key
        = ks.foldl AVL.avlInsert AVL.AVLNode.nil) := by
  have h := AVL.foldl_avlInsert_wf ks AVL.AVLNode.nil ⟨trivial, trivial, trivial⟩
  exact ⟨h.1, h.2.1, fun hc => AVL.avlInsert_duplicate _ key h hc⟩

namespace Sorting

/-! ### 交换排序.cpp — BubbleSort

`BubbleSort(elem, n)` runs passes `i = 1 .. n-1`; pass `i` walks `j` from `0`
to `n-i-1` and swaps the adjacent pair `elem[j], elem[j+1]` whenever
`elem[j] > elem[j+1]`.  A pass therefore touches exactly the first `n-i+1`
slots.  `bpass` performs one such adjacent-swap sweep over a list, carrying
the currently larger element rightwards exactly as the in-place loop does. -/

def bpass : List Int → List Int
  | [] => []
  | [x] => [x]
  | x :: y :: rest => if x > y then y :: bpass (x :: rest) else x :: bpass (y :: rest)

/-- Pass `i` of `BubbleSort` on the first `m = n - i + 1` slots, rest untouched. -/
def passPrefix (l : List Int) (m : Nat) : List Int := bpass (l.take m) ++ l.drop m

/-- `BubbleSort(elem, n)` with `n = l.length`: passes `i = 1 .. n-1`. -/
def bubbleSort (l : List Int) : List Int :=
  (List.range' 1 (l.length - 1)).foldl (fun acc i => passPrefix acc (l.length - i + 1)) l

lemma bpass_perm : ∀ l : List Int, (bpass l).Perm l
  | [] => by rw [bpass]
  | [x] => by rw [bpass]
  | x :: y :: rest => by
      rw [bpass]
      by_cases h : x > y
      · rw [if_pos h]
        exact ((bpass_perm (x :: rest)).cons y).trans (List.Perm.swap x y rest)
      · rw [if_neg h]
        exact (bpass_perm (y :: rest)).cons x

lemma bpass_concat : ∀ (a : Int) (l : List Int),
    ∃ pre mx, bpass (a :: l) = pre ++ [mx] ∧ ∀ x ∈ bpass (a :: l), x ≤ mx
  | a, [] => ⟨[], a, by rw [bpass]; rfl, by
      intro x hx
      simp only [bpass, List.mem_singleton] at hx
      omega⟩
  | a, b :: l => by
      by_cases h : a > b
      · obtain ⟨pre, mx, heq, hle⟩ := bpass_concat a l
        have hmem : a ≤ mx :=
          hle a ((bpass_perm (a :: l)).mem_iff.mpr (List.mem_cons_self a l))
        refine ⟨b :: pre, mx, ?_, ?_⟩
        · rw [bpass, if_pos h, heq]; rfl
        · intro x hx
          rw [bpass, if_pos h] at hx
          rcases List.mem_cons.mp hx with hx | hx
          · omega
          · exact hle x hx
      · obtain ⟨pre, mx, heq, hle⟩ := bpass_concat b l
        have hmem : b ≤ mx :=
          hle b ((bpass_perm (b :: l)).mem_iff.mpr (List.mem_cons_self b l))
        refine ⟨a :: pre, mx, ?_, ?_⟩
        · rw [bpass, if_neg h, heq]; rfl
        · intro x hx
          rw [bpass, if_neg h] at hx
          rcases List.mem_cons.mp hx with hx | hx
          · omega
          · exact hle x hx

lemma pass_step {l0 pre suf : List Int} (hpre : pre ≠ [])
    (hperm : (pre ++ suf).Perm l0)
    (hsorted : suf.Pairwise (· ≤ ·))
    (hdom : ∀ a ∈ pre, ∀ b ∈ suf, a ≤ b) :
    ∃ pre' mx, passPrefix (pre ++ suf) pre.length = pre' ++ (mx :: suf) ∧
      (pre' ++ (mx :: suf)).Perm l0 ∧
      (mx :: suf).Pairwise (· ≤ ·) ∧
      (∀ a ∈ pre', ∀ b ∈ mx :: suf, a ≤ b) ∧
      pre'.length + 1 = pre.length := by
  obtain ⟨a, t, rfl⟩ := List.exists_cons_of_ne_nil hpre
  obtain ⟨pre', mx, heq, hle⟩ := bpass_concat a t
  have hmxmem : mx ∈ bpass (a :: t) := by
    rw [heq]; exact List.mem_append_right _ (List.mem_singleton.mpr rfl)
  have hmxpre : mx ∈ a :: t := (bpass_perm (a :: t)).mem_iff.mp hmxmem
  have hpp : passPrefix ((a :: t) ++ suf) (a :: t).length = pre' ++ (mx :: suf) := by
    rw [passPrefix, List.take_left, List.drop_left, heq, List.append_assoc]
    rfl
  refine ⟨pre', mx, hpp, ?_, ?_, ?_, ?_⟩
  · have h1 : (bpass (a :: t)).Perm (a :: t) := bpass_perm (a :: t)
    have h2 : (pre' ++ (mx :: suf)).Perm ((a :: t) ++ suf) := by
      have : pre' ++ (mx :: suf) = (pre' ++ [mx]) ++ suf := by
        rw [List.append_assoc]; rfl
      rw [this, ← heq]
      exact h1.append_right suf
    exact h2.trans hperm
  · rw [List.pairwise_cons]
    exact ⟨fun b hb => hdom mx hmxpre b hb, hsorted⟩
  · intro x hx b hb
    have hxb : x ∈ bpass (a :: t) := by
      rw [heq]; exact List.mem_append_left _ hx
    rcases List.mem_cons.mp hb with hb | hb
    · rw [hb]; exact hle x hxb
    · exact hdom x ((bpass_perm (a :: t)).mem_iff.mp hxb) b hb
  · have h := (bpass_perm (a :: t)).length_eq
    rw [heq] at h
    simp only [List.length_append, List.length_singleton, List.length_cons,
      List.length_nil] at h ⊢
    omega

lemma bubble_fold (l0 : List Int) : ∀ (cnt start : Nat) (acc : List Int),
    1 ≤ start → start + cnt = l0.length →
    acc.Perm l0 →
    (∃ pre suf, acc = pre ++ suf ∧ suf.length = start - 1 ∧
      suf.Pairwise (· ≤ ·) ∧ ∀ a ∈ pre, ∀ b ∈ suf, a ≤ b) →
    ∃ pre suf,
      (List.range' start cnt).foldl (fun a i => passPrefix a (l0.length - i + 1)) acc
        = pre ++ suf ∧ suf.length = start - 1 + cnt ∧ suf.Pairwise (· ≤ ·) ∧
      (∀ a ∈ pre, ∀ b ∈ suf, a ≤ b) ∧ (pre ++ suf).Perm l0
  | 0, start, acc, _, _, hperm, ⟨pre, suf, heq, hlen, hsor, hdom⟩ => by
      refine ⟨pre, suf, ?_, by omega, hsor, hdom, heq ▸ hperm⟩
      simpa [List.range'] using heq
  | cnt + 1, start, acc, hstart, htot, hperm, ⟨pre, suf, heq, hlen, hsor, hdom⟩ => by
      have hlacc : acc.length = l0.length := hperm.length_eq
      have hlens : pre.length + suf.length = l0.length := by
        rw [← List.length_append, ← heq, hlacc]
      have hplen : pre.length = l0.length - start + 1 := by omega
      have hpre : pre ≠ [] := List.ne_nil_of_length_pos (by omega)
      rw [List.range'_succ]
      have hstepin : (List.range' (start + 1) cnt).foldl
            (fun a i => passPrefix a (l0.length - i + 1))
            (passPrefix acc (l0.length - start + 1))
          = (start :: List.range' (start + 1) cnt).foldl
            (fun a i => passPrefix a (l0.length - i + 1)) acc := rfl
      rw [← hstepin]
      obtain ⟨pre', mx, hpp, hperm', hsor', hdom', hplen'⟩ :=
        pass_step hpre (heq ▸ hperm) hsor hdom
      have hppacc : passPrefix acc (l0.length - start + 1) = pre' ++ (mx :: suf) := by
        rw [heq, show l0.length - start + 1 = pre.length from by omega, hpp]
      rw [hppacc]
      obtain ⟨p2, s2, h1, h2, h3, h4, h5⟩ :=
        bubble_fold l0 cnt (start + 1) (pre' ++ (mx :: suf)) (by omega) (by omega)
          hperm' ⟨pre', mx :: suf, rfl, by simp only [List.length_cons]; omega, hsor', hdom'⟩
      exact ⟨p2, s2, h1, by omega, h3, h4, h5⟩

lemma bubbleSort_perm_sorted (l : List Int) :
    (bubbleSort l).Perm l ∧ (bubbleSort l).Pairwise (· ≤ ·) := by
  cases hn : l.length with
  | zero =>
      have hl : l = [] := List.length_eq_zero.mp hn
      subst hl
      exact ⟨List.Perm.refl _, List.Pairwise.nil⟩
  | succ m =>
      obtain ⟨pre, suf, h1, h2, h3, h4, h5⟩ :=
        bubble_fold l m 1 l (le_refl 1) (by omega) (List.Perm.refl l)
          ⟨l, [], by simp, rfl, List.Pairwise.nil, by simp⟩
      have hbs : bubbleSort l = pre ++ suf := by
        rw [bubbleSort, show l.length - 1 = m from by omega]
        exact h1
      have hlens : pre.length + suf.length = l.length := by
        rw [← List.length_append, ← hbs, (hbs ▸ h5 : (bubbleSort l).Perm l).length_eq]
      have hpre1 : pre.length = 1 := by omega
      obtain ⟨a, ha⟩ := List.length_eq_one.mp hpre1
      subst ha
      constructor
      · rw [hbs]; exact h5
      · rw [hbs]
        rw [List.singleton_append, List.pairwise_cons]
        exact ⟨fun b hb => h4 a (List.mem_singleton.mpr rfl) b hb, h3⟩

/-! ### 基数排序.cpp — RadixSortLSD

`RadixSortLSD(a, n, radix)` returns immediately when `n <= 1`, then throws on
`radix <= 1` and on any negative element; otherwise it runs
`d = DigitsInBase(maxVal, radix)` distribute-collect passes over a linked
list: pass with weight `exp` distributes nodes into `radix` buckets by
`(key / exp) % radix` with tail insertion and collects the buckets in digit
order, which is exactly a stable partition of the sequence by digit. -/

/-- The `while (x > 0) { x /= radix; ++d }` loop of `DigitsInBase`. -/
def digitsGo (radix : Int) : Nat → Int → Nat → Nat
  | 0, _, d => d
  | fuel + 1, x, d => if x > 0 then digitsGo radix fuel (x / radix) (d + 1) else d

/-- `DigitsInBase(x, radix)`. -/
def digitsInBase (x radix : Int) : Nat :=
  if x = 0 then 1 else digitsGo radix x.toNat x 0

/-- One distribute-collect pass: buckets `0 .. radix-1` filled by tail
insertion in sequence order, then concatenated in digit order. -/
def radixPass (l : List Int) (radix exp : Int) : List Int :=
  (List.range radix.toNat).flatMap
    (fun dg => l.filter (fun x => x / exp % radix == (dg : Int)))

/-- The `d` passes, `exp` multiplied by `radix` after each. -/
def radixLoop : Nat → List Int → Int → Int → List Int
  | 0, l, _, _ => l
  | d + 1, l, radix, exp => radixLoop d (radixPass l radix exp) radix (exp * radix)

/-- `RadixSortLSD(a, n, radix)`; `none` models the thrown
`invalid_argument` (`radix <= 1`, or some negative element). -/
def radixSortLSD (l : List Int) (radix : Int) : Option (List Int) :=
  if l.length ≤ 1 then some l
  else if radix ≤ 1 then none
  else if l.any (fun x => x < 0) then none
  else some (radixLoop (digitsInBase (l.foldl max 0) radix) l radix 1)

lemma foldl_max_spec : ∀ (l : List Int) (a : Int),
    a ≤ l.foldl max a ∧ ∀ x ∈ l, x ≤ l.foldl max a
  | [], a => ⟨le_refl a, by simp⟩
  | b :: l, a => by
      obtain ⟨h1, h2⟩ := foldl_max_spec l (max a b)
      refine ⟨le_trans (le_max_left a b) h1, ?_⟩
      intro x hx
      rcases List.mem_cons.mp hx with hx | hx
      · rw [hx]; exact le_trans (le_max_right a b) h1
      · exact h2 x hx

lemma digitsGo_shift (radix : Int) : ∀ (fuel : Nat) (x : Int) (d : Nat),
    digitsGo radix fuel x d = digitsGo radix fuel x 0 + d
  | 0, x, d => by rw [digitsGo, digitsGo]; omega
  | fuel + 1, x, d => by
      rw [digitsGo, digitsGo]
      by_cases h : x > 0
      · rw [if_pos h, if_pos h, digitsGo_shift radix fuel (x / radix) (d + 1),
          digitsGo_shift radix fuel (x / radix) (0 + 1)]
        omega
      · rw [if_neg h, if_neg h]; omega

lemma digitsGo_lt {radix : Int} (hr : 2 ≤ radix) : ∀ (fuel : Nat) (x : Int),
    0 ≤ x → x.toNat ≤ fuel → x < radix ^ digitsGo radix fuel x 0
  | 0, x, hx, hfuel => by
      rw [digitsGo, pow_zero]; omega
  | fuel + 1, x, hx, hfuel => by
      rw [digitsGo]
      by_cases h : x > 0
      · rw [if_pos h, digitsGo_shift radix fuel (x / radix) (0 + 1)]
        have hq0 : 0 ≤ x / radix := Int.ediv_nonneg hx (by omega)
        have hqlt : x / radix < x := by
          have hd := Int.ediv_add_emod x radix
          have hr0 : 0 ≤ x % radix := Int.emod_nonneg x (by omega)
          nlinarith
        have hrec := digitsGo_lt hr fuel (x / radix) hq0 (by omega)
        have hmul := Int.lt_ediv_add_one_mul_self x (show 0 < radix by omega)
        calc x < (x / radix + 1) * radix := hmul
          _ ≤ radix ^ digitsGo radix fuel (x / radix) 0 * radix := by
              apply mul_le_mul_of_nonneg_right (by omega) (by omega)
          _ = radix ^ (digitsGo radix fuel (x / radix) 0 + (0 + 1)) := by
              rw [pow_succ]
      · rw [if_neg h, pow_zero]; omega

lemma digitsInBase_lt {x radix : Int} (hx : 0 ≤ x) (hr : 2 ≤ radix) :
    x < radix ^ digitsInBase x radix := by
  rw [digitsInBase]
  by_cases h : x = 0
  · rw [if_pos h, pow_one]; omega
  · rw [if_neg h]
    exact digitsGo_lt hr x.toNat x hx (le_refl _)

lemma filter_union_perm (p q : Int → Bool) (hdisj : ∀ x, ¬(p x = true ∧ q x = true)) :
    ∀ l : List Int, (l.filter p ++ l.filter q).Perm (l.filter (fun x => p x || q x))
  | [] => by simp
  | a :: t => by
      by_cases hp : p a = true
      · have hq : q a = false := Bool.eq_false_iff.mpr (fun h => hdisj a ⟨hp, h⟩)
        simp only [List.filter_cons, hp, hq, if_true, if_false, Bool.true_or,
          List.cons_append]
        exact (filter_union_perm p q hdisj t).cons a
      · have hp' : p a = false := Bool.eq_false_iff.mpr hp
        by_cases hq : q a = true
        · simp only [List.filter_cons, hp', hq, if_true, if_false, Bool.false_or]
          refine List.Perm.trans List.perm_middle ?_
          exact (filter_union_perm p q hdisj t).cons a
        · have hq' : q a = false := Bool.eq_false_iff.mpr hq
          simp only [List.filter_cons, hp', hq', if_false, Bool.false_or]
          exact filter_union_perm p q hdisj t

lemma flatMap_filter_aux (cls : Int → Int) (l : List Int)
    (hcls : ∀ x ∈ l, 0 ≤ cls x) : ∀ R : Nat,
    ((List.range R).flatMap (fun dg => l.filter (fun x => cls x == (dg : Int)))).Perm
      (l.filter (fun x => decide (cls x < (R : Int))))
  | 0 => by
      have h : l.filter (fun x => decide (cls x < ((0 : Nat) : Int))) = [] := by
        apply List.filter_eq_nil_iff.mpr
        intro x hx
        have := hcls x hx
        simp only [Nat.cast_zero, decide_eq_true_eq]
        omega
      rw [h]
      simp
  | R + 1 => by
      rw [List.range_succ, List.flatMap_append]
      have ih := flatMap_filter_aux cls l hcls R
      have hunion := filter_union_perm (fun x => decide (cls x < (R : Int)))
        (fun x => cls x == (R : Int))
        (by
          intro x ⟨h1, h2⟩
          simp only [decide_eq_true_eq] at h1
          rw [beq_iff_eq] at h2
          omega) l
      have hcongr : l.filter (fun x => decide (cls x < (R : Int)) || (cls x == (R : Int)))
          = l.filter (fun x => decide (cls x < ((R + 1 : Nat) : Int))) := by
        apply List.filter_congr
        intro x _
        have hc : ((R + 1 : Nat) : Int) = (R : Int) + 1 := by push_cast; ring
        rw [hc, Bool.eq_iff_iff]
        simp only [Bool.or_eq_true, decide_eq_true_eq, beq_iff_eq]
        omega
      have hsimp : (List.flatMap [R] fun dg => l.filter (fun x => cls x == (dg : Int)))
          = l.filter (fun x => cls x == (R : Int)) := by
        simp [List.flatMap]
      rw [hsimp]
      exact ((ih.append_right _).trans hunion).trans (hcongr ▸ List.Perm.refl _)

lemma radixPass_perm (l : List Int) (radix m : Int) (hr : 2 ≤ radix) :
    (radixPass l radix m).Perm l := by
  rw [radixPass]
  have h := flatMap_filter_aux (fun x => x / m % radix) l
    (fun x _ => Int.emod_nonneg _ (by omega)) radix.toNat
  have hfl : l.filter (fun x => decide (x / m % radix < (radix.toNat : Int))) = l := by
    apply List.filter_eq_self.mpr
    intro x _
    simp only [decide_eq_true_eq]
    have h1 : x / m % radix < radix := Int.emod_lt_of_pos _ (by omega)
    rw [Int.toNat_of_nonneg (by omega)]
    exact h1
  rw [hfl] at h
  exact h

lemma pairwise_flatMap_buckets {S : Int → Int → Prop} (F : Nat → List Int) :
    ∀ ds : List Nat, (∀ dg ∈ ds, (F dg).Pairwise S) →
    ds.Pairwise (fun d1 d2 => ∀ x ∈ F d1, ∀ y ∈ F d2, S x y) →
    (ds.flatMap F).Pairwise S
  | [], _, _ => List.Pairwise.nil
  | d :: ds, h1, h2 => by
      rw [List.flatMap_cons, List.pairwise_append]
      obtain ⟨hhd, htl⟩ := List.pairwise_cons.mp h2
      refine ⟨h1 d (List.mem_cons_self d ds),
        pairwise_flatMap_buckets F ds
          (fun dg hdg => h1 dg (List.mem_cons_of_mem d hdg)) htl, ?_⟩
      intro a ha b hb
      obtain ⟨d', hd', hbd'⟩ := List.mem_flatMap.mp hb
      exact hhd d' hd' a ha b hbd'

lemma mod_mul_decomp (x m radix : Int) (hm : 0 < m) (hr : 0 < radix) :
    x % (m * radix) = m * (x / m % radix) + x % m := by
  have h1 := Int.ediv_add_emod x m
  have h2 := Int.ediv_add_emod (x / m) radix
  have hs1 : 0 ≤ x % m := Int.emod_nonneg x (by omega)
  have hs2 : x % m < m := Int.emod_lt_of_pos x hm
  have hq1 : 0 ≤ x / m % radix := Int.emod_nonneg _ (by omega)
  have hq2 : x / m % radix < radix := Int.emod_lt_of_pos _ hr
  have hxeq : x = m * (x / m % radix) + x % m + m * radix * (x / m / radix) := by
    linear_combination (-(1 : Int)) * h1 - m * h2
  have hW1 : 0 ≤ m * (x / m % radix) + x % m := by
    have := mul_nonneg (le_of_lt hm) hq1
    omega
  have hW2 : m * (x / m % radix) + x % m < m * radix := by
    have hmul : m * (x / m % radix) ≤ m * (radix - 1) :=
      mul_le_mul_of_nonneg_left (by omega) (le_of_lt hm)
    nlinarith
  conv_lhs => rw [hxeq]
  rw [Int.add_mul_emod_self_left]
  exact Int.emod_eq_of_lt hW1 hW2

lemma radixPass_sorted (l : List Int) (radix m : Int) (hr : 2 ≤ radix) (hm : 0 < m)
    (hsor : l.Pairwise (fun x y => x % m ≤ y % m)) :
    (radixPass l radix m).Pairwise (fun x y => x % (m * radix) ≤ y % (m * radix)) := by
  rw [radixPass]
  apply pairwise_flatMap_buckets
  · intro dg _
    apply List.Pairwise.imp_of_mem ?_ (hsor.filter _)
    intro a b ha hb hab
    have hda : a / m % radix = (dg : Int) := by
      have h := (List.mem_filter.mp ha).2
      rwa [beq_iff_eq] at h
    have hdb : b / m % radix = (dg : Int) := by
      have h := (List.mem_filter.mp hb).2
      rwa [beq_iff_eq] at h
    rw [mod_mul_decomp a m radix hm (by omega), mod_mul_decomp b m radix hm (by omega),
      hda, hdb]
    omega
  · apply List.Pairwise.imp ?_ (List.pairwise_lt_range _)
    intro d1 d2 hlt x hx y hy
    have hdx : x / m % radix = (d1 : Int) := by
      have h := (List.mem_filter.mp hx).2
      rwa [beq_iff_eq] at h
    have hdy : y / m % radix = (d2 : Int) := by
      have h := (List.mem_filter.mp hy).2
      rwa [beq_iff_eq] at h
    rw [mod_mul_decomp x m radix hm (by omega), mod_mul_decomp y m radix hm (by omega),
      hdx, hdy]
    have hd12 : (d1 : Int) + 1 ≤ (d2 : Int) := by exact_mod_cast hlt
    have hmul : m * ((d1 : Int) + 1) ≤ m * (d2 : Int) :=
      mul_le_mul_of_nonneg_left hd12 (le_of_lt hm)
    rw [mul_add, mul_one] at hmul
    have hx1 : x % m < m := Int.emod_lt_of_pos x hm
    have hy1 : 0 ≤ y % m := Int.emod_nonneg y (by omega)
    omega

lemma pairwise_mod_one : ∀ l : List Int, l.Pairwise (fun x y => x % 1 ≤ y % 1)
  | [] => List.Pairwise.nil
  | a :: t => List.Pairwise.cons
      (fun y _ => by simp [Int.emod_one]) (pairwise_mod_one t)

lemma radixLoop_spec {radix : Int} (hr : 2 ≤ radix) : ∀ (d k : Nat) (l : List Int),
    (∀ x ∈ l, 0 ≤ x) →
    l.Pairwise (fun x y => x % radix ^ k ≤ y % radix ^ k) →
    (radixLoop d l radix (radix ^ k)).Perm l ∧
    (radixLoop d l radix (radix ^ k)).Pairwise
      (fun x y => x % radix ^ (k + d) ≤ y % radix ^ (k + d))
  | 0, k, l, hpos, hsor => ⟨by rw [radixLoop], by rw [radixLoop]; simpa using hsor⟩
  | d + 1, k, l, hpos, hsor => by
      rw [radixLoop]
      have hpassp := radixPass_perm l radix (radix ^ k) hr
      have hpos' : ∀ x ∈ radixPass l radix (radix ^ k), 0 ≤ x :=
        fun x hx => hpos x (hpassp.mem_iff.mp hx)
      have hsor' : (radixPass l radix (radix ^ k)).Pairwise
          (fun x y => x % radix ^ (k + 1) ≤ y % radix ^ (k + 1)) := by
        have h := radixPass_sorted l radix (radix ^ k) hr (pow_pos (by omega) k) hsor
        rw [pow_succ]
        exact h
      have hexp : radix ^ k * radix = radix ^ (k + 1) := (pow_succ radix k).symm
      rw [hexp]
      obtain ⟨ih1, ih2⟩ :=
        radixLoop_spec hr d (k + 1) (radixPass l radix (radix ^ k)) hpos' hsor'
      refine ⟨ih1.trans hpassp, ?_⟩
      rw [show k + (d + 1) = k + 1 + d from by omega]
      exact ih2

lemma radixSortLSD_spec (l : List Int) (radix : Int) (hr : 2 ≤ radix)
    (hpos : ∀ x ∈ l, 0 ≤ x) :
    ∃ out, radixSortLSD l radix = some out ∧ out.Perm l ∧ out.Pairwise (· ≤ ·) := by
  rw [radixSortLSD]
  by_cases hn : l.length ≤ 1
  · rw [if_pos hn]
    refine ⟨l, rfl, List.Perm.refl _, ?_⟩
    cases l with
    | nil => exact List.Pairwise.nil
    | cons a t =>
        cases t with
        | nil => simp
        | cons b t2 => simp at hn
  · rw [if_neg hn, if_neg (by omega), if_neg (by
      simp only [List.any_eq_true, decide_eq_true_eq, not_exists]
      rintro x ⟨hx, hlt⟩
      exact absurd (hpos x hx) (by omega))]
    have hbase : l.Pairwise (fun x y => x % radix ^ 0 ≤ y % radix ^ 0) := by
      simpa [pow_zero] using pairwise_mod_one l
    obtain ⟨h1, h2⟩ := radixLoop_spec hr (digitsInBase (l.foldl max 0) radix) 0 l hpos hbase
    rw [pow_zero] at h1 h2
    refine ⟨_, rfl, h1, ?_⟩
    simp only [Nat.zero_add] at h2
    apply List.Pairwise.imp_of_mem ?_ h2
    intro a b ha hb hab
    have hamem := h1.mem_iff.mp ha
    have hbmem := h1.mem_iff.mp hb
    have hma := (foldl_max_spec l 0).2 a hamem
    have hmb := (foldl_max_spec l 0).2 b hbmem
    have hmax0 : (0 : Int) ≤ l.foldl max 0 := (foldl_max_spec l 0).1
    have hlt := digitsInBase_lt hmax0 hr
    rw [Int.emod_eq_of_lt (hpos a hamem) (by omega),
      Int.emod_eq_of_lt (hpos b hbmem) (by omega)] at hab
    exact hab

/-! ### 交换排序.cpp — QuickSort / Partition

The array is a total map `Int → Int` (C `int` indices and values); in-place
writes become `Function.update`.  `Partition` uses the hole-filling scheme:
`pivot = elem[low]`, then alternately scan `high` down past elements
`>= pivot`, copy into the hole at `low`, scan `low` up past elements
`<= pivot`, copy into the hole at `high`, until `low == high`, and finally
store the pivot there.  The scans and the outer loop are fuel-driven with
fuel bounds proven sufficient. -/

/-- The values `f lo, f (lo+1), …` of an `n`-slot region of the array. -/
def regionList (f : Int → Int) (lo : Int) : Nat → List Int
  | 0 => []
  | n + 1 => f lo :: regionList f (lo + 1) n

/-- `while (low < high && elem[high] >= pivot) --high;` -/
def scanDown (elem : Int → Int) (pivot : Int) (low : Int) : Nat → Int → Int
  | 0, high => high
  | fuel + 1, high =>
      if low < high ∧ pivot ≤ elem high then scanDown elem pivot low fuel (high - 1)
      else high

/-- `while (low < high && elem[low] <= pivot) ++low;` -/
def scanUp (elem : Int → Int) (pivot : Int) (high : Int) : Nat → Int → Int
  | 0, low => low
  | fuel + 1, low =>
      if low < high ∧ elem low ≤ pivot then scanUp elem pivot high fuel (low + 1)
      else low

/-- The `while (low < high)` loop of `Partition`: scan down, fill the hole at
`low`, scan up, fill the hole at `high`; returns the final array and the
meeting position. -/
def partitionLoop (pivot : Int) : Nat → (Int → Int) → Int → Int → (Int → Int) × Int
  | 0, elem, low, _ => (elem, low)
  | fuel + 1, elem, low, high =>
      if low < high then
        let h1 := scanDown elem pivot low (high - low).toNat high
        let elem1 := Function.update elem low (elem h1)
        let l1 := scanUp elem1 pivot h1 (h1 - low).toNat low
        let elem2 := Function.update elem1 h1 (elem1 l1)
        partitionLoop pivot fuel elem2 l1 h1
      else (elem, low)

/-- `Partition(elem, low, high)`: the loop, then `elem[low] = pivot`. -/
def partitionF (elem : Int → Int) (low high : Int) : (Int → Int) × Int :=
  let pivot := elem low
  let r := partitionLoop pivot ((high - low).toNat + 1) elem low high
  (Function.update r.1 r.2 pivot, r.2)

/-- `QuickSort(elem, low, high)` (recursive form). -/
def quickSortGo : Nat → (Int → Int) → Int → Int → Int → Int
  | 0, elem, _, _ => elem
  | fuel + 1, elem, low, high =>
      if low ≥ high then elem
      else
        let r := partitionF elem low high
        quickSortGo fuel (quickSortGo fuel r.1 low (r.2 - 1)) (r.2 + 1) high

/-- `QuickSort(elem, n)`: `if (n <= 1) return; QuickSort(elem, 0, n - 1);` -/
def quickSort (elem : Int → Int) (n : Int) : Int → Int :=
  if n ≤ 1 then elem else quickSortGo n.toNat elem 0 (n - 1)

lemma regionList_congr {f g : Int → Int} {lo : Int} : ∀ {n : Nat},
    (∀ i, lo ≤ i → i < lo + n → f i = g i) → regionList f lo n = regionList g lo n
  | 0, _ => rfl
  | n + 1, h => by
      rw [regionList, regionList, h lo (le_refl lo) (by omega)]
      rw [regionList_congr (fun i h1 h2 => h i (by omega) (by push_cast; push_cast at h2; omega))]

lemma regionList_split (f : Int → Int) (lo : Int) : ∀ (a b : Nat),
    regionList f lo (a + b) = regionList f lo a ++ regionList f (lo + (a : Int)) b
  | 0, b => by simp [regionList]
  | a + 1, b => by
      rw [show a + 1 + b = (a + b) + 1 from by omega, regionList, regionList,
        regionList_split f (lo + 1) a b, List.cons_append]
      have : lo + 1 + (a : Int) = lo + ((a : Int) + 1) := by ring
      rw [this]
      push_cast
      ring_nf

lemma mem_regionList {f : Int → Int} {lo i : Int} : ∀ {n : Nat},
    lo ≤ i → i < lo + n → f i ∈ regionList f lo n
  | 0, h1, h2 => by omega
  | n + 1, h1, h2 => by
      rw [regionList]
      rcases eq_or_lt_of_le h1 with h | h
      · rw [← h]; exact List.mem_cons_self _ _
      · exact List.mem_cons_of_mem _
          (mem_regionList (by omega) (by push_cast; push_cast at h2; omega))

lemma regionList_mem {f : Int → Int} {lo : Int} {x : Int} : ∀ {n : Nat},
    x ∈ regionList f lo n → ∃ i, lo ≤ i ∧ i < lo + n ∧ f i = x
  | 0, h => by simp [regionList] at h
  | n + 1, h => by
      rw [regionList] at h
      rcases List.mem_cons.mp h with h | h
      · exact ⟨lo, le_refl lo, by omega, h.symm⟩
      · obtain ⟨i, h1, h2, h3⟩ := regionList_mem h
        exact ⟨i, by omega, by push_cast; push_cast at h2; omega, h3⟩

lemma regionList_pairwise_of_mono {f : Int → Int} {lo : Int} : ∀ {n : Nat},
    (∀ i j, lo ≤ i → i ≤ j → j < lo + n → f i ≤ f j) →
    (regionList f lo n).Pairwise (· ≤ ·)
  | 0, _ => List.Pairwise.nil
  | n + 1, h => by
      rw [regionList]
      refine List.Pairwise.cons ?_ (regionList_pairwise_of_mono
        (fun i j h1 h2 h3 => h i j (by omega) h2 (by push_cast; push_cast at h3; omega)))
      intro y hy
      obtain ⟨j, h1, h2, h3⟩ := regionList_mem hy
      rw [← h3]
      exact h lo j (le_refl lo) (by omega) (by push_cast; push_cast at h2; omega)

lemma append_swap_perm (X Y Z : List Int) (u v : Int) :
    (X ++ u :: (Y ++ v :: Z)).Perm (X ++ v :: (Y ++ u :: Z)) := by
  apply List.Perm.append_left
  exact (List.perm_middle.cons u).trans
    ((List.Perm.swap v u (Y ++ Z)).trans (List.perm_middle.symm.cons v))

lemma scanDown_spec (elem : Int → Int) (pivot low : Int) : ∀ (fuel : Nat) (high : Int),
    low ≤ high → (high - low).toNat ≤ fuel →
    low ≤ scanDown elem pivot low fuel high ∧
    scanDown elem pivot low fuel high ≤ high ∧
    (∀ i, scanDown elem pivot low fuel high < i → i ≤ high → pivot ≤ elem i) ∧
    (low < scanDown elem pivot low fuel high →
      elem (scanDown elem pivot low fuel high) < pivot)
  | 0, high, h1, h2 => by
      rw [scanDown]
      refine ⟨by omega, le_refl high, ?_, ?_⟩
      · intro i hi1 hi2; omega
      · intro h; omega
  | fuel + 1, high, h1, h2 => by
      rw [scanDown]
      by_cases hc : low < high ∧ pivot ≤ elem high
      · rw [if_pos hc]
        obtain ⟨i1, i2, i3, i4⟩ :=
          scanDown_spec elem pivot low fuel (high - 1) (by omega) (by omega)
        refine ⟨i1, by omega, ?_, i4⟩
        intro i hi1 hi2
        rcases eq_or_lt_of_le hi2 with h | h
        · rw [h]; exact hc.2
        · exact i3 i hi1 (by omega)
      · rw [if_neg hc]
        refine ⟨h1, le_refl high, ?_, ?_⟩
        · intro i hi1 hi2; omega
        · intro h
          rcases not_and_or.mp hc with h' | h'
          · omega
          · omega

lemma scanUp_spec (elem : Int → Int) (pivot high : Int) : ∀ (fuel : Nat) (low : Int),
    low ≤ high → (high - low).toNat ≤ fuel →
    low ≤ scanUp elem pivot high fuel low ∧
    scanUp elem pivot high fuel low ≤ high ∧
    (∀ i, low ≤ i → i < scanUp elem pivot high fuel low → elem i ≤ pivot) ∧
    (scanUp elem pivot high fuel low < high →
      pivot < elem (scanUp elem pivot high fuel low))
  | 0, low, h1, h2 => by
      rw [scanUp]
      refine ⟨le_refl low, h1, ?_, ?_⟩
      · intro i hi1 hi2; omega
      · intro h; omega
  | fuel + 1, low, h1, h2 => by
      rw [scanUp]
      by_cases hc : low < high ∧ elem low ≤ pivot
      · rw [if_pos hc]
        obtain ⟨i1, i2, i3, i4⟩ :=
          scanUp_spec elem pivot high fuel (low + 1) (by omega) (by omega)
        refine ⟨by omega, i2, ?_, i4⟩
        intro i hi1 hi2
        rcases eq_or_lt_of_le hi1 with h | h
        · rw [← h]; exact hc.2
        · exact i3 i (by omega) hi2
      · rw [if_neg hc]
        refine ⟨le_refl low, h1, ?_, ?_⟩
        · intro i hi1 hi2; omega
        · intro h
          rcases not_and_or.mp hc with h' | h'
          · omega
          · omega

lemma regionList_swap_perm (f : Int → Int) (lo : Int) (n : Nat) (a b : Int)
    (ha1 : lo ≤ a) (hab : a < b) (hb2 : b < lo + n) :
    (regionList (Function.update (Function.update f a (f b)) b (f a)) lo n).Perm
      (regionList f lo n) := by
  set g := Function.update (Function.update f a (f b)) b (f a) with hg
  set i1 := (a - lo).toNat with hi1
  set j2 := (b - a - 1).toNat with hj2
  set k3 := (lo + n - b - 1).toNat with hk3
  have hga : g a = f b := by
    rw [hg, Function.update_noteq (show a ≠ b from by omega), Function.update_same]
  have hgb : g b = f a := by
    rw [hg, Function.update_same]
  have hX : regionList g lo i1 = regionList f lo i1 :=
    regionList_congr (fun x h1 h2 => by
      rw [hg, Function.update_noteq (show x ≠ b from by omega),
        Function.update_noteq (show x ≠ a from by omega)])
  have hY : regionList g (a + 1) j2 = regionList f (a + 1) j2 :=
    regionList_congr (fun x h1 h2 => by
      rw [hg, Function.update_noteq (show x ≠ b from by omega),
        Function.update_noteq (show x ≠ a from by omega)])
  have hZ : regionList g (b + 1) k3 = regionList f (b + 1) k3 :=
    regionList_congr (fun x h1 h2 => by
      rw [hg, Function.update_noteq (show x ≠ b from by omega),
        Function.update_noteq (show x ≠ a from by omega)])
  rw [show n = i1 + (1 + (j2 + (1 + k3))) from by omega]
  rw [regionList_split g lo i1 (1 + (j2 + (1 + k3))),
    regionList_split f lo i1 (1 + (j2 + (1 + k3)))]
  rw [show lo + (i1 : Int) = a from by omega]
  rw [regionList_split g a 1 (j2 + (1 + k3)), regionList_split f a 1 (j2 + (1 + k3))]
  rw [show a + ((1 : Nat) : Int) = a + 1 from by push_cast; ring]
  rw [regionList_split g (a + 1) j2 (1 + k3), regionList_split f (a + 1) j2 (1 + k3)]
  rw [show a + 1 + (j2 : Int) = b from by omega]
  rw [regionList_split g b 1 k3, regionList_split f b 1 k3]
  rw [show b + ((1 : Nat) : Int) = b + 1 from by push_cast; ring]
  rw [show regionList g a 1 = [g a] from rfl, show regionList g b 1 = [g b] from rfl,
    show regionList f a 1 = [f a] from rfl, show regionList f b 1 = [f b] from rfl]
  rw [hga, hgb, hX, hY, hZ]
  exact append_swap_perm (regionList f lo i1) (regionList f (a + 1) j2)
    (regionList f (b + 1) k3) (f b) (f a)

lemma iteration_perm (elem : Int → Int) (pivot low high h1 l1 : Int)
    (hh1 : low ≤ h1) (hh2 : h1 ≤ high) (hl1 : low ≤ l1) (hl2 : l1 ≤ h1) :
    (regionList
        (Function.update
          (Function.update (Function.update elem low (elem h1)) h1
            (Function.update elem low (elem h1) l1))
          l1 pivot)
        low ((high - low).toNat + 1)).Perm
      (regionList (Function.update elem low pivot) low ((high - low).toNat + 1)) := by
  by_cases hc1 : l1 = low
  · subst hc1
    have hfun : Function.update
          (Function.update (Function.update elem l1 (elem h1)) h1
            (Function.update elem l1 (elem h1) l1))
          l1 pivot
        = Function.update elem l1 pivot := by
      funext x
      simp only [Function.update_apply]
      split_ifs <;> (try subst_vars) <;> first | rfl | (exfalso; omega)
    rw [hfun]
  · by_cases hc2 : l1 = h1
    · subst hc2
      have hfun : Function.update
            (Function.update (Function.update elem low (elem l1)) l1
              (Function.update elem low (elem l1) l1))
            l1 pivot
          = Function.update
              (Function.update (Function.update elem low pivot) low
                (Function.update elem low pivot l1))
              l1 (Function.update elem low pivot low) := by
        funext x
        simp only [Function.update_apply]
        split_ifs <;> (try subst_vars) <;> first | rfl | (exfalso; omega)
      rw [hfun]
      exact regionList_swap_perm (Function.update elem low pivot) low _ low l1
        (le_refl low) (by omega) (by omega)
    · have hfun : Function.update
            (Function.update (Function.update elem low (elem h1)) h1
              (Function.update elem low (elem h1) l1))
            l1 pivot
          = Function.update
              (Function.update
                (Function.update
                  (Function.update (Function.update elem low pivot) low
                    (Function.update elem low pivot h1))
                  h1 (Function.update elem low pivot low))
                l1
                (Function.update
                  (Function.update (Function.update elem low pivot) low
                    (Function.update elem low pivot h1))
                  h1 (Function.update elem low pivot low) h1))
              h1
              (Function.update
                (Function.update (Function.update elem low pivot) low
                  (Function.update elem low pivot h1))
                h1 (Function.update elem low pivot low) l1) := by
        funext x
        simp only [Function.update_apply]
        split_ifs <;> (try subst_vars) <;> first | rfl | (exfalso; omega)
      rw [hfun]
      exact (regionList_swap_perm
          (Function.update
            (Function.update (Function.update elem low pivot) low
              (Function.update elem low pivot h1))
            h1 (Function.update elem low pivot low))
          low _ l1 h1 (by omega) (by omega) (by omega)).trans
        (regionList_swap_perm (Function.update elem low pivot) low _ low h1
          (le_refl low) (by omega) (by omega))

lemma partitionLoop_spec (pivot : Int) : ∀ (fuel : Nat) (elem : Int → Int) (low high : Int),
    low ≤ high → (high - low).toNat < fuel →
    low ≤ (partitionLoop pivot fuel elem low high).2 ∧
    (partitionLoop pivot fuel elem low high).2 ≤ high ∧
    (∀ i, i < low → (partitionLoop pivot fuel elem low high).1 i = elem i) ∧
    (∀ i, high < i → (partitionLoop pivot fuel elem low high).1 i = elem i) ∧
    (∀ i, low ≤ i → i < (partitionLoop pivot fuel elem low high).2 →
      (partitionLoop pivot fuel elem low high).1 i ≤ pivot) ∧
    (∀ i, (partitionLoop pivot fuel elem low high).2 < i → i ≤ high →
      pivot ≤ (partitionLoop pivot fuel elem low high).1 i) ∧
    (regionList
        (Function.update (partitionLoop pivot fuel elem low high).1
          (partitionLoop pivot fuel elem low high).2 pivot)
        low ((high - low).toNat + 1)).Perm
      (regionList (Function.update elem low pivot) low ((high - low).toNat + 1))
  | 0, elem, low, high, h1, h2 => absurd h2 (by omega)
  | fuel + 1, elem, low, high, h1, h2 => by
      rw [partitionLoop]
      by_cases hc : low < high
      · rw [if_pos hc]
        dsimp only
        obtain ⟨d1, d2, d3, d4⟩ :=
          scanDown_spec elem pivot low (high - low).toNat high (by omega) (le_refl _)
        obtain ⟨u1, u2, u3, u4⟩ :=
          scanUp_spec
            (Function.update elem low (elem (scanDown elem pivot low (high - low).toNat high)))
            pivot (scanDown elem pivot low (high - low).toNat high)
            ((scanDown elem pivot low (high - low).toNat high - low).toNat) low d1 (le_refl _)
        set H := scanDown elem pivot low (high - low).toNat high with hH
        set E1 := Function.update elem low (elem H) with hE1
        set L1 := scanUp E1 pivot H (H - low).toNat low with hL1
        set E2 := Function.update E1 H (E1 L1) with hE2
        have hE1low : E1 low = elem H := by rw [hE1]; simp
        have hE1ne : ∀ i, i ≠ low → E1 i = elem i := fun i hi => by
          rw [hE1]; exact Function.update_noteq hi _ _
        have hE2ne : ∀ i, i ≠ H → E2 i = E1 i := fun i hi => by
          rw [hE2]; exact Function.update_noteq hi _ _
        have hfl : (H - L1).toNat < fuel := by
          rcases eq_or_lt_of_le d1 with hHl | hHl
          · omega
          · have hL1low : L1 ≠ low := by
              intro he
              have hu := u4 (by omega)
              rw [he, hE1low] at hu
              have hd := d4 hHl
              omega
            omega
        obtain ⟨j1, j2, j3, j4, j5, j6, j7⟩ := partitionLoop_spec pivot fuel E2 L1 H u2 hfl
        refine ⟨by omega, by omega, ?_, ?_, ?_, ?_, ?_⟩
        · intro i hi
          rw [j3 i (by omega), hE2ne i (by omega), hE1ne i (by omega)]
        · intro i hi
          rw [j4 i (by omega), hE2ne i (by omega), hE1ne i (by omega)]
        · intro i hi1 hi2
          by_cases hiL : i < L1
          · rw [j3 i hiL, hE2ne i (by omega)]
            exact u3 i hi1 hiL
          · exact j5 i (by omega) hi2
        · intro i hi1 hi2
          by_cases hiH : i ≤ H
          · exact j6 i hi1 hiH
          · rw [j4 i (by omega), hE2ne i (by omega), hE1ne i (by omega)]
            exact d3 i (by omega) hi2
        · -- multiset preservation
          have hstepB : (regionList (Function.update E2 L1 pivot) low
                ((high - low).toNat + 1)).Perm
              (regionList (Function.update elem low pivot) low ((high - low).toNat + 1)) := by
            rw [hE2, hE1]
            exact iteration_perm elem pivot low high H L1 d1 d2 u1 u2
          refine List.Perm.trans ?_ hstepB
          have hcount : (high - low).toNat + 1
              = (L1 - low).toNat + (((H - L1).toNat + 1) + (high - H).toNat) := by omega
          rw [hcount]
          rw [regionList_split
              (Function.update (partitionLoop pivot fuel E2 L1 H).1
                (partitionLoop pivot fuel E2 L1 H).2 pivot) low
              ((L1 - low).toNat) (((H - L1).toNat + 1) + (high - H).toNat),
            regionList_split (Function.update E2 L1 pivot) low
              ((L1 - low).toNat) (((H - L1).toNat + 1) + (high - H).toNat)]
          rw [show low + (((L1 - low).toNat : Nat) : Int) = L1 from by omega]
          rw [regionList_split
              (Function.update (partitionLoop pivot fuel E2 L1 H).1
                (partitionLoop pivot fuel E2 L1 H).2 pivot) L1
              ((H - L1).toNat + 1) ((high - H).toNat),
            regionList_split (Function.update E2 L1 pivot) L1
              ((H - L1).toNat + 1) ((high - H).toNat)]
          rw [show L1 + (((H - L1).toNat + 1 : Nat) : Int) = H + 1 from by
            push_cast; omega]
          have hXeq : regionList
              (Function.update (partitionLoop pivot fuel E2 L1 H).1
                (partitionLoop pivot fuel E2 L1 H).2 pivot) low ((L1 - low).toNat)
              = regionList (Function.update E2 L1 pivot) low ((L1 - low).toNat) :=
            regionList_congr (fun x hx1 hx2 => by
              rw [Function.update_noteq (show x ≠ (partitionLoop pivot fuel E2 L1 H).2
                  from by omega),
                Function.update_noteq (show x ≠ L1 from by omega),
                j3 x (by omega)])
          have hZeq : regionList
              (Function.update (partitionLoop pivot fuel E2 L1 H).1
                (partitionLoop pivot fuel E2 L1 H).2 pivot) (H + 1) ((high - H).toNat)
              = regionList (Function.update E2 L1 pivot) (H + 1) ((high - H).toNat) :=
            regionList_congr (fun x hx1 hx2 => by
              rw [Function.update_noteq (show x ≠ (partitionLoop pivot fuel E2 L1 H).2
                  from by omega),
                Function.update_noteq (show x ≠ L1 from by omega),
                j4 x (by omega)])
          rw [hXeq, hZeq]
          exact List.Perm.append (List.Perm.refl _)
            (List.Perm.append j7 (List.Perm.refl _))
      · rw [if_neg hc]
        refine ⟨le_refl low, h1, fun i _ => rfl, fun i _ => rfl,
          fun i hi1 hi2 => by omega, fun i hi1 hi2 => by omega, List.Perm.refl _⟩

lemma partitionF_spec (elem : Int → Int) (low high : Int) (hlh : low ≤ high) :
    low ≤ (partitionF elem low high).2 ∧ (partitionF elem low high).2 ≤ high ∧
    (partitionF elem low high).1 (partitionF elem low high).2 = elem low ∧
    (∀ i, i < low → (partitionF elem low high).1 i = elem i) ∧
    (∀ i, high < i → (partitionF elem low high).1 i = elem i) ∧
    (∀ i, low ≤ i → i < (partitionF elem low high).2 →
      (partitionF elem low high).1 i ≤ elem low) ∧
    (∀ i, (partitionF elem low high).2 < i → i ≤ high →
      elem low ≤ (partitionF elem low high).1 i) ∧
    (regionList (partitionF elem low high).1 low ((high - low).toNat + 1)).Perm
      (regionList elem low ((high - low).toNat + 1)) := by
  rw [partitionF]
  dsimp only
  obtain ⟨j1, j2, j3, j4, j5, j6, j7⟩ :=
    partitionLoop_spec (elem low) ((high - low).toNat + 1) elem low high hlh (by omega)
  set P := partitionLoop (elem low) ((high - low).toNat + 1) elem low high with hP
  refine ⟨j1, j2, by simp, ?_, ?_, ?_, ?_, ?_⟩
  · intro i hi
    rw [Function.update_noteq (show i ≠ P.2 from by omega), j3 i hi]
  · intro i hi
    rw [Function.update_noteq (show i ≠ P.2 from by omega), j4 i hi]
  · intro i h1 h2
    rw [Function.update_noteq (show i ≠ P.2 from by omega)]
    exact j5 i h1 h2
  · intro i h1 h2
    rw [Function.update_noteq (show i ≠ P.2 from by omega)]
    exact j6 i h1 h2
  · rw [Function.update_eq_self low elem] at j7
    exact j7

lemma quickSortGo_spec : ∀ (fuel : Nat) (elem : Int → Int) (low high : Int),
    (high - low + 1).toNat ≤ fuel →
    (∀ i, i < low → quickSortGo fuel elem low high i = elem i) ∧
    (∀ i, high < i → quickSortGo fuel elem low high i = elem i) ∧
    (regionList (quickSortGo fuel elem low high) low ((high - low + 1).toNat)).Perm
      (regionList elem low ((high - low + 1).toNat)) ∧
    (∀ i j, low ≤ i → i ≤ j → j ≤ high →
      quickSortGo fuel elem low high i ≤ quickSortGo fuel elem low high j)
  | 0, elem, low, high, hf => by
      rw [quickSortGo]
      refine ⟨fun i _ => rfl, fun i _ => rfl, List.Perm.refl _, ?_⟩
      intro i j h1 h2 h3
      exact absurd h1 (by omega)
  | fuel + 1, elem, low, high, hf => by
      rw [quickSortGo]
      by_cases hc : low ≥ high
      · rw [if_pos hc]
        refine ⟨fun i _ => rfl, fun i _ => rfl, List.Perm.refl _, ?_⟩
        intro i j h1 h2 h3
        have hij : i = j := by omega
        rw [hij]
      · rw [if_neg hc]
        dsimp only
        obtain ⟨p1, p2, p3, p4, p5, p6, p7, p8⟩ := partitionF_spec elem low high (by omega)
        set R := partitionF elem low high with hR
        obtain ⟨L1, L2, L3, L4⟩ := quickSortGo_spec fuel R.1 low (R.2 - 1) (by omega)
        set EL := quickSortGo fuel R.1 low (R.2 - 1) with hEL
        obtain ⟨T1, T2, T3, T4⟩ := quickSortGo_spec fuel EL (R.2 + 1) high (by omega)
        set ET := quickSortGo fuel EL (R.2 + 1) high with hET
        have hc1 : (R.2 - 1 - low + 1).toNat = (R.2 - low).toNat := by omega
        have hc3 : (high - (R.2 + 1) + 1).toNat = (high - R.2).toNat := by omega
        rw [hc1] at L3
        rw [hc3] at T3
        have hAeq : regionList ET low ((R.2 - low).toNat)
            = regionList EL low ((R.2 - low).toNat) :=
          regionList_congr (fun x h1 h2 => T1 x (by omega))
        have hBeq : regionList EL (R.2 + 1) ((high - R.2).toNat)
            = regionList R.1 (R.2 + 1) ((high - R.2).toNat) :=
          regionList_congr (fun x h1 h2 => L2 x (by omega))
        have hvalp : ET R.2 = R.1 R.2 := by
          rw [T1 R.2 (by omega), L2 R.2 (by omega)]
        have hmidperm : (regionList ET low ((high - low + 1).toNat)).Perm
            (regionList R.1 low ((high - low + 1).toNat)) := by
          rw [show (high - low + 1).toNat
              = (R.2 - low).toNat + (1 + (high - R.2).toNat) from by omega]
          rw [regionList_split ET low ((R.2 - low).toNat) (1 + (high - R.2).toNat),
            regionList_split R.1 low ((R.2 - low).toNat) (1 + (high - R.2).toNat)]
          rw [show low + (((R.2 - low).toNat : Nat) : Int) = R.2 from by omega]
          rw [regionList_split ET R.2 1 ((high - R.2).toNat),
            regionList_split R.1 R.2 1 ((high - R.2).toNat)]
          rw [show R.2 + ((1 : Nat) : Int) = R.2 + 1 from by push_cast; ring]
          rw [show regionList ET R.2 1 = [ET R.2] from rfl,
            show regionList R.1 R.2 1 = [R.1 R.2] from rfl, hvalp, hAeq]
          exact List.Perm.append L3
            (List.Perm.append (List.Perm.refl _)
              (T3.trans (by rw [hBeq])))
        have hup : ∀ m, low ≤ m → m ≤ R.2 → ET m ≤ R.1 R.2 := by
          intro m hm1 hm2
          rcases eq_or_lt_of_le hm2 with he | hlt
          · rw [he, hvalp]
          · rw [T1 m (by omega)]
            have hmem : EL m ∈ regionList EL low ((R.2 - low).toNat) :=
              mem_regionList hm1 (by push_cast; omega)
            have hmem2 := L3.mem_iff.mp hmem
            obtain ⟨q, hq1, hq2, hq3⟩ := regionList_mem hmem2
            rw [← hq3, p3]
            exact p6 q hq1 (by push_cast at hq2; omega)
        have hdn : ∀ m, R.2 ≤ m → m ≤ high → R.1 R.2 ≤ ET m := by
          intro m hm1 hm2
          rcases eq_or_lt_of_le hm1 with he | hlt
          · rw [← he, hvalp]
          · have hmem : ET m ∈ regionList ET (R.2 + 1) ((high - R.2).toNat) :=
              mem_regionList (by omega) (by push_cast; omega)
            have hmem2 := (T3.trans (by rw [hBeq])).mem_iff.mp hmem
            obtain ⟨q, hq1, hq2, hq3⟩ := regionList_mem hmem2
            rw [← hq3, p3]
            exact p7 q (by omega) (by push_cast at hq2; omega)
        refine ⟨?_, ?_, ?_, ?_⟩
        · intro i hi
          rw [T1 i (by omega), L1 i hi, p4 i hi]
        · intro i hi
          rw [T2 i hi, L2 i (by omega), p5 i hi]
        · exact hmidperm.trans
            (by rw [show (high - low + 1).toNat = (high - low).toNat + 1 from by omega]
                exact p8)
        · intro i j h1 h2 h3
          by_cases hj : j ≤ R.2 - 1
          · rw [T1 i (by omega), T1 j (by omega)]
            exact L4 i j h1 h2 hj
          · by_cases hi : R.2 + 1 ≤ i
            · exact T4 i j hi h2 h3
            · exact le_trans (hup i h1 (by omega)) (hdn j (by omega) h3)

lemma quickSort_spec (elem : Int → Int) (n : Int) :
    (regionList (quickSort elem n) 0 n.toNat).Perm (regionList elem 0 n.toNat) ∧
    (regionList (quickSort elem n) 0 n.toNat).Pairwise (· ≤ ·) := by
  rw [quickSort]
  by_cases hn : n ≤ 1
  · rw [if_pos hn]
    refine ⟨List.Perm.refl _, ?_⟩
    cases hv : n.toNat with
    | zero => exact List.Pairwise.nil
    | succ m =>
        have hm : m = 0 := by omega
        subst hm
        rw [regionList, regionList]
        exact List.pairwise_singleton _ _
  · rw [if_neg hn]
    obtain ⟨q1, q2, q3, q4⟩ := quickSortGo_spec n.toNat elem 0 (n - 1) (by omega)
    have hcnt : (n - 1 - 0 + 1).toNat = n.toNat := by omega
    rw [hcnt] at q3
    refine ⟨q3, ?_⟩
    apply regionList_pairwise_of_mono
    intro i j h1 h2 h3
    exact q4 i j h1 h2 (by omega)

end Sorting

/-- C1: every sorting routine returns a permutation of its input in
non-decreasing order: `BubbleSort` on any int array, `QuickSort` on any
`n`-slot int array, and `RadixSortLSD` — under its precondition that all
elements are non-negative (and a base of at least 2) — returns normally
with a sorted permutation. -/
theorem sorting_routines_correct (a : List Int) (elem : Int → Int) (n : Int)
    (b : List Int) (radix : Int) (hradix : 2 ≤ radix) (hpos : ∀ x ∈ b, 0 ≤ x) :
    ((Sorting.bubbleSort a).Perm a ∧ (Sorting.bubbleSort a).Pairwise (· ≤ ·)) ∧
    ((Sorting.regionList (Sorting.quickSort elem n) 0 n.toNat).Perm
        (Sorting.regionList elem 0 n.toNat) ∧
      (Sorting.regionList (Sorting.quickSort elem n) 0 n.toNat).Pairwise (· ≤ ·)) ∧
    (∃ out, Sorting.radixSortLSD b radix = some out ∧ out.Perm b ∧
      out.Pairwise (· ≤ ·)) :=
  ⟨Sorting.bubbleSort_perm_sorted a, Sorting.quickSort_spec elem n,
    Sorting.radixSortLSD_spec b radix hradix hpos⟩

/-- Witness for C1: the hypotheses discharged at base 10 and the
non-negative list `[170, 45, 75, 90]`, with `BubbleSort` input `[3, 1, 2]`
and a 3-slot `QuickSort` array. -/
theorem sorting_routines_correct_witness :
    (2 ≤ (10 : Int)) ∧ (∀ x ∈ ([170, 45, 75, 90] : List Int), 0 ≤ x) ∧
    (((Sorting.bubbleSort [3, 1, 2]).Perm [3, 1, 2] ∧
      (Sorting.bubbleSort [3, 1, 2]).Pairwise (· ≤ ·)) ∧
    ((Sorting.regionList (Sorting.quickSort (fun i => 5 - i) 3) 0 (3 : Int).toNat).Perm
        (Sorting.regionList (fun i => 5 - i) 0 (3 : Int).toNat) ∧
      (Sorting.regionList (Sorting.quickSort (fun i => 5 - i) 3) 0
        (3 : Int).toNat).Pairwise (· ≤ ·)) ∧
    (∃ out, Sorting.radixSortLSD [170, 45, 75, 90] 10 = some out ∧
      out.Perm [170, 45, 75, 90] ∧ out.Pairwise (· ≤ ·))) :=
  ⟨by decide, by decide,
    sorting_routines_correct [3, 1, 2] (fun i => 5 - i) 3 [170, 45, 75, 90] 10
      (by decide) (by decide)⟩

/-- Witness for C4: the duplicate-insertion hypothesis discharged at the
concrete key list `[3, 1, 4, 1, 5, 9, 2, 6]` and key `5`. -/
theorem avlInsert_bst_balanced_dup_witness :
    AVL.containsKey (([3, 1, 4, 1, 5, 9, 2, 6] : List Int).foldl
      AVL.avlInsert AVL.AVLNode.nil) 5 ∧
    AVL.IsBST (([3, 1, 4, 1, 5, 9, 2, 6] : List Int).foldl
      AVL.avlInsert AVL.AVLNode.nil) ∧
    AVL.avlInsert (([3, 1, 4, 1, 5, 9, 2, 6] : List Int).foldl
        AVL.avlInsert AVL.AVLNode.nil) 5
      = ([3, 1, 4, 1, 5, 9, 2, 6] : List Int).foldl AVL.avlInsert AVL.AVLNode.nil := by
  obtain ⟨h1, h2, h3⟩ := avlInsert_bst_balanced_dup [3, 1, 4, 1, 5, 9, 2, 6] 5
  exact ⟨by decide, h1, h3 (by decide)⟩

namespace HashTable

/-! ### 哈希表.cpp — OpenAddressHashTable

The table is a `List HashSlot` of length `m`; `size_t` indices and counts are
`Nat`.  `hashModPrime(key, p) = |key| % p`.  The probe sequence is
`h = (h0 + d_i) % m` with `d_i = i` (LINEAR) or `d_i = i*i` (QUADRATIC), for
`i = 0 .. m-1`.  The `loadFactor() > 0.7` test compares the exact rational
`elemCount / m` with the double constant `0.7`; for all table sizes in reach
this equals `10 * elemCount > 7 * m`.  `insert` consults the load factor
first and rehashes to size `2m+1`, reinserting every OCCUPIED key via
`insert` itself — the mutual recursion is fuel-driven, with fuel `m + 2`
(one unit per possible nesting level; a nested rehash never fires, which the
invariant proof establishes). -/

inductive SlotState
  | EMPTY
  | OCCUPIED
  | DELETED
deriving DecidableEq, Repr

/-- `HashSlot() : key(0), state(EMPTY)`. -/
structure HashSlot where
  key : Int
  state : SlotState
deriving DecidableEq, Repr

inductive ProbeType
  | LINEAR
  | QUADRATIC
deriving DecidableEq, Repr

structure OAHT where
  table : List HashSlot
  probeType : ProbeType
  elemCount : Nat
deriving Repr

/-- `hashModPrime(key, p) = |key| % p`. -/
def hashModPrime (key : Int) (p : Nat) : Nat := key.natAbs % p

/-- `probeOffset(i)`: `i` for linear, `i*i` for quadratic probing. -/
def probeOffset (pt : ProbeType) (i : Nat) : Nat :=
  match pt with
  | .LINEAR => i
  | .QUADRATIC => i * i

/-- The slot at index `j` (`⟨0, EMPTY⟩` out of range, never relevant). -/
def slotAt (t : List HashSlot) (j : Nat) : HashSlot := t.getD j ⟨0, .EMPTY⟩

/-- Result of the probing loop of `insert`. -/
inductive InsRes
  | placed (t : List HashSlot)
  | present
  | full

/-- The `for (i = 0; i < m; ++i)` loop of `insert`; `rem` counts the
remaining iterations (`i + rem = m` at every call). -/
def insertLoop (key : Int) (h0 : Nat) (pt : ProbeType) (t : List HashSlot) (m : Nat) :
    Nat → Nat → InsRes
  | _, 0 => .full
  | i, rem + 1 =>
      let h := (h0 + probeOffset pt i) % m
      let s := slotAt t h
      if s.state = SlotState.EMPTY ∨ s.state = SlotState.DELETED then
        .placed (t.set h ⟨key, SlotState.OCCUPIED⟩)
      else if s.state = SlotState.OCCUPIED ∧ s.key = key then .present
      else insertLoop key h0 pt t m (i + 1) rem

/-- `insert` without the initial load-factor/rehash step. -/
def insertNoRehash (ht : OAHT) (key : Int) : OAHT × Bool :=
  match insertLoop key (hashModPrime key ht.table.length) ht.probeType ht.table
      ht.table.length 0 ht.table.length with
  | .placed t => ({ ht with table := t, elemCount := ht.elemCount + 1 }, true)
  | .present => (ht, true)
  | .full => (ht, false)

mutual

/-- `insert(key)`: rehash to `2m+1` when the load factor exceeds 0.7, then
probe.  The fuel bounds the rehash nesting depth. -/
def insertFuel : Nat → OAHT → Int → OAHT × Bool
  | 0, ht, _ => (ht, false)
  | fuel + 1, ht, key =>
      let ht1 := if 10 * ht.elemCount > 7 * ht.table.length
        then rehashFuel fuel ht (ht.table.length * 2 + 1) else ht
      insertNoRehash ht1 key

/-- `rehash(newSize)`: fresh table, `elemCount = 0`, then `insert` every
OCCUPIED key of the old table in slot order. -/
def rehashFuel : Nat → OAHT → Nat → OAHT
  | fuel, ht, newSize =>
      ht.table.foldl
        (fun acc slot =>
          if slot.state = .OCCUPIED then (insertFuel fuel acc slot.key).1 else acc)
        ⟨List.replicate newSize ⟨0, .EMPTY⟩, ht.probeType, 0⟩

end

def insert (ht : OAHT) (key : Int) : OAHT × Bool :=
  insertFuel (ht.table.length + 2) ht key

/-- The probing loop of `find`. -/
def findLoop (key : Int) (h0 : Nat) (pt : ProbeType) (t : List HashSlot) (m : Nat) :
    Nat → Nat → Bool
  | _, 0 => false
  | i, rem + 1 =>
      let h := (h0 + probeOffset pt i) % m
      let s := slotAt t h
      if s.state = SlotState.EMPTY then false
      else if s.state = SlotState.OCCUPIED ∧ s.key = key then true
      else findLoop key h0 pt t m (i + 1) rem

def find (ht : OAHT) (key : Int) : Bool :=
  findLoop key (hashModPrime key ht.table.length) ht.probeType ht.table
    ht.table.length 0 ht.table.length

/-- The probing loop of `erase`; `some t` is the updated table. -/
def eraseLoop (key : Int) (h0 : Nat) (pt : ProbeType) (t : List HashSlot) (m : Nat) :
    Nat → Nat → Option (List HashSlot)
  | _, 0 => none
  | i, rem + 1 =>
      let h := (h0 + probeOffset pt i) % m
      let s := slotAt t h
      if s.state = SlotState.EMPTY then none
      else if s.state = SlotState.OCCUPIED ∧ s.key = key then
        some (t.set h ⟨s.key, SlotState.DELETED⟩)
      else eraseLoop key h0 pt t m (i + 1) rem

def erase (ht : OAHT) (key : Int) : OAHT × Bool :=
  match eraseLoop key (hashModPrime key ht.table.length) ht.probeType ht.table
      ht.table.length 0 ht.table.length with
  | some t => ({ ht with table := t, elemCount := ht.elemCount - 1 }, true)
  | none => (ht, false)

/-- `OpenAddressHashTable(tableSize, type)`: all slots EMPTY. -/
def mkTable (m : Nat) (pt : ProbeType) : OAHT :=
  ⟨List.replicate m ⟨0, .EMPTY⟩, pt, 0⟩

/-- One driver operation: `insert k` or `erase k`. -/
inductive Op
  | ins (k : Int)
  | del (k : Int)
deriving DecidableEq, Repr

/-- Run a sequence of operations, discarding the returned flags. -/
def runOps (ht : OAHT) : List Op → OAHT
  | [] => ht
  | .ins k :: ops => runOps (insert ht k).1 ops
  | .del k :: ops => runOps (erase ht k).1 ops

/-- The reference semantics: the set of keys currently stored. -/
def semSet (S : Finset Int) : List Op → Finset Int
  | [] => S
  | .ins k :: ops => semSet (Insert.insert k S) ops
  | .del k :: ops => semSet (S.erase k) ops

/-- A sequence is valid when no `insert` targets a key already present. -/
def ValidOps (S : Finset Int) : List Op → Prop
  | [] => True
  | .ins k :: ops => k ∉ S ∧ ValidOps (Insert.insert k S) ops
  | .del k :: ops => ValidOps (S.erase k) ops

instance instDecidableValidOps : (S : Finset Int) → (ops : List Op) →
    Decidable (ValidOps S ops)
  | _, [] => inferInstanceAs (Decidable True)
  | S, .ins k :: ops =>
      letI := instDecidableValidOps (Insert.insert k S) ops
      inferInstanceAs (Decidable (_ ∧ _))
  | S, .del k :: ops =>
      letI := instDecidableValidOps (S.erase k) ops
      inferInstanceAs (Decidable (ValidOps (S.erase k) ops))

/-- Index `j` holds key `k`. -/
def occ (t : List HashSlot) (j : Nat) (k : Int) : Prop :=
  (slotAt t j).state = .OCCUPIED ∧ (slotAt t j).key = k

instance (t : List HashSlot) (j : Nat) (k : Int) : Decidable (occ t j k) :=
  inferInstanceAs (Decidable (_ ∧ _))

/-- The `i`-th probe position of `key` under linear probing. -/
def pathIdx (k : Int) (m i : Nat) : Nat := (hashModPrime k m + i) % m

/-- Invariant tying a linear-probing table to the set `S` of stored keys:
occupied slots hold exactly the keys of `S`, each exactly once, and every
stored key is reachable: no EMPTY slot precedes it on its probe path. -/
def Inv (ht : OAHT) (S : Finset Int) : Prop :=
  ht.probeType = .LINEAR ∧
  1 ≤ ht.table.length ∧
  ht.elemCount = S.card ∧
  (∀ k : Int, k ∈ S ↔ ∃ j < ht.table.length, occ ht.table j k) ∧
  (∀ (k : Int) (j j' : Nat), j < ht.table.length → j' < ht.table.length →
    occ ht.table j k → occ ht.table j' k → j = j') ∧
  (∀ k ∈ S, ∃ i < ht.table.length, occ ht.table (pathIdx k ht.table.length i) k ∧
    ∀ i' < i, (slotAt ht.table (pathIdx k ht.table.length i')).state ≠ .EMPTY)

lemma probe_inj {m : Nat} (h0 : Nat) {i i' : Nat} (h1 : i < m) (h2 : i' < m)
    (he : (h0 + i) % m = (h0 + i') % m) : i = i' := by
  have hq : Nat.ModEq m i i' := Nat.ModEq.add_left_cancel' h0 he
  have hout : i % m = i' % m := hq
  rw [Nat.mod_eq_of_lt h1, Nat.mod_eq_of_lt h2] at hout
  exact hout

lemma probe_surj {m : Nat} (hm : 1 ≤ m) (h0 : Nat) {j : Nat} (hj : j < m) :
    ∃ i < m, (h0 + i) % m = j := by
  have hinj : Set.InjOn (fun i => (h0 + i) % m) (Finset.range m) := by
    intro a ha b hb he
    exact probe_inj h0 (Finset.mem_range.mp ha) (Finset.mem_range.mp hb) he
  have hsub : (Finset.range m).image (fun i => (h0 + i) % m) ⊆ Finset.range m := by
    intro x hx
    obtain ⟨i, _, hix⟩ := Finset.mem_image.mp hx
    rw [← hix]
    exact Finset.mem_range.mpr (Nat.mod_lt _ (by omega))
  have hcard : ((Finset.range m).image (fun i => (h0 + i) % m)).card
      = (Finset.range m).card := Finset.card_image_of_injOn hinj
  have heq := Finset.eq_of_subset_of_card_le hsub (le_of_eq hcard.symm)
  have hjmem : j ∈ (Finset.range m).image (fun i => (h0 + i) % m) := by
    rw [heq]; exact Finset.mem_range.mpr hj
  obtain ⟨i, hi, hix⟩ := Finset.mem_image.mp hjmem
  exact ⟨i, Finset.mem_range.mp hi, hix⟩

lemma pathIdx_lt {m : Nat} (hm : 1 ≤ m) (k : Int) (i : Nat) : pathIdx k m i < m :=
  Nat.mod_lt _ (by omega)

lemma findLoop_false (k : Int) (h0 : Nat) (t : List HashSlot) (m : Nat)
    (hm : 1 ≤ m) (habs : ∀ j < m, ¬ occ t j k) :
    ∀ (rem i : Nat), findLoop k h0 .LINEAR t m i rem = false
  | 0, i => by rw [findLoop]
  | rem + 1, i => by
      rw [findLoop]
      by_cases h1 : (slotAt t ((h0 + probeOffset .LINEAR i) % m)).state = SlotState.EMPTY
      · rw [if_pos h1]
      · rw [if_neg h1]
        have hj : (h0 + probeOffset .LINEAR i) % m < m := Nat.mod_lt _ (by omega)
        rw [if_neg (show ¬((slotAt t ((h0 + probeOffset .LINEAR i) % m)).state
              = SlotState.OCCUPIED ∧
            (slotAt t ((h0 + probeOffset .LINEAR i) % m)).key = k) from habs _ hj)]
        exact findLoop_false k h0 t m hm habs rem (i + 1)

lemma findLoop_true (k : Int) (h0 : Nat) (t : List HashSlot) (m : Nat) (istar : Nat)
    (hm : 1 ≤ m) (hi : istar < m)
    (hocc : occ t ((h0 + istar) % m) k)
    (hpre : ∀ i' < istar, (slotAt t ((h0 + i') % m)).state ≠ .EMPTY)
    (huniq : ∀ j < m, occ t j k → j = (h0 + istar) % m) :
    ∀ (rem i : Nat), i ≤ istar → i + rem = m → findLoop k h0 .LINEAR t m i rem = true
  | 0, i, hle, htot => absurd hi (by omega)
  | rem + 1, i, hle, htot => by
      rw [findLoop]
      simp only [probeOffset]
      rcases eq_or_lt_of_le hle with heq | hlt
      · subst heq
        rw [if_neg (by rw [hocc.1]; intro h; exact SlotState.noConfusion h),
          if_pos ⟨hocc.1, hocc.2⟩]
      · rw [if_neg (hpre i hlt)]
        have hne : ¬((slotAt t ((h0 + i) % m)).state = SlotState.OCCUPIED ∧
            (slotAt t ((h0 + i) % m)).key = k) := by
          intro hc
          have hj : (h0 + i) % m < m := Nat.mod_lt _ (by omega)
          have heqm : (h0 + i) % m = (h0 + istar) % m := huniq _ hj hc
          have : i = istar := probe_inj h0 (by omega) hi heqm
          omega
        rw [if_neg hne]
        exact findLoop_true k h0 t m istar hm hi hocc hpre huniq rem (i + 1)
          (by omega) (by omega)

lemma insertLoop_place (k : Int) (h0 : Nat) (t : List HashSlot) (m : Nat) (istar : Nat)
    (hm : 1 ≤ m) (hi : istar < m)
    (heod : (slotAt t ((h0 + istar) % m)).state = .EMPTY ∨
      (slotAt t ((h0 + istar) % m)).state = .DELETED)
    (hpre : ∀ i' < istar, (slotAt t ((h0 + i') % m)).state = .OCCUPIED ∧
      (slotAt t ((h0 + i') % m)).key ≠ k) :
    ∀ (rem i : Nat), i ≤ istar → i + rem = m →
      insertLoop k h0 .LINEAR t m i rem
        = .placed (t.set ((h0 + istar) % m) ⟨k, SlotState.OCCUPIED⟩)
  | 0, i, hle, htot => absurd hi (by omega)
  | rem + 1, i, hle, htot => by
      rw [insertLoop]
      simp only [probeOffset]
      rcases eq_or_lt_of_le hle with heq | hlt
      · subst heq
        rw [if_pos heod]
      · obtain ⟨ho, hk⟩ := hpre i hlt
        rw [if_neg (by rw [ho]; rintro (h | h) <;> exact SlotState.noConfusion h)]
        rw [if_neg (by rintro ⟨h1, h2⟩; exact hk h2)]
        exact insertLoop_place k h0 t m istar hm hi heod hpre rem (i + 1)
          (by omega) (by omega)

lemma eraseLoop_none (k : Int) (h0 : Nat) (t : List HashSlot) (m : Nat)
    (hm : 1 ≤ m) (habs : ∀ j < m, ¬ occ t j k) :
    ∀ (rem i : Nat), eraseLoop k h0 .LINEAR t m i rem = none
  | 0, i => by rw [eraseLoop]
  | rem + 1, i => by
      rw [eraseLoop]
      by_cases h1 : (slotAt t ((h0 + probeOffset .LINEAR i) % m)).state = SlotState.EMPTY
      · rw [if_pos h1]
      · rw [if_neg h1]
        have hj : (h0 + probeOffset .LINEAR i) % m < m := Nat.mod_lt _ (by omega)
        rw [if_neg (show ¬((slotAt t ((h0 + probeOffset .LINEAR i) % m)).state
              = SlotState.OCCUPIED ∧
            (slotAt t ((h0 + probeOffset .LINEAR i) % m)).key = k) from habs _ hj)]
        exact eraseLoop_none k h0 t m hm habs rem (i + 1)

lemma eraseLoop_some (k : Int) (h0 : Nat) (t : List HashSlot) (m : Nat) (istar : Nat)
    (hm : 1 ≤ m) (hi : istar < m)
    (hocc : occ t ((h0 + istar) % m) k)
    (hpre : ∀ i' < istar, (slotAt t ((h0 + i') % m)).state ≠ .EMPTY)
    (huniq : ∀ j < m, occ t j k → j = (h0 + istar) % m) :
    ∀ (rem i : Nat), i ≤ istar → i + rem = m →
      eraseLoop k h0 .LINEAR t m i rem
        = some (t.set ((h0 + istar) % m) ⟨k, SlotState.DELETED⟩)
  | 0, i, hle, htot => absurd hi (by omega)
  | rem + 1, i, hle, htot => by
      rw [eraseLoop]
      simp only [probeOffset]
      rcases eq_or_lt_of_le hle with heq | hlt
      · subst heq
        rw [if_neg (by rw [hocc.1]; intro h; exact SlotState.noConfusion h),
          if_pos ⟨hocc.1, hocc.2⟩, hocc.2]
      · rw [if_neg (hpre i hlt)]
        have hne : ¬((slotAt t ((h0 + i) % m)).state = SlotState.OCCUPIED ∧
            (slotAt t ((h0 + i) % m)).key = k) := by
          intro hc
          have hj : (h0 + i) % m < m := Nat.mod_lt _ (by omega)
          have heqm : (h0 + i) % m = (h0 + istar) % m := huniq _ hj hc
          have : i = istar := probe_inj h0 (by omega) hi heqm
          omega
        rw [if_neg hne]
        exact eraseLoop_some k h0 t m istar hm hi hocc hpre huniq rem (i + 1)
          (by omega) (by omega)

lemma slotAt_set_eq (t : List HashSlot) (j : Nat) (v : HashSlot) (hj : j < t.length) :
    slotAt (t.set j v) j = v := by
  rw [slotAt, List.getD_eq_getElem _ _ (by rw [List.length_set]; exact hj)]
  exact List.getElem_set_eq (by rw [List.length_set]; exact hj)

lemma slotAt_set_ne (t : List HashSlot) (j j' : Nat) (v : HashSlot) (hne : j' ≠ j) :
    slotAt (t.set j v) j' = slotAt t j' := by
  by_cases hj' : j' < t.length
  · rw [slotAt, slotAt, List.getD_eq_getElem _ _ (by rw [List.length_set]; exact hj'),
      List.getD_eq_getElem _ _ hj']
    exact List.getElem_set_ne (show j ≠ j' from fun h => hne h.symm) _
  · rw [slotAt, slotAt, List.getD_eq_default _ _ (by rw [List.length_set]; omega),
      List.getD_eq_default _ _ (by omega)]

lemma inv_card_le {ht : OAHT} {S : Finset Int} (hinv : Inv ht S) :
    S.card ≤ ht.table.length := by
  obtain ⟨hpt, hm, hcard, hiii, hv, hvi⟩ := hinv
  rw [← Finset.card_range ht.table.length]
  apply Finset.card_le_card_of_injOn
    (fun k => if hx : ∃ j < ht.table.length, occ ht.table j k then hx.choose else 0)
  · intro k hk
    dsimp only
    rw [dif_pos ((hiii k).mp hk)]
    exact Finset.mem_range.mpr ((hiii k).mp hk).choose_spec.1
  · intro k1 h1 k2 h2 he
    dsimp only at he
    have hex1 := (hiii k1).mp (Finset.mem_coe.mp h1)
    have hex2 := (hiii k2).mp (Finset.mem_coe.mp h2)
    rw [dif_pos hex1, dif_pos hex2] at he
    have ho1 := hex1.choose_spec.2
    have ho2 := hex2.choose_spec.2
    rw [he] at ho1
    exact ho1.2.symm.trans ho2.2

lemma find_spec {ht : OAHT} {S : Finset Int} (hinv : Inv ht S) (k : Int) :
    find ht k = true ↔ k ∈ S := by
  obtain ⟨hpt, hm, hcard, hiii, hv, hvi⟩ := hinv
  rw [find, hpt]
  constructor
  · intro hf
    by_contra hk
    have habs : ∀ j < ht.table.length, ¬ occ ht.table j k := by
      intro j hj ho
      exact hk ((hiii k).mpr ⟨j, hj, ho⟩)
    rw [findLoop_false k _ _ _ hm habs _ 0] at hf
    exact Bool.noConfusion hf
  · intro hk
    obtain ⟨i, hi, hocc, hpre⟩ := hvi k hk
    have huniq : ∀ j < ht.table.length, occ ht.table j k →
        j = (hashModPrime k ht.table.length + i) % ht.table.length := by
      intro j hj ho
      exact hv k j _ hj (pathIdx_lt hm k i) ho hocc
    exact findLoop_true k _ _ _ i hm hi hocc hpre huniq _ 0 (by omega) (by omega)

end HashTable

end DSAL
